import Mathlib

/-!
# wb-homa-adc: scale selection, multiplexer, averaging and conversion

A shallow embedding of `src/sysfs_adc.cpp` (the multiplexed ADC with its
voltage and resistance channels) and of `FindBestScale` and
`TChannelReader::SelectScale` from `src/src/sysfs_adc.cpp`.

Conventions of the embedding.

* `double` and `float` values are rationals (`ℚ`).  In the scale selection and
  in the resistance conversion every floating-point operation is rounded to
  its format, to nearest with ties to even (`roundDouble`, `roundFloat`); the
  average, the voltage conversion and the voltage check are in exact
  arithmetic.  An overflow to an infinity is not represented.  The NaN that
  `GetValue` returns is the constructor `Reading.nan`, and the infinity that a
  zero bracketed term leads to is `Reading.infinity`; the signs of zeros are
  not represented, and where the outcome depends on one the model stops with
  `Reading.divisionByZero`.
* `int` values are unbounded integers (`Int`): raw samples are ADC readings
  and the sums and products formed from them stay far below `2^31`.
* Code that can throw returns `Except Failure _`.
* The files the driver reads and writes, the sleeps and the current source
  are an explicit environment `Env` with a chronological event trace.
-/

namespace WbHomaAdc

/-! ## Floating-point rounding -/

/-- The integer nearest to `q`; a `q` halfway between two integers goes to the
even one. -/
def roundHalfEven (q : ℚ) : Int :=
  let f : Int := ⌊q⌋
  if q - f < 1 / 2 then f
  else if 1 / 2 < q - f then f + 1
  else if f % 2 = 0 then f else f + 1

/-- Rounding of the exact result `x` of an operation to a binary floating-point
format with `p` significand bits and least normal exponent `emin`: to the
nearest number of the format, ties to the even significand.  Below
`2 ^ emin` the spacing stays that of the subnormal numbers; the exponent is
not bounded above. -/
def roundBinary (p : Nat) (emin : Int) (x : ℚ) : ℚ :=
  if x = 0 then 0
  else
    let e : Int := max (Int.log 2 |x|) emin
    let ulp : ℚ := (2 : ℚ) ^ (e + 1 - (p : Int))
    (roundHalfEven (x / ulp) : ℚ) * ulp

/-- Rounding to `double`: 53 significand bits, least normal exponent `-1022`. -/
def roundDouble (x : ℚ) : ℚ := roundBinary 53 (-1022) x

/-- Rounding to `float`: 24 significand bits, least normal exponent `-126`. -/
def roundFloat (x : ℚ) : ℚ := roundBinary 24 (-126) x

/-! ## Scale selection -/

/-- How a run of the C++ code can end without returning. -/
inductive Failure where
  /-- The exception `TAdcException` thrown by the driver itself. -/
  | TAdcException (what : String)
  /-- The exception `std::out_of_range` thrown by `std::stod`, which
  `FindBestScale` does not catch. -/
  | out_of_range
  /-- The exception `std::length_error` thrown by `std::vector::resize`. -/
  | length_error
  /-- The C++ has undefined behaviour here (out-of-bounds element access,
  division or remainder by zero). -/
  | undefined
deriving DecidableEq, Repr

/-- Outcome of one call of `std::stod` on a token; the value converted is a
`double`, given as the rational it is. -/
inductive StodResult where
  /-- A leading numeral was converted. -/
  | value (v : ℚ)
  /-- No conversion could be performed: `std::invalid_argument`. -/
  | invalid_argument
  /-- The numeral is outside the range of `double`: `std::out_of_range`. -/
  | out_of_range
deriving DecidableEq, Repr

/-- The condition of the `if` in the loop of `FindBestScale`
(`src/src/sysfs_adc.cpp:28-31`; the same condition stands in
`TSysfsAdc::SelectScale`, `src/sysfs_adc.cpp:63-66`).  The two differences
are `double` subtractions, and `fabs` and the comparisons are exact. -/
def acceptsScale (desiredScale val bestScaleDouble : ℚ) : Bool :=
  (decide (desiredScale > 0) &&
      decide (|roundDouble (val - desiredScale)| ≤
        |roundDouble (bestScaleDouble - desiredScale)|))
    || (decide (desiredScale ≤ 0) && decide (val ≥ bestScaleDouble))

/-- The `for` loop of `FindBestScale` over the remaining tokens, from the
current pair `(bestScaleStr, bestScaleDouble)`.  `stod` is the standard
library's conversion, a parameter of the model. -/
def scaleLoop (stod : String → StodResult) (desiredScale : ℚ) :
    List String → String × ℚ → Except Failure (String × ℚ)
  | [], best => .ok best
  | scaleStr :: rest, best =>
    match stod scaleStr with
    | .invalid_argument => scaleLoop stod desiredScale rest best
    | .out_of_range => .error .out_of_range
    | .value val =>
      if acceptsScale desiredScale val best.2 then
        scaleLoop stod desiredScale rest (scaleStr, val)
      else
        scaleLoop stod desiredScale rest best

/-- The function `FindBestScale` of `src/src/sysfs_adc.cpp:15-38`:
`bestScaleStr` starts empty and `bestScaleDouble` starts at `0`. -/
def FindBestScale (stod : String → StodResult) (scales : List String) (desiredScale : ℚ) :
    Except Failure String :=
  match scaleLoop stod desiredScale scales ("", 0) with
  | .ok best => .ok best.1
  | .error e => .error e

/-! ### A concrete `std::stod` for plain decimal tokens -/

/-- Reads the longest run of decimal digits at the head of `cs`: the number
read so far, how many digits were read, and the rest of the input. -/
def scanDigits : List Char → Nat → Nat × Nat × List Char
  | [], acc => (acc, 0, [])
  | c :: cs, acc =>
    if c.isDigit then
      let r := scanDigits cs (acc * 10 + (c.toNat - 48))
      (r.1, r.2.1 + 1, r.2.2)
    else (acc, 0, c :: cs)

/-- Skips the leading white space, as `strtod` does. -/
def skipSpaces : List Char → List Char
  | [] => []
  | c :: cs => if c.isWhitespace then skipSpaces cs else c :: cs

/-- An unsigned decimal numeral `digits[.digits]` or `.digits` at the head of
the input; at least one digit is required. -/
def unsignedDecimal (cs : List Char) : Option ℚ :=
  let ip := scanDigits cs 0
  match ip.2.2 with
  | '.' :: rest =>
    let fp := scanDigits rest 0
    if ip.2.1 + fp.2.1 = 0 then none
    else some ((ip.1 : ℚ) + (fp.1 : ℚ) / (10 : ℚ) ^ fp.2.1)
  | _ => if ip.2.1 = 0 then none else some (ip.1 : ℚ)

/-- The behaviour of `std::stod` on tokens written as plain decimal numerals:
leading white space and an optional sign are accepted, the longest numeral is
converted and what follows it is ignored; a token with no numeral at its head
is `invalid_argument`.  The value is the `double` nearest to the decimal.
Exponents, hexadecimal numerals, `inf` and `nan`, and numerals beyond the
range of `double`, are outside this model. -/
def stodDecimal (s : String) : StodResult :=
  match skipSpaces s.data with
  | '-' :: rest =>
    match unsignedDecimal rest with
    | some v => .value (roundDouble (-v))
    | none => .invalid_argument
  | '+' :: rest =>
    match unsignedDecimal rest with
    | some v => .value (roundDouble v)
    | none => .invalid_argument
  | cs =>
    match unsignedDecimal cs with
    | some v => .value (roundDouble v)
    | none => .invalid_argument

/-! ## The environment and the device -/

/-- What the driver does to the outside world, in the order it happens. -/
inductive Event where
  /-- A GPIO number written to `/class/gpio/export`. -/
  | gpioExport (gpio : Int)
  /-- The word `out` written to the direction file of a GPIO line. -/
  | gpioDirection (gpio : Int)
  /-- A value written to the value file of a GPIO line (`SetGPIOValue`). -/
  | gpioValue (gpio : Int) (value : Int)
  /-- A call `usleep(usec)`. -/
  | usleep (usec : Int)
  /-- A call `this_thread::sleep_for(chrono::milliseconds(ms))`. -/
  | sleepMs (ms : Int)
  /-- One raw sample read from the raw file (`ReadValue`). -/
  | readRaw (val : Int)
  /-- A call `::SetUpCurrentSource(channel, current)`. -/
  | SetUpCurrentSource (channel : Int) (current : Int)
  /-- A call `::SwitchOffCurrentSource(channel)`. -/
  | SwitchOffCurrentSource (channel : Int)
deriving DecidableEq, Repr

/-- Whether an event is a call to the current-source collaborator. -/
def Event.isCurrentSource : Event → Bool
  | .SetUpCurrentSource _ _ => true
  | .SwitchOffCurrentSource _ => true
  | _ => false

/-- Whether an event is a raw sample read. -/
def Event.isRead : Event → Bool
  | .readRaw _ => true
  | _ => false

/-- Whether an event is a write to a GPIO value file. -/
def Event.isGpioValue : Event → Bool
  | .gpioValue _ _ => true
  | _ => false

/-- Whether an event is a sleep of either kind. -/
def Event.isSleep : Event → Bool
  | .usleep _ => true
  | .sleepMs _ => true
  | _ => false

/-- The outside world as the driver sees it: the raw sample file, the GPIO
files, and the trace of what has been done so far. -/
structure Env where
  /-- The number the raw file yields at the 0th, 1st, 2nd, ... read. -/
  rawFile : Nat → Int
  /-- How many raw reads have been made. -/
  reads : Nat
  /-- The events so far, oldest first. -/
  trace : List Event
  /-- Whether the direction file of a GPIO line opens before any export. -/
  directionOpens : Int → Bool
  /-- Whether `/class/gpio/export` opens for writing. -/
  exportOpens : Bool
  /-- Whether the direction file of a GPIO line opens after its export. -/
  directionOpensExported : Int → Bool
  /-- Whether the value file of a GPIO line opens for writing. -/
  valueOpens : Int → Bool

/-- Appends one event to the trace. -/
def Env.emit (e : Env) (ev : Event) : Env :=
  { e with trace := e.trace ++ [ev] }

/-- The two concrete classes derived from `TSysfsAdc`. -/
inductive AdcClass where
  | TSysfsAdcMux
  | TSysfsAdcPhys
deriving DecidableEq, Repr

/-- Declarations of `sysfs_adc.h` that `sysfs_adc.cpp` uses; the header is not
among the sources, so they are parameters of the model. -/
structure Header where
  /-- The value of `ADC_VALUE_MAX`. -/
  ADC_VALUE_MAX : Int
  /-- The value of `DELAY`, in milliseconds. -/
  DELAY : Int
  /-- Whether `TSysfsAdcChannelPrivate::Sum` is declared with a floating-point
  type (`true`) or with an integer type (`false`). -/
  sumIsFloating : Bool
  /-- Whether `TSysfsAdc::IIOScale` is declared `double` (`true`) or `float`
  (`false`). -/
  scaleIsDouble : Bool

/-- The object `TSysfsAdc` (fields used by the modelled code, for both derived
classes), together with the environment it acts on. -/
structure TSysfsAdc where
  cls : AdcClass
  IIOScale : ℚ
  MaxVoltage : ℚ
  AveragingWindow : Int
  Initialized : Bool
  MinSwitchIntervalMs : Int
  CurrentMuxInput : Int
  GpioMuxA : Int
  GpioMuxB : Int
  GpioMuxC : Int
  env : Env

namespace TSysfsAdc

/-- The method `TSysfsAdc::ReadValue` (`src/sysfs_adc.cpp:196-202`): seeks to
the start of the raw file and reads one integer. -/
def ReadValue (o : TSysfsAdc) : Int × TSysfsAdc :=
  let val := o.env.rawFile o.env.reads
  (val, { o with env := { o.env with reads := o.env.reads + 1,
                                     trace := o.env.trace ++ [Event.readRaw val] } })

/-- The method `TSysfsAdc::CheckVoltage` (`src/sysfs_adc.cpp:204-211`). -/
def CheckVoltage (o : TSysfsAdc) (value : Int) : Bool :=
  let voltage : ℚ := o.IIOScale * (value : ℚ)
  if voltage > o.MaxVoltage then false else true

end TSysfsAdc

/-! ## The multiplexer -/

namespace TSysfsAdcMux

/-- The method `TSysfsAdcMux::InitGPIO` (`src/sysfs_adc.cpp:240-255`). -/
def InitGPIO (gpio : Int) (o : TSysfsAdc) : Except Failure TSysfsAdc :=
  if o.env.directionOpens gpio then
    .ok { o with env := o.env.emit (.gpioDirection gpio) }
  else if !o.env.exportOpens then
    .error (.TAdcException ("unable to export GPIO " ++ toString gpio))
  else
    let env1 := o.env.emit (.gpioExport gpio)
    if !env1.directionOpensExported gpio then
      .error (.TAdcException ("unable to set GPIO direction" ++ toString gpio))
    else
      .ok { o with env := env1.emit (.gpioDirection gpio) }

/-- The method `TSysfsAdcMux::InitMux` (`src/sysfs_adc.cpp:230-238`). -/
def InitMux (o : TSysfsAdc) : Except Failure TSysfsAdc :=
  if o.Initialized then .ok o
  else
    match InitGPIO o.GpioMuxA o with
    | .error e => .error e
    | .ok o1 =>
      match InitGPIO o1.GpioMuxB o1 with
      | .error e => .error e
      | .ok o2 =>
        match InitGPIO o2.GpioMuxC o2 with
        | .error e => .error e
        | .ok o3 => .ok { o3 with Initialized := true }

/-- The method `TSysfsAdcMux::SetGPIOValue` (`src/sysfs_adc.cpp:257-263`). -/
def SetGPIOValue (gpio : Int) (value : Int) (o : TSysfsAdc) : Except Failure TSysfsAdc :=
  if !o.env.valueOpens gpio then
    .error (.TAdcException ("unable to set value of gpio " ++ toString gpio))
  else
    .ok { o with env := o.env.emit (.gpioValue gpio value) }

/-- The method `TSysfsAdcMux::SetMuxABC` (`src/sysfs_adc.cpp:294-306`); the
debug output is left out.  `n & 1`, `n & 2` and `n & 4` are the bitwise
conjunctions of two's complement integers.  The method
`MaybeWaitBeforeSwitching` of the same class is called from nowhere and has no
counterpart here. -/
def SetMuxABC (n : Int) (o : TSysfsAdc) : Except Failure TSysfsAdc :=
  match InitMux o with
  | .error e => .error e
  | .ok o0 =>
    if o0.CurrentMuxInput = n then .ok o0
    else
      match SetGPIOValue o0.GpioMuxA (Int.land n 1) o0 with
      | .error e => .error e
      | .ok o1 =>
        match SetGPIOValue o1.GpioMuxB (Int.land n 2) o1 with
        | .error e => .error e
        | .ok o2 =>
          match SetGPIOValue o2.GpioMuxC (Int.land n 4) o2 with
          | .error e => .error e
          | .ok o3 =>
            .ok { o3 with CurrentMuxInput := n,
                          env := o3.env.emit (.usleep (o3.MinSwitchIntervalMs * 1000)) }

end TSysfsAdcMux

/-- The virtual method `SelectMuxChannel`: `TSysfsAdcMux::SelectMuxChannel`
(`src/sysfs_adc.cpp:225-228`) calls `SetMuxABC`, and
`TSysfsAdcPhys::SelectMuxChannel` (`src/sysfs_adc.cpp:313-315`) does nothing. -/
def TSysfsAdc.SelectMuxChannel (index : Int) (o : TSysfsAdc) : Except Failure TSysfsAdc :=
  match o.cls with
  | .TSysfsAdcMux => TSysfsAdcMux.SetMuxABC index o
  | .TSysfsAdcPhys => .ok o

/-! ## Channels: averaging and conversion -/

/-- What `GetValue` returns, a `float` in the source. -/
inductive Reading where
  /-- A NaN: the value `std::nan("")` the result is preset to, not available. -/
  | nan
  /-- A finite number. -/
  | value (v : ℚ)
  /-- Positive infinity. -/
  | infinity
  /-- The voltage and `Resistance1` are both zero and the current is not: what
  the code returns depends on the sign of the zero voltage, which this model
  does not follow. -/
  | divisionByZero
deriving DecidableEq, Repr

/-- The C function `round`: the nearest integer, halves away from zero. -/
def cround (x : ℚ) : Int :=
  if 0 ≤ x then ⌊x + 1 / 2⌋ else ⌈x - 1 / 2⌉

/-- The structure `TSysfsAdcChannelPrivate`, whose declaration is in
`sysfs_adc.h`; the fields are those `sysfs_adc.cpp` uses.  The pointer `Owner`
is not a field: the owning device is passed to every operation. -/
structure TSysfsAdcChannelPrivate where
  Index : Int
  Name : String
  ReadingsNumber : Int
  ChannelAveragingWindow : Int
  Buffer : List Int
  DischargeChannel : Int
  Sum : Int
  Ready : Bool
  Pos : Int

/-- The class `TSysfsAdcChannel`. -/
structure TSysfsAdcChannel where
  DecimalPlaces : Int
  d : TSysfsAdcChannelPrivate
  Multiplier : ℚ
  MqttType : String

namespace TSysfsAdcChannel

/-- The constructor `TSysfsAdcChannel::TSysfsAdcChannel`
(`src/sysfs_adc.cpp:318-331`).  `resize` with a negative count is a request
for more than `max_size()` elements and throws.  The initial values of `Sum`,
`Pos` and `Ready` come from the declaration in `sysfs_adc.h`; they are taken
as the specification gives them: sum `0`, cursor `0`, not ready. -/
def new (owner : TSysfsAdc) (index : Int) (name : String) (readings_number : Int)
    (decimal_places : Int) (discharge_channel : Int) (mqtt_type : String) (multiplier : ℚ) :
    Except Failure TSysfsAdcChannel :=
  let window := readings_number * owner.AveragingWindow
  if window < 0 then .error .length_error
  else
    .ok { DecimalPlaces := decimal_places
          d := { Index := index
                 Name := name
                 ReadingsNumber := readings_number
                 ChannelAveragingWindow := window
                 Buffer := List.replicate window.toNat 0
                 DischargeChannel := discharge_channel
                 Sum := 0
                 Ready := false
                 Pos := 0 }
          Multiplier := multiplier
          MqttType := mqtt_type }

/-- One pass through the body of the warm-up loop of `GetAverageValue`
(`src/sysfs_adc.cpp:337-341`), with loop counter `i`. -/
def warmUpSample (i : Nat) (d : TSysfsAdcChannelPrivate) (o : TSysfsAdc) :
    Except Failure (TSysfsAdcChannelPrivate × TSysfsAdc) :=
  match o.SelectMuxChannel d.Index with
  | .error e => .error e
  | .ok o1 =>
    let v := o1.ReadValue.1
    let o2 := o1.ReadValue.2
    if i < d.Buffer.length then
      .ok ({ d with Buffer := d.Buffer.set i v, Sum := d.Sum + v }, o2)
    else .error .undefined

/-- The warm-up loop of `GetAverageValue` (`src/sysfs_adc.cpp:336-342`): `n`
passes are left and the loop counter stands at `i`. -/
def warmUpLoop : Nat → Nat → TSysfsAdcChannelPrivate → TSysfsAdc →
    Except Failure (TSysfsAdcChannelPrivate × TSysfsAdc)
  | 0, _, d, o => .ok (d, o)
  | n + 1, i, d, o =>
    match warmUpSample i d o with
    | .error e => .error e
    | .ok (d1, o1) => warmUpLoop n (i + 1) d1 o1

/-- One pass through the body of the update loop of `GetAverageValue`
(`src/sysfs_adc.cpp:346-352`). -/
def updateSample (K : Header) (d : TSysfsAdcChannelPrivate) (o : TSysfsAdc) :
    Except Failure (TSysfsAdcChannelPrivate × TSysfsAdc) :=
  match o.SelectMuxChannel d.Index with
  | .error e => .error e
  | .ok o1 =>
    let v := o1.ReadValue.1
    let o2 := o1.ReadValue.2
    if 0 ≤ d.Pos ∧ d.Pos.toNat < d.Buffer.length then
      if d.ChannelAveragingWindow = 0 then .error .undefined
      else
        .ok ({ d with Sum := d.Sum - d.Buffer.getD d.Pos.toNat 0 + v,
                      Buffer := d.Buffer.set d.Pos.toNat v,
                      Pos := Int.tmod (d.Pos + 1) d.ChannelAveragingWindow },
             { o2 with env := o2.env.emit (.sleepMs K.DELAY) })
    else .error .undefined

/-- The update loop of `GetAverageValue` (`src/sysfs_adc.cpp:345-353`) with `n`
passes left. -/
def updateLoop (K : Header) : Nat → TSysfsAdcChannelPrivate → TSysfsAdc →
    Except Failure (TSysfsAdcChannelPrivate × TSysfsAdc)
  | 0, d, o => .ok (d, o)
  | n + 1, d, o =>
    match updateSample K d o with
    | .error e => .error e
    | .ok (d1, o1) => updateLoop K n d1 o1

/-- The value of `round(d->Sum / d->ChannelAveragingWindow)` converted to
`int` (`src/sysfs_adc.cpp:355`) for a non-zero window: a floating-point `Sum`
is divided exactly and rounded, an integer `Sum` is divided with truncation
and `round` leaves the quotient as it is. -/
def average (K : Header) (sum window : Int) : Int :=
  if K.sumIsFloating then cround ((sum : ℚ) / (window : ℚ)) else Int.tdiv sum window

/-- The method `TSysfsAdcChannel::GetAverageValue`
(`src/sysfs_adc.cpp:333-356`), on the private part of a channel. -/
def GetAverageValue (K : Header) (d : TSysfsAdcChannelPrivate) (o : TSysfsAdc) :
    Except Failure (Int × TSysfsAdcChannelPrivate × TSysfsAdc) :=
  let looped :=
    if !d.Ready then
      match warmUpLoop d.ChannelAveragingWindow.toNat 0 d o with
      | .error e => .error e
      | .ok (d1, o1) => .ok ({ d1 with Ready := true }, o1)
    else updateLoop K d.ReadingsNumber.toNat d o
  match looped with
  | .error e => .error e
  | .ok (d1, o1) =>
    if d1.ChannelAveragingWindow = 0 then .error .undefined
    else .ok (average K d1.Sum d1.ChannelAveragingWindow, d1, o1)

/-- The part of `TSysfsAdcChannel::GetValue` after the average is known
(`src/sysfs_adc.cpp:365-374`). -/
def valueOf (K : Header) (c : TSysfsAdcChannel) (o : TSysfsAdc) (value : Int) : Reading :=
  if value < K.ADC_VALUE_MAX then
    if o.CheckVoltage value then
      .value ((value : ℚ) * c.Multiplier / 1000 * o.IIOScale)
    else .nan
  else .nan

/-- The method `TSysfsAdcChannel::GetValue` (`src/sysfs_adc.cpp:363-375`). -/
def GetValue (K : Header) (c : TSysfsAdcChannel) (o : TSysfsAdc) :
    Except Failure (Reading × TSysfsAdcChannel × TSysfsAdc) :=
  match GetAverageValue K c.d o with
  | .error e => .error e
  | .ok (value, d1, o1) => .ok (valueOf K c o1 value, { c with d := d1 }, o1)

end TSysfsAdcChannel

/-- The class `TSysfsAdcChannelRes`, derived from `TSysfsAdcChannel`. -/
structure TSysfsAdcChannelRes extends TSysfsAdcChannel where
  Current : Int
  Resistance1 : Int
  Resistance2 : Int
  SourceAlwaysOn : Bool
  CurrentCalibrationFactor : ℚ
  CurrentSourceChannel : Int

namespace TSysfsAdcChannelRes

/-- The method `TSysfsAdcChannelRes::SetUpCurrentSource`
(`src/sysfs_adc.cpp:438-441`); the callee is in `lradc_isrc.h` and appears as
an event. -/
def SetUpCurrentSource (c : TSysfsAdcChannelRes) (o : TSysfsAdc) : TSysfsAdc :=
  { o with env := o.env.emit (.SetUpCurrentSource c.CurrentSourceChannel c.Current) }

/-- The method `TSysfsAdcChannelRes::SwitchOffCurrentSource`
(`src/sysfs_adc.cpp:443-446`). -/
def SwitchOffCurrentSource (c : TSysfsAdcChannelRes) (o : TSysfsAdc) : TSysfsAdc :=
  { o with env := o.env.emit (.SwitchOffCurrentSource c.CurrentSourceChannel) }

/-- The constructor `TSysfsAdcChannelRes::TSysfsAdcChannelRes`
(`src/sysfs_adc.cpp:386-402`).  `defaultMultiplier` is the default argument of
the base constructor and `sourceChannel` the value of
`GetCurrentSourceChannelNumber(owner->GetLradcChannel())`, both declared
outside `sysfs_adc.cpp`. -/
def new (defaultMultiplier : ℚ) (sourceChannel : Int)
    (owner : TSysfsAdc) (index : Int) (name : String) (readings_number : Int)
    (decimal_places : Int) (discharge_channel : Int) (current : Int) (resistance1 : Int)
    (resistance2 : Int) (source_always_on : Bool) (current_calibration_factor : ℚ)
    (mqtt_type : String) : Except Failure (TSysfsAdcChannelRes × TSysfsAdc) :=
  match TSysfsAdcChannel.new owner index name readings_number decimal_places discharge_channel
      mqtt_type defaultMultiplier with
  | .error e => .error e
  | .ok base =>
    let c : TSysfsAdcChannelRes :=
      { toTSysfsAdcChannel := base
        Current := current
        Resistance1 := resistance1
        Resistance2 := resistance2
        SourceAlwaysOn := source_always_on
        CurrentCalibrationFactor := current_calibration_factor
        CurrentSourceChannel := sourceChannel }
    if c.SourceAlwaysOn then .ok (c, c.SetUpCurrentSource owner) else .ok (c, owner)

/-- The value of the variable `voltage` of `TSysfsAdcChannelRes::GetValue`,
`float voltage = d->Owner->IIOScale * value / 1000` (`src/sysfs_adc.cpp:420`).
For a `double` scale: a `double` product and a `double` quotient, converted to
`float`.  For a `float` scale: `value` is converted to `float`, and the
product and the quotient are `float` operations. -/
def voltage (K : Header) (o : TSysfsAdc) (value : Int) : ℚ :=
  if K.scaleIsDouble then
    roundFloat (roundDouble (roundDouble (o.IIOScale * (value : ℚ)) / 1000))
  else roundFloat (roundFloat (o.IIOScale * roundFloat (value : ℚ)) / 1000)

/-- The value of `Current * CurrentCalibrationFactor / 1000000.0`
(`src/sysfs_adc.cpp:421`): `Current` is converted to `float` and multiplied in
`float`, and the quotient is a `double` operation.  `Current` is `int` and
`CurrentCalibrationFactor` is `float`, the types of the parameters of the
constructor they are initialised from. -/
def amperes (c : TSysfsAdcChannelRes) : ℚ :=
  roundDouble (roundFloat (roundFloat (c.Current : ℚ) * c.CurrentCalibrationFactor) / 1000000)

/-- The value of the bracketed term
`(Current * CurrentCalibrationFactor / 1000000.0) / voltage - 1.0/Resistance1`
(`src/sysfs_adc.cpp:421`) for a non-zero `voltage` and a non-zero
`Resistance1`, in `double` operations. -/
def bracket (c : TSysfsAdcChannelRes) (voltage : ℚ) : ℚ :=
  roundDouble (roundDouble (c.amperes / voltage) - roundDouble (1 / (c.Resistance1 : ℚ)))

/-- The value the assignment `result = 1.0 / B - Resistance2`
(`src/sysfs_adc.cpp:421`) stores for a non-zero value `B` of the bracketed
term: a `double` quotient and a `double` difference, converted to `float`. -/
def result (c : TSysfsAdcChannelRes) (B : ℚ) : ℚ :=
  roundFloat (roundDouble (roundDouble (1 / B) - (c.Resistance2 : ℚ)))

/-- The lines `if (result < 0) result = 0; result = round(result);`
(`src/sysfs_adc.cpp:422-425`). -/
def clamped (result : ℚ) : Reading :=
  let result : ℚ := if result < 0 then 0 else result
  .value ((cround result : Int) : ℚ)

/-- The part of `TSysfsAdcChannelRes::GetValue` between the average and the
switching off of the current source (`src/sysfs_adc.cpp:418-428`).  Where a
divisor is zero the code goes on in IEEE arithmetic:
* a zero voltage under a zero current makes the first quotient `0 / 0`, a NaN,
  which is what is returned;
* a zero voltage under a non-zero current makes the first quotient infinite,
  and a zero `Resistance1` makes the second quotient infinite; with one of the
  two the bracketed term is infinite, `1.0 / B` is a zero and `result` is
  `-Resistance2`;
* with both, the bracketed term is a NaN or infinite according to the sign of
  the zero voltage, which this model does not follow;
* a bracketed term that is zero is the difference of two equal non-zero
  numbers, `+0`: `1.0 / B` is positive infinity, and so is what is returned. -/
def valueOf (K : Header) (c : TSysfsAdcChannelRes) (o : TSysfsAdc) (value : Int) : Reading :=
  if value < K.ADC_VALUE_MAX then
    if o.CheckVoltage value then
      if voltage K o value = 0 then
        if c.amperes = 0 then .nan
        else if c.Resistance1 = 0 then .divisionByZero
        else clamped (roundFloat (-(c.Resistance2 : ℚ)))
      else if c.Resistance1 = 0 then clamped (roundFloat (-(c.Resistance2 : ℚ)))
      else if c.bracket (voltage K o value) = 0 then .infinity
      else clamped (c.result (c.bracket (voltage K o value)))
    else .nan
  else .nan

/-- The method `TSysfsAdcChannelRes::GetValue` (`src/sysfs_adc.cpp:405-432`). -/
def GetValue (K : Header) (c : TSysfsAdcChannelRes) (o : TSysfsAdc) :
    Except Failure (Reading × TSysfsAdcChannelRes × TSysfsAdc) :=
  let discharged :=
    if c.d.DischargeChannel ≠ -1 then o.SelectMuxChannel c.d.DischargeChannel else .ok o
  match discharged with
  | .error e => .error e
  | .ok o1 =>
    match o1.SelectMuxChannel c.d.Index with
    | .error e => .error e
    | .ok o2 =>
      let o3 :=
        if !c.SourceAlwaysOn then
          let s := c.SetUpCurrentSource o2
          { s with env := s.env.emit (.sleepMs K.DELAY) }
        else o2
      match TSysfsAdcChannel.GetAverageValue K c.d o3 with
      | .error e => .error e
      | .ok (value, d1, o4) =>
        let result := valueOf K c o4 value
        let o5 := if !c.SourceAlwaysOn then c.SwitchOffCurrentSource o4 else o4
        .ok (result, { c with d := d1 }, o5)

end TSysfsAdcChannelRes

/-! ## Predicates and pure counterparts used in the statements -/

/-- Events of the multiplexer: GPIO traffic and `usleep`. -/
def Event.isMux : Event → Bool
  | .gpioExport _ => true
  | .gpioDirection _ => true
  | .gpioValue _ _ => true
  | .usleep _ => true
  | _ => false

/-- The three GPIO lines of the multiplexer can be driven: each value file
opens, and, unless the multiplexer is initialized already, each direction file
opens, directly or after an export. -/
def TSysfsAdc.gpioWorks (o : TSysfsAdc) : Bool :=
  let dirOk : Int → Bool := fun g =>
    o.env.directionOpens g || (o.env.exportOpens && o.env.directionOpensExported g)
  (o.Initialized || (dirOk o.GpioMuxA && dirOk o.GpioMuxB && dirOk o.GpioMuxC))
    && o.env.valueOpens o.GpioMuxA && o.env.valueOpens o.GpioMuxB
    && o.env.valueOpens o.GpioMuxC

/-- Selecting a multiplexer input cannot fail: the device has no multiplexer,
or its GPIO lines can be driven. -/
def TSysfsAdc.selectable (o : TSysfsAdc) : Bool :=
  match o.cls with
  | .TSysfsAdcPhys => true
  | .TSysfsAdcMux => o.gpioWorks

/-- The device `o` with `n` more raw reads made, the events `evs` added to the
trace, and the two state variables of the multiplexer set to `ini` and `sel`;
everything else as it is. -/
def TSysfsAdc.advanced (o : TSysfsAdc) (ini : Bool) (sel : Int) (n : Nat) (evs : List Event) :
    TSysfsAdc :=
  { o with
    Initialized := ini
    CurrentMuxInput := sel
    env := { o.env with reads := o.env.reads + n, trace := o.env.trace ++ evs } }

/-- The device `o2` is the device `o1` after some activity that made `n` raw
reads and called the current source not at all: the configuration, the raw
file and the GPIO files are the same, the trace has grown by the events `evs`,
and an initialized multiplexer is still initialized. -/
def Advances (n : Nat) (evs : List Event) (o1 o2 : TSysfsAdc) : Prop :=
  (∃ ini sel, o2 = o1.advanced ini sel n evs ∧ (o1.Initialized = true → ini = true)) ∧
    (∀ e ∈ evs, e.isCurrentSource = false) ∧ evs.countP Event.isRead = n

/-- The buffer of a channel matches its window. -/
def TSysfsAdcChannelPrivate.WellFormed (d : TSysfsAdcChannelPrivate) : Prop :=
  0 < d.ChannelAveragingWindow ∧ d.Buffer.length = d.ChannelAveragingWindow.toNat ∧
    0 ≤ d.Pos ∧ d.Pos < d.ChannelAveragingWindow

/-- The outcome of `n + 1` successive calls of `GetAverageValue` on a channel,
nothing else touching the device in between: what the last call returns. -/
def TSysfsAdcChannel.callsGetAverageValue (K : Header) :
    Nat → TSysfsAdcChannelPrivate → TSysfsAdc →
      Except Failure (Int × TSysfsAdcChannelPrivate × TSysfsAdc)
  | 0, d, o => TSysfsAdcChannel.GetAverageValue K d o
  | n + 1, d, o =>
    match TSysfsAdcChannel.GetAverageValue K d o with
    | .error e => .error e
    | .ok (_, d1, o1) => callsGetAverageValue K n d1 o1

/-! ## The averaging buffer as a pure function of the samples -/

namespace TSysfsAdcChannelPrivate

/-- What one pass of the warm-up loop with counter `i` does to the channel when
the sample read is `v`. -/
def fillSample (d : TSysfsAdcChannelPrivate) (i : Nat) (v : Int) : TSysfsAdcChannelPrivate :=
  { d with Buffer := d.Buffer.set i v, Sum := d.Sum + v }

/-- What `n` passes of the warm-up loop from counter `i` do to the channel
when the samples read are `f start`, `f (start + 1)`, ... -/
def fillSamples (f : Nat → Int) : Nat → Nat → Nat → TSysfsAdcChannelPrivate →
    TSysfsAdcChannelPrivate
  | 0, _, _, d => d
  | n + 1, start, i, d => fillSamples f n (start + 1) (i + 1) (d.fillSample i (f start))

/-- What one pass of the update loop does to the channel when the sample read
is `v`. -/
def pushSample (d : TSysfsAdcChannelPrivate) (v : Int) : TSysfsAdcChannelPrivate :=
  { d with Sum := d.Sum - d.Buffer.getD d.Pos.toNat 0 + v,
           Buffer := d.Buffer.set d.Pos.toNat v,
           Pos := Int.tmod (d.Pos + 1) d.ChannelAveragingWindow }

/-- What `n` passes of the update loop do to the channel when the samples read
are `f start`, `f (start + 1)`, ... -/
def pushSamples (f : Nat → Int) : Nat → Nat → TSysfsAdcChannelPrivate → TSysfsAdcChannelPrivate
  | 0, _, d => d
  | n + 1, start, d => pushSamples f n (start + 1) (d.pushSample (f start))

/-- The buffer is a ring over the raw file: the running sum is the sum of the
buffer, and with `reads` samples read so far the slots before the cursor hold
the newest samples and the slots from the cursor on hold the oldest of the
last `Buffer.length` samples. -/
def Circular (d : TSysfsAdcChannelPrivate) (f : Nat → Int) (reads : Nat) : Prop :=
  d.WellFormed ∧ d.Sum = d.Buffer.sum ∧ d.Buffer.length ≤ reads ∧
    ∀ k, k < d.Buffer.length →
      d.Buffer.getD k 0 =
        f (if k < d.Pos.toNat then reads + k - d.Pos.toNat
           else reads + k - d.Pos.toNat - d.Buffer.length)

/-- The channel after one call of `GetAverageValue` that read the samples
`f reads`, `f (reads + 1)`, ... -/
def afterCall (d : TSysfsAdcChannelPrivate) (f : Nat → Int) (reads : Nat) :
    TSysfsAdcChannelPrivate :=
  if d.Ready then d.pushSamples f d.ReadingsNumber.toNat reads
  else { d.fillSamples f d.ChannelAveragingWindow.toNat reads 0 with Ready := true }

/-- How many samples one call of `GetAverageValue` reads. -/
def drawn (d : TSysfsAdcChannelPrivate) : Nat :=
  if d.Ready then d.ReadingsNumber.toNat else d.ChannelAveragingWindow.toNat

/-- A channel as its constructor leaves it, for a positive window. -/
def Fresh (d : TSysfsAdcChannelPrivate) : Prop :=
  d.WellFormed ∧ d.Ready = false ∧ d.Sum = 0 ∧ d.Pos = 0 ∧
    ∀ k, k < d.Buffer.length → d.Buffer.getD k 0 = 0

/-- The state of the buffer in the warm-up loop when the counter stands at
`i`, the first sample of the loop being `f start`. -/
def Warming (d : TSysfsAdcChannelPrivate) (f : Nat → Int) (start i : Nat) : Prop :=
  d.WellFormed ∧ d.Pos = 0 ∧ d.Sum = d.Buffer.sum ∧ i ≤ d.Buffer.length ∧
    (∀ k, k < i → d.Buffer.getD k 0 = f (start + k)) ∧
    (∀ k, i ≤ k → k < d.Buffer.length → d.Buffer.getD k 0 = 0)

end TSysfsAdcChannelPrivate

/-! ## Concrete devices and channels for the examples -/

/-- An environment in which every file opens and the raw file yields `1000`
at every read. -/
def exampleEnv : Env :=
  { rawFile := fun _ => 1000
    reads := 0
    trace := []
    directionOpens := fun _ => true
    exportOpens := true
    directionOpensExported := fun _ => true
    valueOpens := fun _ => true }

/-- A multiplexed device, initialized, with input `3` selected, GPIO lines
`10`, `11`, `12` and a switch interval of 5 ms. -/
def exampleMux : TSysfsAdc :=
  { cls := .TSysfsAdcMux
    IIOScale := 1 / 1000
    MaxVoltage := 3100
    AveragingWindow := 2
    Initialized := true
    MinSwitchIntervalMs := 5
    CurrentMuxInput := 3
    GpioMuxA := 10
    GpioMuxB := 11
    GpioMuxC := 12
    env := exampleEnv }

/-- Values for the declarations of the header: a 12-bit maximum, 10 ms between
samples, an integer running sum, a `double` scale. -/
def exampleHeader : Header :=
  { ADC_VALUE_MAX := 4095, DELAY := 10, sumIsFloating := false, scaleIsDouble := true }

/-- The example device with scale `1/2` and a raw file that yields `4095`, the
value of `ADC_VALUE_MAX` in `exampleHeader`, at every read. -/
def exampleSaturated : TSysfsAdc :=
  { exampleMux with
    IIOScale := 1 / 2
    env := { exampleEnv with rawFile := fun _ => 4095 } }

/-- A voltage channel on input `3` with multiplier `1000`, two readings per
cycle and no discharge channel, not yet warmed up. -/
def exampleChannel : TSysfsAdcChannel :=
  { DecimalPlaces := 2
    d := { Index := 3
           Name := "A1"
           ReadingsNumber := 2
           ChannelAveragingWindow := 4
           Buffer := [0, 0, 0, 0]
           DischargeChannel := -1
           Sum := 0
           Ready := false
           Pos := 0 }
    Multiplier := 1000
    MqttType := "" }

/-- A resistance channel on input `3`: current `1000`, calibration factor `1`,
series resistances `100000` and `0`. -/
def exampleChannelRes (alwaysOn : Bool) : TSysfsAdcChannelRes :=
  { toTSysfsAdcChannel := exampleChannel
    Current := 1000
    Resistance1 := 100000
    Resistance2 := 0
    SourceAlwaysOn := alwaysOn
    CurrentCalibrationFactor := 1
    CurrentSourceChannel := 7 }

/-- The example device with the scale `4503599717442489 / 9007199254740992`, the
`double` nearest to `0.50000001`, and a raw file that yields `2000` at every
read. -/
def exampleOpen : TSysfsAdc :=
  { exampleMux with
    IIOScale := 4503599717442489 / 9007199254740992
    env := { exampleEnv with rawFile := fun _ => 2000 } }

/-- The example resistance channel with current `10`, source not always on. -/
def exampleChannelOpen : TSysfsAdcChannelRes :=
  { exampleChannelRes false with Current := 10 }

/-- The example device with a raw file that yields `500` at the first four
reads and `1000` from then on. -/
def exampleStep : TSysfsAdc :=
  { exampleMux with
    env := { exampleEnv with rawFile := fun i => if i < 4 then 500 else 1000 } }

/-! ## Committing the scale -/

/-- The files `SelectScale` works with, under the device directory
`SysfsIIODir` and for the channel `ch` (`GetLradcChannel()` in
`src/sysfs_adc.cpp`, `Cfg.ChannelNumber` in `src/src/sysfs_adc.cpp`). -/
inductive ScaleFile where
  /-- The file `SysfsIIODir/in_<ch>_scale_available`. -/
  | channelAvailable
  /-- The file `SysfsIIODir/in_voltage_scale_available`. -/
  | voltageAvailable
  /-- The file `SysfsIIODir/scale_available`. -/
  | deviceAvailable
  /-- The file `SysfsIIODir/in_<ch>_scale`, called `scale_prefix`. -/
  | channelScale
  /-- The file `SysfsIIODir/in_voltage_scale`. -/
  | voltageScale
deriving DecidableEq, Repr

/-- The scale files as the driver finds them. -/
structure ScaleFiles where
  /-- The contents of a file that opens for reading, `none` for one that does
  not open. -/
  opens : ScaleFile → Option String
  /-- Whether a file opens for writing. -/
  writable : ScaleFile → Bool

/-- What `SelectScale` takes from outside `sysfs_adc.cpp`: the configured
scale and three library functions. -/
structure ScaleConfig where
  /-- The configured scale, `ChannelConfig.Scale` or `Cfg.Scale`. -/
  Scale : ℚ
  /-- The conversion `std::stod`. -/
  stod : String → StodResult
  /-- The function `StringSplit` of the library `wbmqtt`. -/
  StringSplit : String → String → List String
  /-- The value `IIOScale` holds after `stream >> IIOScale` on a file with the
  given contents, when it held the second argument before. -/
  extract : String → ℚ → ℚ

/-- The function `TryOpen` (`src/sysfs_adc.cpp:24-35`): the first of the files
that opens is left open in the stream, here given by its contents; `none` when
none opens. -/
def TryOpen (fs : ScaleFiles) : List ScaleFile → Option String
  | [] => none
  | fname :: rest =>
    match fs.opens fname with
    | some contents => some contents
    | none => TryOpen fs rest

/-- The method `TSysfsAdc::SelectScale` (`src/sysfs_adc.cpp:37-100`), as a
function of the scale files and of the value `IIOScale` holds before the call:
the value it holds after the call and the texts written, each with its file. -/
def TSysfsAdc.SelectScale (P : ScaleConfig) (fs : ScaleFiles) (IIOScale : ℚ) :
    Except Failure (ℚ × List (ScaleFile × String)) :=
  match TryOpen fs [.channelAvailable, .voltageAvailable, .deviceAvailable] with
  | some contents =>
    match scaleLoop P.stod P.Scale (P.StringSplit contents " ") ("", 0) with
    | .error e => .error e
    | .ok (best_scale_str, best_scale) =>
      if !fs.writable .channelScale then
        .error (.TAdcException "error opening IIO sysfs scale file")
      else .ok (best_scale, [(.channelScale, best_scale_str)])
  | none =>
    match fs.opens .channelScale with
    | some text => .ok (P.extract text IIOScale, [])
    | none =>
      match fs.opens .voltageScale with
      | some text => .ok (P.extract text IIOScale, [])
      | none => .ok (IIOScale, [])

/-- Modelled from the spec: the helper `WriteToFile` of `file_utils.h`, which is
not among the sources. The text is written to the file, and the call fails
when the file cannot be written (section 4.2 of the specification: "fails with
`ScaleWriteFailed` if unwritable"). -/
def WriteToFile (fs : ScaleFiles) (fname : ScaleFile) (text : String) :
    Except Failure (ScaleFile × String) :=
  if fs.writable fname then .ok (fname, text) else .error (.TAdcException "ScaleWriteFailed")

/-- The method `TChannelReader::SelectScale` (`src/src/sysfs_adc.cpp:133-163`),
in the same terms as `TSysfsAdc.SelectScale`; its `TryOpen` comes from
`file_utils.h` and is taken to be the function of that name in
`src/sysfs_adc.cpp`. The second call of `std::stod` is on a token the loop has
converted, so an `invalid_argument` from it is the undefined outcome. -/
def TChannelReader.SelectScale (P : ScaleConfig) (fs : ScaleFiles) (IIOScale : ℚ) :
    Except Failure (ℚ × List (ScaleFile × String)) :=
  let fallback : Except Failure (ℚ × List (ScaleFile × String)) :=
    match TryOpen fs [.channelScale, .voltageScale] with
    | some text => .ok (P.extract text IIOScale, [])
    | none => .ok (IIOScale, [])
  match TryOpen fs [.channelAvailable, .voltageAvailable, .deviceAvailable] with
  | some contents =>
    match FindBestScale P.stod (P.StringSplit contents " ") P.Scale with
    | .error e => .error e
    | .ok bestScaleStr =>
      if bestScaleStr ≠ "" then
        match P.stod bestScaleStr with
        | .value v =>
          match WriteToFile fs .channelScale bestScaleStr with
          | .error e => .error e
          | .ok written => .ok (v, [written])
        | .out_of_range => .error .out_of_range
        | .invalid_argument => .error .undefined
      else fallback
  | none => fallback

/-- Splits the characters `cs` at every character `sep`; `cur` holds the
characters of the current token, newest first. -/
def splitAt (sep : Char) : List Char → List Char → List String
  | [], cur => [String.mk cur.reverse]
  | c :: cs, cur =>
    if c = sep then String.mk cur.reverse :: splitAt sep cs [] else splitAt sep cs (c :: cur)

/-- A `StringSplit` for separators of one character. -/
def exampleSplit (s sep : String) : List String :=
  match sep.data with
  | [c] => splitAt c s.data []
  | _ => [s]

/-- A configuration with no desired scale, the decimal conversion, and a
stream extraction that stores the converted number, or `0` when there is
none. -/
def exampleScaleConfig : ScaleConfig :=
  { Scale := 0
    stod := stodDecimal
    StringSplit := exampleSplit
    extract := fun text _ =>
      match stodDecimal text with
      | .value v => v
      | _ => 0 }

/-- Scale files of which two open: the list of available scales of the
channel, with the contents `abc`, and the scale of the channel, with the
contents `0.5`; every file can be written. -/
def exampleScaleFiles : ScaleFiles :=
  { opens := fun f =>
      match f with
      | .channelAvailable => some "abc"
      | .channelScale => some "0.5"
      | _ => none
    writable := fun _ => true }

/-! ## A channel with a floating-point running sum -/

/-- Values for the declarations of the header with a floating-point running
sum: a 12-bit maximum, 10 ms between samples, a `double` scale. -/
def exampleFloating : Header :=
  { ADC_VALUE_MAX := 4095, DELAY := 10, sumIsFloating := true, scaleIsDouble := true }

/-- The example device with a raw file that yields `2` at every read. -/
def exampleTwo : TSysfsAdc :=
  { exampleMux with
    env := { exampleEnv with rawFile := fun _ => 2 } }

/-- A ready channel on input `3` with window `2`, one reading per cycle, the
buffer `[1, 1]`, the running sum `2` and the cursor at `0`. -/
def exampleReady : TSysfsAdcChannelPrivate :=
  { Index := 3
    Name := "A1"
    ReadingsNumber := 1
    ChannelAveragingWindow := 2
    Buffer := [1, 1]
    DischargeChannel := -1
    Sum := 2
    Ready := true
    Pos := 0 }

/-! # Theorems -/

open TSysfsAdcChannel TSysfsAdcChannelPrivate

/-! ## Rounding: lemmas -/

/-- An integer at distance less than `1/2` from `q` is what `q` rounds to. -/
theorem roundHalfEven_eq (q : ℚ) (n : Int) (h : |q - n| < 1 / 2) : roundHalfEven q = n := by
  rw [abs_lt] at h
  obtain ⟨h1, h2⟩ := h
  unfold roundHalfEven
  by_cases hn : (n : ℚ) ≤ q
  · have hf : ⌊q⌋ = n := by
      rw [Int.floor_eq_iff]
      constructor
      · exact hn
      · linarith
    simp only [hf]
    rw [if_pos (by linarith)]
  · have hf : ⌊q⌋ = n - 1 := by
      rw [Int.floor_eq_iff]
      push_cast
      constructor <;> linarith
    simp only [hf]
    push_cast
    rw [if_neg (by linarith), if_pos (by linarith)]
    ring

/-- An integer rounds to itself. -/
theorem roundHalfEven_intCast (n : Int) : roundHalfEven (n : ℚ) = n :=
  roundHalfEven_eq _ n (by simp)

/-- The binary exponent of a number between `2 ^ e` and `2 ^ (e + 1)` is `e`. -/
theorem log_two_eq {x : ℚ} {e : Int} (hlo : (2 : ℚ) ^ e ≤ x) (hhi : x < (2 : ℚ) ^ (e + 1)) :
    Int.log 2 x = e := by
  have hx : 0 < x := lt_of_lt_of_le (by positivity) hlo
  have h1 : e ≤ Int.log 2 x := by
    have := (Int.zpow_le_iff_le_log (R := ℚ) (b := 2) (by norm_num) hx (x := e)).mp
      (by exact_mod_cast hlo)
    exact this
  have h2 : Int.log 2 x < e + 1 := by
    have := (Int.lt_zpow_iff_log_lt (R := ℚ) (b := 2) (by norm_num) hx (x := e + 1)).mp
      (by exact_mod_cast hhi)
    exact this
  omega

/-- How a number of the normal range rounds: with `2 ^ e <= |x| < 2 ^ (e + 1)`
and `n` the integer at distance less than `1/2` from `x` in units of the last
place, `x` rounds to `n` units. -/
theorem roundBinary_eq (p : Nat) (emin : Int) (x : ℚ) (e n : Int)
    (hlo : (2 : ℚ) ^ e ≤ |x|) (hhi : |x| < (2 : ℚ) ^ (e + 1)) (he : emin ≤ e)
    (hn : |x / (2 : ℚ) ^ (e + 1 - (p : Int)) - n| < 1 / 2) :
    roundBinary p emin x = (n : ℚ) * (2 : ℚ) ^ (e + 1 - (p : Int)) := by
  have hx : x ≠ 0 := by
    intro h
    rw [h, abs_zero] at hlo
    exact absurd hlo (not_le.mpr (by positivity))
  have hlog := log_two_eq hlo hhi
  simp only [roundBinary, hx, if_false, hlog, max_eq_left he]
  rw [roundHalfEven_eq _ n hn]

/-- A number of the format, `m * 2 ^ k` with `|m| < 2 ^ p` and `k` no less than
the least exponent of a unit in the last place, rounds to itself. -/
theorem roundBinary_representable (p : Nat) (emin : Int) (m k : Int)
    (hm : |m| < 2 ^ p) (hk : emin + 1 - (p : Int) ≤ k) :
    roundBinary p emin ((m : ℚ) * (2 : ℚ) ^ k) = (m : ℚ) * (2 : ℚ) ^ k := by
  by_cases hm0 : m = 0
  · simp [roundBinary, hm0]
  have h2k : (0 : ℚ) < (2 : ℚ) ^ k := by positivity
  have hx : (m : ℚ) * (2 : ℚ) ^ k ≠ 0 := by
    apply mul_ne_zero
    · exact_mod_cast hm0
    · exact h2k.ne'
  have habs : |(m : ℚ) * (2 : ℚ) ^ k| = (|m| : Int) * (2 : ℚ) ^ k := by
    rw [abs_mul, abs_of_pos h2k]
    push_cast
    rfl
  have hlt : |(m : ℚ) * (2 : ℚ) ^ k| < (2 : ℚ) ^ (k + (p : Int)) := by
    rw [habs, zpow_add₀ (by norm_num : (2 : ℚ) ≠ 0), mul_comm ((2 : ℚ) ^ k)]
    apply mul_lt_mul_of_pos_right _ h2k
    rw [zpow_natCast]
    exact_mod_cast hm
  have hpos : 0 < |(m : ℚ) * (2 : ℚ) ^ k| := abs_pos.mpr hx
  have hlog : Int.log 2 |(m : ℚ) * (2 : ℚ) ^ k| < k + (p : Int) :=
    (Int.lt_zpow_iff_log_lt (R := ℚ) (b := 2) (by norm_num) hpos).mp (by exact_mod_cast hlt)
  have hu : ∃ (u : Int) (j : Nat),
      u = max (Int.log 2 |(m : ℚ) * (2 : ℚ) ^ k|) emin + 1 - (p : Int) ∧ k = u + (j : Int) := by
    refine ⟨_, (k - (max (Int.log 2 |(m : ℚ) * (2 : ℚ) ^ k|) emin + 1 - (p : Int))).toNat,
      rfl, ?_⟩
    rw [Int.toNat_of_nonneg]
    · ring
    · rcases max_cases (Int.log 2 |(m : ℚ) * (2 : ℚ) ^ k|) emin with ⟨h, _⟩ | ⟨h, _⟩ <;>
        rw [h] <;> omega
  obtain ⟨u, j, hu, hj⟩ := hu
  have hpow : (2 : ℚ) ^ k = (2 : ℚ) ^ u * (2 : ℚ) ^ j := by
    have h1 : (2 : ℚ) ^ k = (2 : ℚ) ^ (u + (j : Int)) := congrArg (fun z : Int => (2 : ℚ) ^ z) hj
    rw [h1, zpow_add₀ (by norm_num : (2 : ℚ) ≠ 0), zpow_natCast]
  have hu0 : (2 : ℚ) ^ u ≠ 0 := by positivity
  simp only [roundBinary, hx, if_false, ← hu]
  have hdiv : (m : ℚ) * (2 : ℚ) ^ k / (2 : ℚ) ^ u = ((m * 2 ^ j : Int) : ℚ) := by
    rw [hpow]
    push_cast
    field_simp
    ring
  rw [hdiv, roundHalfEven_intCast, hpow]
  push_cast
  ring

/-- An integer below `2 ^ 53` in magnitude is a `double`. -/
theorem roundDouble_intCast (n : Int) (h : |n| < 2 ^ 53) : roundDouble (n : ℚ) = n := by
  have := roundBinary_representable 53 (-1022) n 0 h (by norm_num)
  simpa [roundDouble] using this

/-- An integer below `2 ^ 24` in magnitude is a `float`. -/
theorem roundFloat_intCast (n : Int) (h : |n| < 2 ^ 24) : roundFloat (n : ℚ) = n := by
  have := roundBinary_representable 24 (-126) n 0 h (by norm_num)
  simpa [roundFloat] using this

/-- A number `m * 2 ^ k` with `|m| < 2 ^ 53` and `k >= -1074` is a `double`. -/
theorem roundDouble_representable (m k : Int) (hm : |m| < 2 ^ 53) (hk : -1074 ≤ k) :
    roundDouble ((m : ℚ) * (2 : ℚ) ^ k) = (m : ℚ) * (2 : ℚ) ^ k :=
  roundBinary_representable 53 (-1022) m k hm (by norm_num; omega)

/-- The integers from `-5` to `5` are `double`s. -/
theorem roundDouble_small (n : Int) (h1 : -5 ≤ n) (h2 : n ≤ 5) : roundDouble (n : ℚ) = n :=
  roundDouble_intCast n (by rw [abs_lt]; constructor <;> omega)

/-- The number `1` is a `double`. -/
theorem roundDouble_one : roundDouble 1 = 1 := by
  simpa using roundDouble_small 1 (by norm_num) (by norm_num)

/-- The number `2` is a `double`. -/
theorem roundDouble_two : roundDouble 2 = 2 := by
  simpa using roundDouble_small 2 (by norm_num) (by norm_num)

/-- The number `4` is a `double`. -/
theorem roundDouble_four : roundDouble 4 = 4 := by
  simpa using roundDouble_small 4 (by norm_num) (by norm_num)

/-- The number `5` is a `double`. -/
theorem roundDouble_five : roundDouble 5 = 5 := by
  simpa using roundDouble_small 5 (by norm_num) (by norm_num)

/-- The number `-1` is a `double`. -/
theorem roundDouble_neg_one : roundDouble (-1) = -1 := by
  simpa using roundDouble_small (-1) (by norm_num) (by norm_num)

/-- The number `-2` is a `double`. -/
theorem roundDouble_neg_two : roundDouble (-2) = -2 := by
  simpa using roundDouble_small (-2) (by norm_num) (by norm_num)

/-- The number `-3` is a `double`. -/
theorem roundDouble_neg_three : roundDouble (-3) = -3 := by
  simpa using roundDouble_small (-3) (by norm_num) (by norm_num)

/-- The number `-4` is a `double`. -/
theorem roundDouble_neg_four : roundDouble (-4) = -4 := by
  simpa using roundDouble_small (-4) (by norm_num) (by norm_num)

/-- The number `1/2` is a `double`. -/
theorem roundDouble_half : roundDouble (1 / 2) = 1 / 2 := by
  have h := roundBinary_representable 53 (-1022) 1 (-1) (by norm_num) (by norm_num)
  have e : ((1 : Int) : ℚ) * (2 : ℚ) ^ (-1 : Int) = 1 / 2 := by norm_num
  rw [e] at h
  exact h

/-! ## Scale selection: lemmas -/

/-- The loop over a concatenation runs over the first part and continues over the
second from the pair the first part ends with. -/
theorem scaleLoop_append (stod : String → StodResult) (d : ℚ) (pre post : List String)
    (best : String × ℚ) :
    scaleLoop stod d (pre ++ post) best =
      match scaleLoop stod d pre best with
      | .ok b => scaleLoop stod d post b
      | .error e => .error e := by
  induction pre generalizing best with
  | nil => simp [scaleLoop]
  | cons t rest ih =>
    simp only [List.cons_append, scaleLoop]
    cases stod t with
    | invalid_argument => simpa using ih best
    | out_of_range => simp
    | value val =>
      by_cases h : acceptsScale d val best.2 = true
      · simpa [h] using ih (t, val)
      · simpa [h] using ih best

/-- For a positive desired scale the condition of the loop is the closeness test. -/
theorem acceptsScale_pos {d val b : ℚ} (hd : 0 < d) :
    acceptsScale d val b = true ↔ |roundDouble (val - d)| ≤ |roundDouble (b - d)| := by
  simp [acceptsScale, hd, not_le.mpr hd]

/-- For a desired scale that is not positive the condition of the loop is the
maximum test. -/
theorem acceptsScale_nonpos {d val b : ℚ} (hd : d ≤ 0) :
    acceptsScale d val b = true ↔ b ≤ val := by
  simp [acceptsScale, hd, not_lt.mpr hd]

/-- The closest rule of the loop, from any starting pair: the loop returns a
pair no farther from the desired scale than the starting pair and than every
converted token, and the pair is either the starting pair (every converted
token being strictly farther) or a token of the list with its value. -/
theorem scaleLoop_closest (stod : String → StodResult) (d : ℚ) (hd : 0 < d)
    (scales : List String) (hr : ∀ t ∈ scales, stod t ≠ .out_of_range) (best : String × ℚ) :
    ∃ r, scaleLoop stod d scales best = .ok r ∧ |roundDouble (r.2 - d)| ≤ |roundDouble (best.2 - d)| ∧
      (∀ t ∈ scales, ∀ u, stod t = .value u → |roundDouble (r.2 - d)| ≤ |roundDouble (u - d)|) ∧
      ((r = best ∧ ∀ t ∈ scales, ∀ u, stod t = .value u → |roundDouble (best.2 - d)| < |roundDouble (u - d)|) ∨
        (r.1 ∈ scales ∧ stod r.1 = .value r.2)) := by
  induction scales generalizing best with
  | nil => exact ⟨best, by simp [scaleLoop]⟩
  | cons t rest ih =>
    have hr' : ∀ t ∈ rest, stod t ≠ .out_of_range := fun x hx => hr x (List.mem_cons_of_mem _ hx)
    have ht := hr t (List.mem_cons_self _ _)
    simp only [scaleLoop]
    cases hst : stod t with
    | out_of_range => exact absurd hst ht
    | invalid_argument =>
      obtain ⟨r, h1, h2, h3, h4⟩ := ih hr' best
      refine ⟨r, h1, h2, ?_, ?_⟩
      · intro x hx u hu
        rcases List.mem_cons.mp hx with rfl | hx
        · rw [hst] at hu; cases hu
        · exact h3 x hx u hu
      · rcases h4 with ⟨h4, h5⟩ | ⟨h4, h5⟩
        · left
          refine ⟨h4, ?_⟩
          intro x hx u hu
          rcases List.mem_cons.mp hx with rfl | hx
          · rw [hst] at hu; cases hu
          · exact h5 x hx u hu
        · right
          exact ⟨List.mem_cons_of_mem _ h4, h5⟩
    | value val =>
      by_cases h : acceptsScale d val best.2 = true
      · have hle := (acceptsScale_pos hd).mp h
        obtain ⟨r, h1, h2, h3, h4⟩ := ih hr' (t, val)
        simp only [h, if_true]
        refine ⟨r, h1, le_trans h2 hle, ?_, ?_⟩
        · intro x hx u hu
          rcases List.mem_cons.mp hx with rfl | hx
          · rw [hst] at hu
            cases hu
            exact h2
          · exact h3 x hx u hu
        · right
          rcases h4 with ⟨h4, _⟩ | ⟨h4, h5⟩
          · subst h4
            exact ⟨List.mem_cons_self _ _, hst⟩
          · exact ⟨List.mem_cons_of_mem _ h4, h5⟩
      · have hlt : |roundDouble (best.2 - d)| < |roundDouble (val - d)| := by
          by_contra hc
          exact h ((acceptsScale_pos hd).mpr (not_lt.mp hc))
        obtain ⟨r, h1, h2, h3, h4⟩ := ih hr' best
        simp only [h]
        refine ⟨r, h1, h2, ?_, ?_⟩
        · intro x hx u hu
          rcases List.mem_cons.mp hx with rfl | hx
          · rw [hst] at hu
            cases hu
            exact le_trans h2 hlt.le
          · exact h3 x hx u hu
        · rcases h4 with ⟨h4, h5⟩ | ⟨h4, h5⟩
          · left
            refine ⟨h4, ?_⟩
            intro x hx u hu
            rcases List.mem_cons.mp hx with rfl | hx
            · rw [hst] at hu
              cases hu
              exact hlt
            · exact h5 x hx u hu
          · right
            exact ⟨List.mem_cons_of_mem _ h4, h5⟩

/-- The maximum rule of the loop, from any starting pair. -/
theorem scaleLoop_maximum (stod : String → StodResult) (d : ℚ) (hd : d ≤ 0)
    (scales : List String) (hr : ∀ t ∈ scales, stod t ≠ .out_of_range) (best : String × ℚ) :
    ∃ r, scaleLoop stod d scales best = .ok r ∧ best.2 ≤ r.2 ∧
      (∀ t ∈ scales, ∀ u, stod t = .value u → u ≤ r.2) ∧
      ((r = best ∧ ∀ t ∈ scales, ∀ u, stod t = .value u → u < best.2) ∨
        (r.1 ∈ scales ∧ stod r.1 = .value r.2)) := by
  induction scales generalizing best with
  | nil => exact ⟨best, by simp [scaleLoop]⟩
  | cons t rest ih =>
    have hr' : ∀ t ∈ rest, stod t ≠ .out_of_range := fun x hx => hr x (List.mem_cons_of_mem _ hx)
    have ht := hr t (List.mem_cons_self _ _)
    simp only [scaleLoop]
    cases hst : stod t with
    | out_of_range => exact absurd hst ht
    | invalid_argument =>
      obtain ⟨r, h1, h2, h3, h4⟩ := ih hr' best
      refine ⟨r, h1, h2, ?_, ?_⟩
      · intro x hx u hu
        rcases List.mem_cons.mp hx with rfl | hx
        · rw [hst] at hu; cases hu
        · exact h3 x hx u hu
      · rcases h4 with ⟨h4, h5⟩ | ⟨h4, h5⟩
        · left
          refine ⟨h4, ?_⟩
          intro x hx u hu
          rcases List.mem_cons.mp hx with rfl | hx
          · rw [hst] at hu; cases hu
          · exact h5 x hx u hu
        · right
          exact ⟨List.mem_cons_of_mem _ h4, h5⟩
    | value val =>
      by_cases h : acceptsScale d val best.2 = true
      · have hle := (acceptsScale_nonpos hd).mp h
        obtain ⟨r, h1, h2, h3, h4⟩ := ih hr' (t, val)
        simp only [h, if_true]
        refine ⟨r, h1, le_trans hle h2, ?_, ?_⟩
        · intro x hx u hu
          rcases List.mem_cons.mp hx with rfl | hx
          · rw [hst] at hu
            cases hu
            exact h2
          · exact h3 x hx u hu
        · right
          rcases h4 with ⟨h4, _⟩ | ⟨h4, h5⟩
          · subst h4
            exact ⟨List.mem_cons_self _ _, hst⟩
          · exact ⟨List.mem_cons_of_mem _ h4, h5⟩
      · have hlt : val < best.2 := by
          by_contra hc
          exact h ((acceptsScale_nonpos hd).mpr (not_lt.mp hc))
        obtain ⟨r, h1, h2, h3, h4⟩ := ih hr' best
        simp only [h]
        refine ⟨r, h1, h2, ?_, ?_⟩
        · intro x hx u hu
          rcases List.mem_cons.mp hx with rfl | hx
          · rw [hst] at hu
            cases hu
            exact le_trans hlt.le h2
          · exact h3 x hx u hu
        · rcases h4 with ⟨h4, h5⟩ | ⟨h4, h5⟩
          · left
            refine ⟨h4, ?_⟩
            intro x hx u hu
            rcases List.mem_cons.mp hx with rfl | hx
            · rw [hst] at hu
              cases hu
              exact hlt
            · exact h5 x hx u hu
          · right
            exact ⟨List.mem_cons_of_mem _ h4, h5⟩

/-- Tokens rejected with `invalid_argument` do not change the outcome of the loop. -/
theorem scaleLoop_filter (stod : String → StodResult) (d : ℚ) (scales : List String)
    (best : String × ℚ) :
    scaleLoop stod d (scales.filter (fun s => decide (stod s ≠ .invalid_argument))) best =
      scaleLoop stod d scales best := by
  induction scales generalizing best with
  | nil => rfl
  | cons t rest ih =>
    simp only [ne_eq, decide_not] at ih ⊢
    cases hst : stod t with
    | invalid_argument => simp [List.filter, hst, scaleLoop, ih]
    | out_of_range => simp [List.filter, hst, scaleLoop]
    | value val => simp [List.filter, hst, scaleLoop, ih]

/-! ## Scale selection: the claims -/

/-- The token `"1.0"` converts to `1`. -/
theorem stodDecimal_one : stodDecimal "1.0" = .value 1 := by
  simp [stodDecimal, skipSpaces, unsignedDecimal, scanDigits, roundDouble_one]

/-- The token `"2.0"` converts to `2`. -/
theorem stodDecimal_two : stodDecimal "2.0" = .value 2 := by
  simp [stodDecimal, skipSpaces, unsignedDecimal, scanDigits, roundDouble_two]

/-- The token `"4.0"` converts to `4`. -/
theorem stodDecimal_four : stodDecimal "4.0" = .value 4 := by
  simp [stodDecimal, skipSpaces, unsignedDecimal, scanDigits, roundDouble_four]

/-- The token `"5.0"` converts to `5`. -/
theorem stodDecimal_five : stodDecimal "5.0" = .value 5 := by
  simp [stodDecimal, skipSpaces, unsignedDecimal, scanDigits, roundDouble_five]

/-- The token `"-1.0"` converts to `-1`. -/
theorem stodDecimal_minus_one : stodDecimal "-1.0" = .value (-1) := by
  simp [stodDecimal, skipSpaces, unsignedDecimal, scanDigits, roundDouble_neg_one]

/-- C1, at the input where the code departs from the closest rule: the only
token `"5.0"` converts to `5`, the desired scale is `1`, and `FindBestScale`
returns the empty string, which is no token of the list; the loop ends with
the pair `("", 0)` it started from, because `|5 - 1| <= |0 - 1|` is false. -/
theorem FindBestScale_rejects_far_candidate :
    stodDecimal "5.0" = .value 5 ∧
      FindBestScale stodDecimal ["5.0"] 1 = .ok "" ∧
      scaleLoop stodDecimal 1 ["5.0"] ("", 0) = .ok ("", 0) ∧
      "" ∉ ["5.0"] := by
  have h : acceptsScale 1 5 0 = false := by
    simp only [acceptsScale]
    norm_num [roundDouble_one, roundDouble_two, roundDouble_four, roundDouble_five,
      roundDouble_neg_one, roundDouble_neg_two, roundDouble_neg_three, roundDouble_neg_four]
  refine ⟨stodDecimal_five, ?_, ?_, by decide⟩
  · simp [FindBestScale, scaleLoop, stodDecimal_five, h]
  · simp [scaleLoop, stodDecimal_five, h]

/-- C2 as stated fails: the tokens `"2.0"` and `"4.0"` are equally close to the
desired scale `3`, exactly and as the code computes the distances, `"2.0"`
comes first, and `FindBestScale` returns `"4.0"`, not `"2.0"`. -/
theorem FindBestScale_tie_not_earliest :
    stodDecimal "2.0" = .value 2 ∧ stodDecimal "4.0" = .value 4 ∧
      |(2 : ℚ) - 3| = |(4 : ℚ) - 3| ∧
      |roundDouble ((2 : ℚ) - 3)| = |roundDouble ((4 : ℚ) - 3)| ∧
      FindBestScale stodDecimal ["1.0", "2.0", "4.0"] 3 = .ok "4.0" ∧
      FindBestScale stodDecimal ["1.0", "2.0", "4.0"] 3 ≠ .ok "2.0" := by
  have h1 : acceptsScale 3 1 0 = true := by
    simp only [acceptsScale]
    norm_num [roundDouble_one, roundDouble_two, roundDouble_four, roundDouble_five,
      roundDouble_neg_one, roundDouble_neg_two, roundDouble_neg_three, roundDouble_neg_four]
  have h2 : acceptsScale 3 2 1 = true := by
    simp only [acceptsScale]
    norm_num [roundDouble_one, roundDouble_two, roundDouble_four, roundDouble_five,
      roundDouble_neg_one, roundDouble_neg_two, roundDouble_neg_three, roundDouble_neg_four]
  have h4 : acceptsScale 3 4 2 = true := by
    simp only [acceptsScale]
    norm_num [roundDouble_one, roundDouble_two, roundDouble_four, roundDouble_five,
      roundDouble_neg_one, roundDouble_neg_two, roundDouble_neg_three, roundDouble_neg_four]
  have hres : FindBestScale stodDecimal ["1.0", "2.0", "4.0"] 3 = .ok "4.0" := by
    simp [FindBestScale, scaleLoop, stodDecimal_one, stodDecimal_two, stodDecimal_four, h1, h2, h4]
  refine ⟨stodDecimal_two, stodDecimal_four, by norm_num, ?_, hres, ?_⟩
  · norm_num [roundDouble_one, roundDouble_neg_one]
  · rw [hres]
    simp

/-- C2, amended: the distance of a value `u` from the desired scale `d` being
the number `fabs(u - d)` that the code computes, `|roundDouble (u - d)|`: for a
desired scale `d > 0`, a token `s` with value `v` that is no farther from `d`
than `0` is, no farther than every converted token before it, and strictly
closer than every converted token after it, is what `FindBestScale` returns.
Among candidates at the same computed distance the one that appears latest in
the list is returned. -/
theorem FindBestScale_tie_latest (stod : String → StodResult) (pre post : List String)
    (s : String) (v d : ℚ) (hd : 0 < d)
    (hr : ∀ t ∈ pre ++ post, stod t ≠ .out_of_range)
    (hs : stod s = .value v)
    (h0 : |roundDouble (v - d)| ≤ |roundDouble (0 - d)|)
    (hpre : ∀ t ∈ pre, ∀ u, stod t = .value u → |roundDouble (v - d)| ≤ |roundDouble (u - d)|)
    (hpost : ∀ t ∈ post, ∀ u, stod t = .value u → |roundDouble (v - d)| < |roundDouble (u - d)|) :
    FindBestScale stod (pre ++ s :: post) d = .ok s := by
  have hrpre : ∀ t ∈ pre, stod t ≠ .out_of_range := fun t ht =>
    hr t (List.mem_append.mpr (Or.inl ht))
  have hrpost : ∀ t ∈ post, stod t ≠ .out_of_range := fun t ht =>
    hr t (List.mem_append.mpr (Or.inr ht))
  obtain ⟨r, hr1, _, _, hr4⟩ := scaleLoop_closest stod d hd pre hrpre ("", 0)
  have hacc : acceptsScale d v r.2 = true := by
    rw [acceptsScale_pos hd]
    rcases hr4 with ⟨h, _⟩ | ⟨h, h'⟩
    · rw [h]
      exact h0
    · exact hpre r.1 h r.2 h'
  obtain ⟨q, hq1, hq2, _, hq4⟩ := scaleLoop_closest stod d hd post hrpost (s, v)
  have hq : q = (s, v) := by
    rcases hq4 with ⟨h, _⟩ | ⟨h, h'⟩
    · exact h
    · exact absurd hq2 (not_le.mpr (hpost q.1 h q.2 h'))
  simp only [FindBestScale, scaleLoop_append, hr1, scaleLoop, hs, hacc, if_true, hq1, hq]

/-- C2, amended, on the example of the claim: with `"1.0"` and `"2.0"` before
it and nothing after it, `"4.0"` is returned for the desired scale `3`. -/
theorem FindBestScale_tie_latest_witness :
    FindBestScale stodDecimal (["1.0", "2.0"] ++ "4.0" :: []) 3 = .ok "4.0" :=
  FindBestScale_tie_latest stodDecimal ["1.0", "2.0"] [] "4.0" 4 3 (by norm_num)
    (by
      intro t ht
      simp only [List.append_nil, List.mem_cons, List.mem_singleton, List.not_mem_nil,
        or_false] at ht
      rcases ht with rfl | rfl
      · rw [stodDecimal_one]; simp
      · rw [stodDecimal_two]; simp)
    stodDecimal_four
    (by norm_num [roundDouble_one, roundDouble_two, roundDouble_four, roundDouble_neg_one,
      roundDouble_neg_two, roundDouble_neg_three])
    (by
      intro t ht u hu
      simp only [List.mem_cons, List.mem_singleton, List.not_mem_nil, or_false] at ht
      rcases ht with rfl | rfl
      · rw [stodDecimal_one] at hu
        cases hu
        norm_num [roundDouble_one, roundDouble_two, roundDouble_four, roundDouble_neg_one,
      roundDouble_neg_two, roundDouble_neg_three]
      · rw [stodDecimal_two] at hu
        cases hu
        norm_num [roundDouble_one, roundDouble_two, roundDouble_four, roundDouble_neg_one,
      roundDouble_neg_two, roundDouble_neg_three])
    (by simp)

/-- The `double` nearest to `0.2`. -/
theorem roundDouble_fifth :
    roundDouble (1 / 5) = 7205759403792794 * (2 : ℚ) ^ (-55 : Int) := by
  have h := roundBinary_eq 53 (-1022) (1 / 5) (-3) 7205759403792794
    (by rw [abs_of_pos (by norm_num)]; norm_num)
    (by rw [abs_of_pos (by norm_num)]; norm_num) (by norm_num)
    (by rw [abs_lt]; constructor <;> norm_num)
  simpa [roundDouble] using h

/-- The `double` nearest to `0.4`. -/
theorem roundDouble_two_fifths :
    roundDouble (2 / 5) = 7205759403792794 * (2 : ℚ) ^ (-54 : Int) := by
  have h := roundBinary_eq 53 (-1022) (2 / 5) (-2) 7205759403792794
    (by rw [abs_of_pos (by norm_num)]; norm_num)
    (by rw [abs_of_pos (by norm_num)]; norm_num) (by norm_num)
    (by rw [abs_lt]; constructor <;> norm_num)
  simpa [roundDouble] using h

/-- The `double` nearest to `0.3`. -/
theorem roundDouble_three_tenths :
    roundDouble (3 / 10) = 5404319552844595 * (2 : ℚ) ^ (-54 : Int) := by
  have h := roundBinary_eq 53 (-1022) (3 / 10) (-2) 5404319552844595
    (by rw [abs_of_pos (by norm_num)]; norm_num)
    (by rw [abs_of_pos (by norm_num)]; norm_num) (by norm_num)
    (by rw [abs_lt]; constructor <;> norm_num)
  simpa [roundDouble] using h

/-- The tokens `"0.2"` and `"0.4"` are decimals equally far from `0.3`, but the
`double`s they convert to are not equally far from the `double` nearest to
`0.3`, and the code finds `"0.2"` closer: no tie arises, and `"0.2"` is
returned. -/
theorem FindBestScale_near_tie :
    |(1 / 5 : ℚ) - 3 / 10| = |(2 / 5 : ℚ) - 3 / 10| ∧
      stodDecimal "0.2" = .value (roundDouble (1 / 5)) ∧
      stodDecimal "0.4" = .value (roundDouble (2 / 5)) ∧
      |roundDouble (roundDouble (1 / 5) - roundDouble (3 / 10))| <
        |roundDouble (roundDouble (2 / 5) - roundDouble (3 / 10))| ∧
      FindBestScale stodDecimal ["0.2", "0.4"] (roundDouble (3 / 10)) = .ok "0.2" := by
  have ha : stodDecimal "0.2" = .value (roundDouble (1 / 5)) := by
    simp [stodDecimal, skipSpaces, unsignedDecimal, scanDigits]
    norm_num
  have hb : stodDecimal "0.4" = .value (roundDouble (2 / 5)) := by
    simp [stodDecimal, skipSpaces, unsignedDecimal, scanDigits]
    norm_num
  have e1 : roundDouble (roundDouble (1 / 5) - roundDouble (3 / 10)) =
      (-1801439850948198 : Int) * (2 : ℚ) ^ (-54 : Int) := by
    have h := roundDouble_representable (-1801439850948198) (-54) (by norm_num) (by norm_num)
    rw [roundDouble_fifth, roundDouble_three_tenths]
    convert h using 2
    norm_num
  have e2 : roundDouble (roundDouble (2 / 5) - roundDouble (3 / 10)) =
      (1801439850948199 : Int) * (2 : ℚ) ^ (-54 : Int) := by
    have h := roundDouble_representable 1801439850948199 (-54) (by norm_num) (by norm_num)
    rw [roundDouble_two_fifths, roundDouble_three_tenths]
    convert h using 2
    norm_num
  have e0 : roundDouble (0 - roundDouble (3 / 10)) =
      (-5404319552844595 : Int) * (2 : ℚ) ^ (-54 : Int) := by
    have h := roundDouble_representable (-5404319552844595) (-54) (by norm_num) (by norm_num)
    rw [roundDouble_three_tenths]
    convert h using 2
    norm_num
  have hd : (0 : ℚ) < roundDouble (3 / 10) := by
    rw [roundDouble_three_tenths]
    norm_num
  have hlt : |roundDouble (roundDouble (1 / 5) - roundDouble (3 / 10))| <
      |roundDouble (roundDouble (2 / 5) - roundDouble (3 / 10))| := by
    rw [e1, e2]
    norm_num [abs_of_neg, abs_of_pos]
  have h1 : acceptsScale (roundDouble (3 / 10)) (roundDouble (1 / 5)) 0 = true := by
    rw [acceptsScale_pos hd, e1, e0]
    norm_num [abs_of_neg, abs_of_pos]
  have h2 : acceptsScale (roundDouble (3 / 10)) (roundDouble (2 / 5)) (roundDouble (1 / 5)) =
      false := by
    rw [Bool.eq_false_iff, ne_eq, acceptsScale_pos hd, not_le]
    exact hlt
  refine ⟨by norm_num, ha, hb, hlt, ?_⟩
  simp only [FindBestScale, scaleLoop, ha, hb, h1, h2, if_true, Bool.false_eq_true, if_false]

/-- C3, at the input where the code departs from the maximum rule: the list
`["-1.0"]` has a convertible token, the desired scale is `0`, and
`FindBestScale` returns the empty string, which is no token of the list; the
loop ends with the pair `("", 0)` it started from, because `-1 >= 0` is
false. -/
theorem FindBestScale_negative_only :
    stodDecimal "-1.0" = .value (-1) ∧
      FindBestScale stodDecimal ["-1.0"] 0 = .ok "" ∧
      scaleLoop stodDecimal 0 ["-1.0"] ("", 0) = .ok ("", 0) ∧
      "" ∉ ["-1.0"] := by
  have h : acceptsScale 0 (-1) 0 = false := by
    simp only [acceptsScale]
    norm_num
  refine ⟨stodDecimal_minus_one, ?_, ?_, by decide⟩
  · simp [FindBestScale, scaleLoop, stodDecimal_minus_one, h]
  · simp [scaleLoop, stodDecimal_minus_one, h]

/-- Where the maximum rule holds: for a desired scale `d <= 0` and a list on
which `stod` does not throw `out_of_range` and in which some token converts to
a value that is not negative, `FindBestScale` returns a token of the list whose
value is the maximum of the values of all converted tokens. -/
theorem FindBestScale_maximum (stod : String → StodResult) (scales : List String) (d : ℚ)
    (hd : d ≤ 0) (hr : ∀ t ∈ scales, stod t ≠ .out_of_range)
    (hex : ∃ t ∈ scales, ∃ u, stod t = .value u ∧ 0 ≤ u) :
    ∃ s ∈ scales, ∃ v, FindBestScale stod scales d = .ok s ∧ stod s = .value v ∧
      ∀ t ∈ scales, ∀ u, stod t = .value u → u ≤ v := by
  obtain ⟨r, h1, _, h3, h4⟩ := scaleLoop_maximum stod d hd scales hr ("", 0)
  rcases h4 with ⟨_, h5⟩ | ⟨h4, h5⟩
  · obtain ⟨t, ht, u, hu, hu0⟩ := hex
    exact absurd (h5 t ht u hu) (not_lt.mpr hu0)
  · exact ⟨r.1, h4, r.2, by simp [FindBestScale, h1], h5, h3⟩

/-- The maximum rule on the example of the specification: for
`["1.0", "2.0", "4.0"]` and the desired scale `0` the token returned is
`"4.0"`, whose value `4` is the maximum. -/
theorem FindBestScale_maximum_witness :
    FindBestScale stodDecimal ["1.0", "2.0", "4.0"] 0 = .ok "4.0" ∧
    ∃ s ∈ ["1.0", "2.0", "4.0"], ∃ v,
      FindBestScale stodDecimal ["1.0", "2.0", "4.0"] 0 = .ok s ∧ stodDecimal s = .value v ∧
        ∀ t ∈ ["1.0", "2.0", "4.0"], ∀ u, stodDecimal t = .value u → u ≤ v := by
  have h1 : acceptsScale 0 1 0 = true := by
    simp only [acceptsScale]
    norm_num [roundDouble_one, roundDouble_two, roundDouble_four, roundDouble_five,
      roundDouble_neg_one, roundDouble_neg_two, roundDouble_neg_three, roundDouble_neg_four]
  have h2 : acceptsScale 0 2 1 = true := by
    simp only [acceptsScale]
    norm_num [roundDouble_one, roundDouble_two, roundDouble_four, roundDouble_five,
      roundDouble_neg_one, roundDouble_neg_two, roundDouble_neg_three, roundDouble_neg_four]
  have h4 : acceptsScale 0 4 2 = true := by
    simp only [acceptsScale]
    norm_num [roundDouble_one, roundDouble_two, roundDouble_four, roundDouble_five,
      roundDouble_neg_one, roundDouble_neg_two, roundDouble_neg_three, roundDouble_neg_four]
  refine ⟨?_, FindBestScale_maximum stodDecimal ["1.0", "2.0", "4.0"] 0 le_rfl ?_
    ⟨"1.0", by simp, 1, stodDecimal_one, by norm_num⟩⟩
  · simp [FindBestScale, scaleLoop, stodDecimal_one, stodDecimal_two, stodDecimal_four, h1, h2,
      h4]
  · intro t ht
    simp only [List.mem_cons, List.mem_singleton, List.not_mem_nil, or_false] at ht
    rcases ht with rfl | rfl | rfl
    · rw [stodDecimal_one]; simp
    · rw [stodDecimal_two]; simp
    · rw [stodDecimal_four]; simp

/-- C4: for every conversion `stod`, every token list and every desired scale,
`FindBestScale` gives the same outcome on the list and on the list from which
the tokens that `stod` rejects with `invalid_argument` have been removed. -/
theorem FindBestScale_ignores_unparsable (stod : String → StodResult) (scales : List String)
    (desiredScale : ℚ) :
    FindBestScale stod scales desiredScale =
      FindBestScale stod (scales.filter (fun s => decide (stod s ≠ .invalid_argument)))
        desiredScale := by
  simp only [FindBestScale, scaleLoop_filter]

/-! ## The multiplexer: lemmas -/

/-- Nothing done: no read, no event. -/
theorem Advances.refl (o : TSysfsAdc) : Advances 0 [] o o := by
  refine ⟨⟨o.Initialized, o.CurrentMuxInput, ?_, fun h => h⟩, by simp, by simp⟩
  simp [TSysfsAdc.advanced]

/-- Two activities in a row add their reads and concatenate their events. -/
theorem Advances.trans {n m : Nat} {e1 e2 : List Event} {a b c : TSysfsAdc}
    (h1 : Advances n e1 a b) (h2 : Advances m e2 b c) : Advances (n + m) (e1 ++ e2) a c := by
  obtain ⟨⟨i1, m1, rfl, hi1⟩, hc1, hr1⟩ := h1
  obtain ⟨⟨i2, m2, rfl, hi2⟩, hc2, hr2⟩ := h2
  refine ⟨⟨i2, m2, ?_, fun h => hi2 (hi1 h)⟩, ?_, ?_⟩
  · simp [TSysfsAdc.advanced, Nat.add_assoc, List.append_assoc]
  · intro e he
    rcases List.mem_append.mp he with he | he
    · exact hc1 e he
    · exact hc2 e he
  · simp [List.countP_append, hr1, hr2]

/-- Emitting an event that is neither a current-source call nor a raw read. -/
theorem Advances.emit (o : TSysfsAdc) (ev : Event) (hcs : ev.isCurrentSource = false)
    (hrd : ev.isRead = false) :
    Advances 0 [ev] o { o with env := o.env.emit ev } := by
  refine ⟨⟨o.Initialized, o.CurrentMuxInput, ?_, fun h => h⟩, by simpa using hcs, by simp [hrd]⟩
  simp [TSysfsAdc.advanced, Env.emit]

/-- The multiplexer of a device that can be driven can still be driven after any
such activity. -/
theorem Advances.selectable {n : Nat} {evs : List Event} {a b : TSysfsAdc}
    (h : Advances n evs a b) (hs : a.selectable = true) : b.selectable = true := by
  obtain ⟨⟨i1, m1, rfl, hi1⟩, -, -⟩ := h
  cases hcls : a.cls with
  | TSysfsAdcPhys => simp [TSysfsAdc.selectable, TSysfsAdc.advanced, hcls]
  | TSysfsAdcMux =>
    simp only [TSysfsAdc.selectable, hcls, TSysfsAdc.gpioWorks, TSysfsAdc.advanced] at hs ⊢
    cases hini : a.Initialized with
    | true => simpa [hi1 hini, hini] using hs
    | false =>
      simp only [hini, Bool.false_or] at hs
      simp only [Bool.and_eq_true] at hs ⊢
      refine ⟨⟨⟨?_, hs.1.1.2⟩, hs.1.2⟩, hs.2⟩
      simp only [Bool.or_eq_true]
      right
      simpa using hs.1.1.1

/-- Two updates of the device in a row are one update. -/
theorem advanced_advanced (o : TSysfsAdc) (i1 i2 : Bool) (s1 s2 : Int) (n m : Nat)
    (e1 e2 : List Event) :
    (o.advanced i1 s1 n e1).advanced i2 s2 m e2 = o.advanced i2 s2 (n + m) (e1 ++ e2) := by
  simp [TSysfsAdc.advanced, Nat.add_assoc, List.append_assoc]

/-- The update that changes nothing. -/
theorem advanced_self (o : TSysfsAdc) : o.advanced o.Initialized o.CurrentMuxInput 0 [] = o := by
  simp [TSysfsAdc.advanced]

/-- Emitting one event is an update of the trace alone. -/
theorem emit_eq_advanced (o : TSysfsAdc) (ev : Event) :
    ({ o with env := o.env.emit ev } : TSysfsAdc) =
      o.advanced o.Initialized o.CurrentMuxInput 0 [ev] := by
  simp [TSysfsAdc.advanced, Env.emit]

/-- A GPIO line whose direction file opens, directly or after an export, is
initialized without an exception, by GPIO events only. -/
theorem InitGPIO_ok (g : Int) (o : TSysfsAdc)
    (h : (o.env.directionOpens g || (o.env.exportOpens && o.env.directionOpensExported g)) = true) :
    ∃ evs, TSysfsAdcMux.InitGPIO g o = .ok (o.advanced o.Initialized o.CurrentMuxInput 0 evs) ∧
      ∀ e ∈ evs, e.isMux = true := by
  unfold TSysfsAdcMux.InitGPIO
  by_cases hd : o.env.directionOpens g = true
  · refine ⟨[.gpioDirection g], ?_, by simp [Event.isMux]⟩
    simp [hd, emit_eq_advanced]
  · simp only [hd, Bool.false_or, Bool.and_eq_true] at h
    refine ⟨[.gpioExport g, .gpioDirection g], ?_, by simp [Event.isMux]⟩
    simp [hd, h.1, h.2, Env.emit, TSysfsAdc.advanced]

/-- When the multiplexer is initialized already or its three direction files can
be opened, `InitMux` returns with the multiplexer initialized, by GPIO events
only. -/
theorem InitMux_ok (o : TSysfsAdc)
    (h : (o.Initialized ||
      ((o.env.directionOpens o.GpioMuxA ||
          (o.env.exportOpens && o.env.directionOpensExported o.GpioMuxA)) &&
        (o.env.directionOpens o.GpioMuxB ||
          (o.env.exportOpens && o.env.directionOpensExported o.GpioMuxB)) &&
        (o.env.directionOpens o.GpioMuxC ||
          (o.env.exportOpens && o.env.directionOpensExported o.GpioMuxC)))) = true) :
    ∃ evs, TSysfsAdcMux.InitMux o = .ok (o.advanced true o.CurrentMuxInput 0 evs) ∧
      ∀ e ∈ evs, e.isMux = true := by
  unfold TSysfsAdcMux.InitMux
  by_cases hi : o.Initialized = true
  · refine ⟨[], ?_, by simp⟩
    rw [if_pos hi, ← hi, advanced_self]
  · simp only [hi, Bool.false_or, Bool.and_eq_true] at h
    obtain ⟨⟨hA, hB⟩, hC⟩ := h
    obtain ⟨eA, hAeq, hAev⟩ := InitGPIO_ok o.GpioMuxA o hA
    obtain ⟨eB, hBeq, hBev⟩ := InitGPIO_ok o.GpioMuxB
      (o.advanced o.Initialized o.CurrentMuxInput 0 eA) hB
    obtain ⟨eC, hCeq, hCev⟩ := InitGPIO_ok o.GpioMuxC
      ((o.advanced o.Initialized o.CurrentMuxInput 0 eA).advanced o.Initialized
        o.CurrentMuxInput 0 eB) hC
    refine ⟨eA ++ eB ++ eC, ?_, ?_⟩
    · rw [if_neg hi, hAeq]
      simp only []
      have hB' := hBeq
      simp only [TSysfsAdc.advanced] at hB' hCeq ⊢
      rw [hB']
      simp only []
      rw [hCeq]
      simp [List.append_assoc]
    · intro e he
      simp only [List.mem_append] at he
      rcases he with (he | he) | he
      · exact hAev e he
      · exact hBev e he
      · exact hCev e he

/-- When the GPIO lines can be driven, `SetMuxABC n` returns with the multiplexer
initialized and input `n` selected, whatever was selected before, by events of
the multiplexer only. -/
theorem SetMuxABC_ok (n : Int) (o : TSysfsAdc) (h : o.gpioWorks = true) :
    ∃ evs, TSysfsAdcMux.SetMuxABC n o = .ok (o.advanced true n 0 evs) ∧
      ∀ e ∈ evs, e.isMux = true := by
  simp only [TSysfsAdc.gpioWorks, Bool.and_eq_true] at h
  obtain ⟨⟨⟨hI, hA⟩, hB⟩, hC⟩ := h
  obtain ⟨e0, h0, hev0⟩ := InitMux_ok o hI
  unfold TSysfsAdcMux.SetMuxABC
  rw [h0]
  by_cases hn : o.CurrentMuxInput = n
  · refine ⟨e0, ?_, hev0⟩
    simp [TSysfsAdc.advanced, hn]
  · refine ⟨e0 ++ [.gpioValue o.GpioMuxA (Int.land n 1), .gpioValue o.GpioMuxB (Int.land n 2),
      .gpioValue o.GpioMuxC (Int.land n 4), .usleep (o.MinSwitchIntervalMs * 1000)], ?_, ?_⟩
    · simp [TSysfsAdc.advanced, hn, TSysfsAdcMux.SetGPIOValue, hA, hB, hC, Env.emit]
    · intro e he
      rcases List.mem_append.mp he with he | he
      · exact hev0 e he
      · simp only [List.mem_cons, List.mem_singleton, List.not_mem_nil, or_false] at he
        rcases he with rfl | rfl | rfl | rfl <;> rfl

/-- An event of the multiplexer is no current-source call. -/
theorem Event.isMux_not_currentSource {e : Event} (h : e.isMux = true) :
    e.isCurrentSource = false := by
  cases e <;> simp_all [Event.isMux, Event.isCurrentSource]

/-- An event of the multiplexer is no raw read. -/
theorem Event.isMux_not_read {e : Event} (h : e.isMux = true) : e.isRead = false := by
  cases e <;> simp_all [Event.isMux, Event.isRead]

/-- On a device whose multiplexer can be driven `SelectMuxChannel` returns, makes
no raw read and adds events of the multiplexer only. -/
theorem SelectMuxChannel_ok (n : Int) (o : TSysfsAdc) (h : o.selectable = true) :
    ∃ o1 evs, o.SelectMuxChannel n = .ok o1 ∧ Advances 0 evs o o1 ∧
      ∀ e ∈ evs, e.isMux = true := by
  unfold TSysfsAdc.SelectMuxChannel
  cases hcls : o.cls with
  | TSysfsAdcPhys => exact ⟨o, [], rfl, Advances.refl o, by simp⟩
  | TSysfsAdcMux =>
    simp only [TSysfsAdc.selectable, hcls] at h
    obtain ⟨evs, h1, h2⟩ := SetMuxABC_ok n o h
    refine ⟨_, evs, h1, ⟨⟨true, n, rfl, fun _ => rfl⟩, ?_, ?_⟩, h2⟩
    · exact fun e he => Event.isMux_not_currentSource (h2 e he)
    · rw [List.countP_eq_zero]
      intro e he
      simp [Event.isMux_not_read (h2 e he)]

/-! ## The multiplexer: idempotent selection -/

/-- C9: on an initialized multiplexer whose selected input is `k`,
`SetMuxABC k` returns with the device and its trace unchanged (no GPIO write,
no sleep). For every `j` different from `k`, `SetMuxABC j` returns when the
three value files open, and whenever it returns it has added to the trace
exactly three GPIO value writes followed by one `usleep` of
`MinSwitchIntervalMs * 1000` microseconds, set the selected input to `j` and
changed nothing else. -/
theorem SetMuxABC_idempotent (o : TSysfsAdc) (k : Int) (hinit : o.Initialized = true)
    (hk : o.CurrentMuxInput = k) :
    TSysfsAdcMux.SetMuxABC k o = .ok o ∧
    ∀ j : Int, j ≠ k →
      ∃ evs, evs = [Event.gpioValue o.GpioMuxA (Int.land j 1),
          Event.gpioValue o.GpioMuxB (Int.land j 2), Event.gpioValue o.GpioMuxC (Int.land j 4),
          Event.usleep (o.MinSwitchIntervalMs * 1000)] ∧
        evs.countP Event.isGpioValue = 3 ∧ evs.countP Event.isSleep = 1 ∧
        (o.env.valueOpens o.GpioMuxA = true → o.env.valueOpens o.GpioMuxB = true →
          o.env.valueOpens o.GpioMuxC = true →
          TSysfsAdcMux.SetMuxABC j o =
            .ok { o with CurrentMuxInput := j,
                         env := { o.env with trace := o.env.trace ++ evs } }) ∧
        (∀ o1, TSysfsAdcMux.SetMuxABC j o = .ok o1 →
          o1 = { o with CurrentMuxInput := j,
                        env := { o.env with trace := o.env.trace ++ evs } }) := by
  constructor
  · simp [TSysfsAdcMux.SetMuxABC, TSysfsAdcMux.InitMux, hinit, hk]
  · intro j hj
    have hne : ¬ o.CurrentMuxInput = j := fun h => hj (h ▸ hk.symm ▸ rfl)
    refine ⟨_, rfl, by simp [Event.isGpioValue], by simp [Event.isSleep], ?_, ?_⟩
    · intro hA hB hC
      simp [TSysfsAdcMux.SetMuxABC, TSysfsAdcMux.InitMux, hinit, hne, TSysfsAdcMux.SetGPIOValue,
        hA, hB, hC, Env.emit]
    · intro o1 h
      cases hA : o.env.valueOpens o.GpioMuxA with
      | false =>
        simp [TSysfsAdcMux.SetMuxABC, TSysfsAdcMux.InitMux, hinit, hne,
          TSysfsAdcMux.SetGPIOValue, hA] at h
      | true =>
        cases hB : o.env.valueOpens o.GpioMuxB with
        | false =>
          simp [TSysfsAdcMux.SetMuxABC, TSysfsAdcMux.InitMux, hinit, hne,
            TSysfsAdcMux.SetGPIOValue, hA, hB, Env.emit] at h
        | true =>
          cases hC : o.env.valueOpens o.GpioMuxC with
          | false =>
            simp [TSysfsAdcMux.SetMuxABC, TSysfsAdcMux.InitMux, hinit, hne,
              TSysfsAdcMux.SetGPIOValue, hA, hB, hC, Env.emit] at h
          | true =>
            simp only [TSysfsAdcMux.SetMuxABC, TSysfsAdcMux.InitMux, hinit, if_true, hne,
              if_false, TSysfsAdcMux.SetGPIOValue, hA, hB, hC, Env.emit, Bool.not_true,
              Bool.false_eq_true, Except.ok.injEq] at h
            rw [← h]
            simp [hinit]

/-- C9 on the example device, whose selected input is `3`: selecting `3`
changes nothing, selecting `5` writes `1`, `0`, `4` to the three lines and
sleeps 5000 microseconds. -/
theorem SetMuxABC_idempotent_witness :
    TSysfsAdcMux.SetMuxABC 3 exampleMux = .ok exampleMux ∧
    TSysfsAdcMux.SetMuxABC 5 exampleMux =
      .ok { exampleMux with
            CurrentMuxInput := 5
            env := { exampleEnv with trace := [Event.gpioValue 10 1, Event.gpioValue 11 0,
              Event.gpioValue 12 4, Event.usleep 5000] } } := by
  obtain ⟨hsame, hother⟩ := SetMuxABC_idempotent exampleMux 3 rfl rfl
  obtain ⟨evs, hevs, -, -, hret, -⟩ := hother 5 (by decide)
  refine ⟨hsame, ?_⟩
  rw [hret rfl rfl rfl, hevs]
  rfl

/-! ## Sampling loops: lemmas -/

/-- One call of `ReadValue` yields the next number of the raw file and adds one
read event. -/
theorem ReadValue_advances (o : TSysfsAdc) :
    o.ReadValue.1 = o.env.rawFile o.env.reads ∧
      Advances 1 [Event.readRaw (o.env.rawFile o.env.reads)] o o.ReadValue.2 := by
  refine ⟨rfl, ⟨o.Initialized, o.CurrentMuxInput, ?_, fun h => h⟩, ?_, ?_⟩
  · simp [TSysfsAdc.ReadValue, TSysfsAdc.advanced]
  · simp [Event.isCurrentSource]
  · simp [Event.isRead]

/-- What an activity leaves as it was, and what it adds. -/
theorem Advances.rawFile {n : Nat} {evs : List Event} {a b : TSysfsAdc}
    (h : Advances n evs a b) :
    b.env.rawFile = a.env.rawFile ∧ b.env.reads = a.env.reads + n ∧
      b.env.trace = a.env.trace ++ evs ∧ b.IIOScale = a.IIOScale ∧
      b.MaxVoltage = a.MaxVoltage := by
  obtain ⟨⟨i1, m1, rfl, -⟩, -, -⟩ := h
  simp [TSysfsAdc.advanced]

/-- One pass of the warm-up loop, on a device whose multiplexer can be driven and
with the counter inside the buffer: it stores the next number of the raw file. -/
theorem warmUpSample_ok (i : Nat) (d : TSysfsAdcChannelPrivate) (o : TSysfsAdc)
    (hs : o.selectable = true) (hi : i < d.Buffer.length) :
    ∃ o1 evs, warmUpSample i d o = .ok (d.fillSample i (o.env.rawFile o.env.reads), o1) ∧
      Advances 1 evs o o1 := by
  obtain ⟨o0, e0, h0, ha0, -⟩ := SelectMuxChannel_ok d.Index o hs
  obtain ⟨hv, ha1⟩ := ReadValue_advances o0
  obtain ⟨hf, hr, -⟩ := ha0.rawFile
  refine ⟨o0.ReadValue.2, _, ?_, by simpa using ha0.trans ha1⟩
  simp only [warmUpSample, h0, hi, if_true, hv, hf, hr, Nat.add_zero, fillSample]

/-- The warm-up loop with `n` passes left that fit the buffer returns, having
stored the next `n` numbers of the raw file. -/
theorem warmUpLoop_ok (n : Nat) : ∀ (i : Nat) (d : TSysfsAdcChannelPrivate) (o : TSysfsAdc),
    o.selectable = true → i + n ≤ d.Buffer.length →
    ∃ o1 evs, warmUpLoop n i d o = .ok (d.fillSamples o.env.rawFile n o.env.reads i, o1) ∧
      Advances n evs o o1 := by
  induction n with
  | zero =>
    intro i d o _ _
    exact ⟨o, [], rfl, Advances.refl o⟩
  | succ n ih =>
    intro i d o hs hlen
    obtain ⟨o1, e1, h1, ha1⟩ := warmUpSample_ok i d o hs (by omega)
    obtain ⟨hf, hr, -⟩ := ha1.rawFile
    obtain ⟨o2, e2, h2, ha2⟩ := ih (i + 1) (d.fillSample i (o.env.rawFile o.env.reads)) o1
      (ha1.selectable hs) (by simp [fillSample]; omega)
    refine ⟨o2, e1 ++ e2, ?_, by simpa [Nat.add_comm] using ha1.trans ha2⟩
    simp only [warmUpLoop, h1, h2, hf, hr, fillSamples]

/-- One pass of the update loop keeps the buffer and the cursor within the window. -/
theorem pushSample_wellFormed (d : TSysfsAdcChannelPrivate) (v : Int) (h : d.WellFormed) :
    (d.pushSample v).WellFormed := by
  obtain ⟨hc, hlen, hp0, hp1⟩ := h
  have h0 : (0 : Int) ≤ d.Pos + 1 := by omega
  refine ⟨hc, by simpa [pushSample] using hlen, ?_, ?_⟩
  · simp only [pushSample]
    rw [Int.tmod_eq_emod h0 hc.le]
    exact Int.emod_nonneg _ (by omega)
  · simp only [pushSample]
    rw [Int.tmod_eq_emod h0 hc.le]
    exact Int.emod_lt_of_pos _ hc

/-- One pass of the update loop on a well-formed channel: it pushes the next
number of the raw file. -/
theorem updateSample_ok (K : Header) (d : TSysfsAdcChannelPrivate) (o : TSysfsAdc)
    (hs : o.selectable = true) (hwf : d.WellFormed) :
    ∃ o1 evs, updateSample K d o = .ok (d.pushSample (o.env.rawFile o.env.reads), o1) ∧
      Advances 1 evs o o1 := by
  obtain ⟨o0, e0, h0, ha0, -⟩ := SelectMuxChannel_ok d.Index o hs
  obtain ⟨hv, ha1⟩ := ReadValue_advances o0
  obtain ⟨hf, hr, -⟩ := ha0.rawFile
  obtain ⟨hc, hlen, hp0, hp1⟩ := hwf
  have hpos : d.Pos.toNat < d.Buffer.length := by omega
  have hc0 : ¬ d.ChannelAveragingWindow = 0 := by omega
  have ha2 := Advances.emit o0.ReadValue.2 (.sleepMs K.DELAY) rfl rfl
  refine ⟨_, _, ?_, by simpa using (ha0.trans ha1).trans ha2⟩
  simp only [updateSample, h0, hp0, hpos, and_self, if_true, hc0, if_false, hv, hf, hr,
    Nat.add_zero, pushSample]

/-- The update loop with `n` passes left returns, having pushed the next `n`
numbers of the raw file. -/
theorem updateLoop_ok (K : Header) (n : Nat) : ∀ (d : TSysfsAdcChannelPrivate) (o : TSysfsAdc),
    o.selectable = true → d.WellFormed →
    ∃ o1 evs, updateLoop K n d o = .ok (d.pushSamples o.env.rawFile n o.env.reads, o1) ∧
      Advances n evs o o1 := by
  induction n with
  | zero =>
    intro d o _ _
    exact ⟨o, [], rfl, Advances.refl o⟩
  | succ n ih =>
    intro d o hs hwf
    obtain ⟨o1, e1, h1, ha1⟩ := updateSample_ok K d o hs hwf
    obtain ⟨hf, hr, -⟩ := ha1.rawFile
    obtain ⟨o2, e2, h2, ha2⟩ := ih (d.pushSample (o.env.rawFile o.env.reads)) o1
      (ha1.selectable hs) (pushSample_wellFormed d _ hwf)
    refine ⟨o2, e1 ++ e2, ?_, by simpa [Nat.add_comm] using ha1.trans ha2⟩
    simp only [updateLoop, h1, h2, hf, hr, pushSamples]

/-! ## The ring buffer: lemmas -/

/-- Reading a list after one element was replaced. -/
theorem getD_set_int (l : List Int) (i k : Nat) (v : Int) (hi : i < l.length) :
    (l.set i v).getD k 0 = if k = i then v else l.getD k 0 := by
  induction l generalizing i k with
  | nil => simp at hi
  | cons a l ih =>
    cases i with
    | zero =>
      cases k with
      | zero => simp
      | succ k => simp
    | succ i =>
      cases k with
      | zero => simp
      | succ k =>
        have := ih i k (by simpa using hi)
        simpa using this

/-- The sum of a list after one element was replaced. -/
theorem sum_set_int (l : List Int) (i : Nat) (v : Int) (hi : i < l.length) :
    (l.set i v).sum = l.sum - l.getD i 0 + v := by
  induction l generalizing i with
  | nil => simp at hi
  | cons a l ih =>
    cases i with
    | zero => simp; ring
    | succ i =>
      have := ih i (by simpa using hi)
      simp only [List.set_cons_succ, List.sum_cons, this, List.getD_cons_succ]
      ring

/-- The sum of a list whose elements all equal `v`. -/
theorem sum_of_constant (l : List Int) (v : Int) (h : ∀ k, k < l.length → l.getD k 0 = v) :
    l.sum = (l.length : Int) * v := by
  induction l with
  | nil => simp
  | cons a l ih =>
    have ha : a = v := by simpa using h 0 (by simp)
    have hl : ∀ k, k < l.length → l.getD k 0 = v := by
      intro k hk
      simpa using h (k + 1) (by simpa using hk)
    simp only [List.sum_cons, List.length_cons, ih hl, ha]
    push_cast
    ring

/-- The average of a sum `c * v` over a positive window `c` is `v`, for either
declaration of `Sum`. -/
theorem average_of_constant (K : Header) (c v : Int) (hc : 0 < c) : average K (c * v) c = v := by
  unfold average
  cases K.sumIsFloating with
  | false => simpa using Int.mul_tdiv_cancel_left v (hc.ne')
  | true =>
    have hcq : (c : ℚ) ≠ 0 := by exact_mod_cast hc.ne'
    have : ((c * v : Int) : ℚ) / (c : ℚ) = (v : ℚ) := by
      push_cast
      field_simp
    simp only [if_true, this, cround]
    by_cases hv : (0 : ℚ) ≤ (v : ℚ)
    · rw [if_pos hv]
      rw [Int.floor_eq_iff]
      constructor <;> linarith
    · rw [if_neg hv]
      rw [Int.ceil_eq_iff]
      constructor <;> linarith

/-- Pushing the next sample of the raw file keeps the buffer a ring over it. -/
theorem Circular_pushSample {d : TSysfsAdcChannelPrivate} {f : Nat → Int} {reads : Nat}
    (h : d.Circular f reads) : (d.pushSample (f reads)).Circular f (reads + 1) := by
  obtain ⟨hwf, hsum, hle, hcontent⟩ := h
  have hwf' := pushSample_wellFormed d (f reads) hwf
  obtain ⟨hc, hlen, hp0, hp1⟩ := hwf
  have hpos : d.Pos.toNat < d.Buffer.length := by omega
  have h0 : (0 : Int) ≤ d.Pos + 1 := by omega
  have hPos' : (d.pushSample (f reads)).Pos =
      if d.Pos + 1 = d.ChannelAveragingWindow then 0 else d.Pos + 1 := by
    simp only [TSysfsAdcChannelPrivate.pushSample]
    rw [Int.tmod_eq_emod h0 hc.le]
    split_ifs with heq
    · rw [heq, Int.emod_self]
    · exact Int.emod_eq_of_lt h0 (by omega)
  refine ⟨hwf', ?_, ?_, ?_⟩
  · simp only [TSysfsAdcChannelPrivate.pushSample, sum_set_int _ _ _ hpos, hsum]
  · simp only [TSysfsAdcChannelPrivate.pushSample, List.length_set]
    omega
  · intro k hk
    have hk' : k < d.Buffer.length := by
      simpa [TSysfsAdcChannelPrivate.pushSample] using hk
    have hbuf : (d.pushSample (f reads)).Buffer.getD k 0 =
        if k = d.Pos.toNat then f reads else d.Buffer.getD k 0 := by
      simp only [TSysfsAdcChannelPrivate.pushSample]
      exact getD_set_int _ _ _ _ hpos
    have hlen' : (d.pushSample (f reads)).Buffer.length = d.Buffer.length := by
      simp [TSysfsAdcChannelPrivate.pushSample]
    rw [hbuf, hPos', hlen']
    by_cases hkp : k = d.Pos.toNat
    · rw [if_pos hkp]
      congr 1
      split_ifs <;> omega
    · rw [if_neg hkp, hcontent k hk']
      congr 1
      split_ifs <;> omega

/-- Pushing the next `n` samples of the raw file keeps the buffer a ring over it. -/
theorem Circular_pushSamples {f : Nat → Int} (n : Nat) :
    ∀ {d : TSysfsAdcChannelPrivate} {reads : Nat}, d.Circular f reads →
      (d.pushSamples f n reads).Circular f (reads + n) := by
  induction n with
  | zero =>
    intro d reads h
    simpa [TSysfsAdcChannelPrivate.pushSamples] using h
  | succ n ih =>
    intro d reads h
    have := ih (Circular_pushSample h)
    simpa [TSysfsAdcChannelPrivate.pushSamples, Nat.add_assoc, Nat.add_comm 1 n] using this

/-- When the last window of samples is constantly `v`, the average of a ring is
`v`. -/
theorem Circular_constant {d : TSysfsAdcChannelPrivate} {f : Nat → Int} {reads : Nat}
    (h : d.Circular f reads) (K : Header) (v : Int)
    (hv : ∀ j, reads - d.Buffer.length ≤ j → j < reads → f j = v) :
    average K d.Sum d.ChannelAveragingWindow = v := by
  obtain ⟨⟨hc, hlen, hp0, hp1⟩, hsum, hle, hcontent⟩ := h
  have hall : ∀ k, k < d.Buffer.length → d.Buffer.getD k 0 = v := by
    intro k hk
    rw [hcontent k hk]
    apply hv
    · split_ifs <;> omega
    · split_ifs <;> omega
  have hcast : (d.Buffer.length : Int) = d.ChannelAveragingWindow := by
    rw [hlen]
    exact Int.toNat_of_nonneg hc.le
  rw [hsum, sum_of_constant _ v hall, hcast]
  exact average_of_constant K _ v hc

/-! ## One call of `GetAverageValue` -/

/-- The warm-up loop changes nothing but the contents of the buffer and the sum. -/
theorem fillSamples_static (f : Nat → Int) (n : Nat) :
    ∀ (start i : Nat) (d : TSysfsAdcChannelPrivate),
      (d.fillSamples f n start i).ChannelAveragingWindow = d.ChannelAveragingWindow ∧
      (d.fillSamples f n start i).ReadingsNumber = d.ReadingsNumber ∧
      (d.fillSamples f n start i).Ready = d.Ready ∧
      (d.fillSamples f n start i).Pos = d.Pos ∧
      (d.fillSamples f n start i).Buffer.length = d.Buffer.length := by
  induction n with
  | zero =>
    intro start i d
    simp [TSysfsAdcChannelPrivate.fillSamples]
  | succ n ih =>
    intro start i d
    simpa [TSysfsAdcChannelPrivate.fillSamples, TSysfsAdcChannelPrivate.fillSample] using
      ih (start + 1) (i + 1) (d.fillSample i (f start))

/-- The update loop changes neither the window nor the readings number nor the
ready flag. -/
theorem pushSamples_static (f : Nat → Int) (n : Nat) :
    ∀ (start : Nat) (d : TSysfsAdcChannelPrivate),
      (d.pushSamples f n start).ChannelAveragingWindow = d.ChannelAveragingWindow ∧
      (d.pushSamples f n start).ReadingsNumber = d.ReadingsNumber ∧
      (d.pushSamples f n start).Ready = d.Ready := by
  induction n with
  | zero =>
    intro start d
    simp [TSysfsAdcChannelPrivate.pushSamples]
  | succ n ih =>
    intro start d
    simpa [TSysfsAdcChannelPrivate.pushSamples, TSysfsAdcChannelPrivate.pushSample] using
      ih (start + 1) (d.pushSample (f start))

/-- The update loop keeps a well-formed channel well-formed. -/
theorem pushSamples_wellFormed (f : Nat → Int) (n : Nat) :
    ∀ (start : Nat) (d : TSysfsAdcChannelPrivate), d.WellFormed →
      (d.pushSamples f n start).WellFormed := by
  induction n with
  | zero =>
    intro start d h
    simpa [TSysfsAdcChannelPrivate.pushSamples] using h
  | succ n ih =>
    intro start d h
    simpa [TSysfsAdcChannelPrivate.pushSamples] using
      ih (start + 1) _ (pushSample_wellFormed d (f start) h)

/-- A call of `GetAverageValue` keeps the window and the readings number and
leaves the channel ready. -/
theorem afterCall_static (d : TSysfsAdcChannelPrivate) (f : Nat → Int) (reads : Nat) :
    (d.afterCall f reads).ChannelAveragingWindow = d.ChannelAveragingWindow ∧
      (d.afterCall f reads).ReadingsNumber = d.ReadingsNumber ∧
      (d.afterCall f reads).Ready = true := by
  unfold TSysfsAdcChannelPrivate.afterCall
  by_cases hr : d.Ready = true
  · simp only [hr, if_true]
    obtain ⟨h1, h2, h3⟩ := pushSamples_static f d.ReadingsNumber.toNat reads d
    exact ⟨h1, h2, h3.trans hr⟩
  · simp only [hr, if_false]
    obtain ⟨h1, h2, -⟩ := fillSamples_static f d.ChannelAveragingWindow.toNat reads 0 d
    exact ⟨h1, h2, rfl⟩

/-- A call of `GetAverageValue` keeps a well-formed channel well-formed. -/
theorem afterCall_wellFormed (d : TSysfsAdcChannelPrivate) (f : Nat → Int) (reads : Nat)
    (h : d.WellFormed) : (d.afterCall f reads).WellFormed := by
  unfold TSysfsAdcChannelPrivate.afterCall
  by_cases hr : d.Ready = true
  · simp only [hr, if_true]
    exact pushSamples_wellFormed f _ reads d h
  · simp only [hr, if_false]
    obtain ⟨h1, -, -, h4, h5⟩ := fillSamples_static f d.ChannelAveragingWindow.toNat reads 0 d
    obtain ⟨hc, hlen, hp0, hp1⟩ := h
    exact ⟨by simpa [h1] using hc, by simpa [h1, h5] using hlen, by simpa [h4] using hp0,
      by simpa [h1, h4] using hp1⟩

/-- On a device whose multiplexer can be driven and a well-formed channel,
`GetAverageValue` returns: the channel is the pure `afterCall`, the value is
the average of its sum, and the device has made `drawn` reads and no
current-source call. -/
theorem GetAverageValue_ok (K : Header) (d : TSysfsAdcChannelPrivate) (o : TSysfsAdc)
    (hs : o.selectable = true) (hwf : d.WellFormed) :
    ∃ o1 evs,
      GetAverageValue K d o =
        .ok (average K (d.afterCall o.env.rawFile o.env.reads).Sum d.ChannelAveragingWindow,
          d.afterCall o.env.rawFile o.env.reads, o1) ∧
      Advances d.drawn evs o o1 := by
  have hc0 : ¬ d.ChannelAveragingWindow = 0 := by
    have := hwf.1
    omega
  by_cases hr : d.Ready = true
  · obtain ⟨o1, evs, h1, ha⟩ := updateLoop_ok K d.ReadingsNumber.toNat d o hs hwf
    obtain ⟨hst, -, -⟩ := pushSamples_static o.env.rawFile d.ReadingsNumber.toNat o.env.reads d
    refine ⟨o1, evs, ?_, by simpa [TSysfsAdcChannelPrivate.drawn, hr] using ha⟩
    simp only [GetAverageValue, hr, Bool.not_true, h1, TSysfsAdcChannelPrivate.afterCall,
      if_true]
    simp [hst, hc0]
  · have hr' : d.Ready = false := by simpa using hr
    obtain ⟨o1, evs, h1, ha⟩ := warmUpLoop_ok d.ChannelAveragingWindow.toNat 0 d o hs
      (by rw [hwf.2.1]; omega)
    obtain ⟨hst, -, -⟩ :=
      fillSamples_static o.env.rawFile d.ChannelAveragingWindow.toNat o.env.reads 0 d
    refine ⟨o1, evs, ?_, by simpa [TSysfsAdcChannelPrivate.drawn, hr'] using ha⟩
    simp only [GetAverageValue, hr', Bool.not_false, if_true, h1, hst, hc0, if_false,
      TSysfsAdcChannelPrivate.afterCall]
    simp

/-- One pass of the warm-up loop moves the warm-up state one slot on. -/
theorem Warming_fillSample {d : TSysfsAdcChannelPrivate} {f : Nat → Int} {s i : Nat}
    (h : d.Warming f s i) (hi : i < d.Buffer.length) :
    (d.fillSample i (f (s + i))).Warming f s (i + 1) := by
  obtain ⟨⟨hc, hlen, hp0, hp1⟩, hpos, hsum, -, hlow, hhigh⟩ := h
  refine ⟨⟨hc, by simpa [TSysfsAdcChannelPrivate.fillSample] using hlen, hp0, hp1⟩, hpos, ?_,
    by simpa [TSysfsAdcChannelPrivate.fillSample] using hi, ?_, ?_⟩
  · simp only [TSysfsAdcChannelPrivate.fillSample, sum_set_int _ _ _ hi, hhigh i le_rfl hi, hsum]
    ring
  · intro k hk
    simp only [TSysfsAdcChannelPrivate.fillSample, getD_set_int _ _ _ _ hi]
    by_cases hki : k = i
    · rw [if_pos hki, hki]
    · rw [if_neg hki]
      exact hlow k (by omega)
  · intro k hk1 hk2
    simp only [TSysfsAdcChannelPrivate.fillSample, getD_set_int _ _ _ _ hi]
    have hk2' : k < d.Buffer.length := by
      simpa [TSysfsAdcChannelPrivate.fillSample] using hk2
    rw [if_neg (by omega)]
    exact hhigh k (by omega) hk2'

/-- The passes of the warm-up loop move the warm-up state on by as many slots. -/
theorem Warming_fillSamples {f : Nat → Int} {s : Nat} (n : Nat) :
    ∀ (i : Nat) (d : TSysfsAdcChannelPrivate), d.Warming f s i → i + n ≤ d.Buffer.length →
      (d.fillSamples f n (s + i) i).Warming f s (i + n) := by
  induction n with
  | zero =>
    intro i d h _
    simpa [TSysfsAdcChannelPrivate.fillSamples] using h
  | succ n ih =>
    intro i d h hle
    have h1 := Warming_fillSample h (by omega)
    have h2 := ih (i + 1) _ h1 (by simp [TSysfsAdcChannelPrivate.fillSample]; omega)
    simpa [TSysfsAdcChannelPrivate.fillSamples, Nat.add_assoc, Nat.add_comm 1 n] using h2

/-- The first call of `GetAverageValue` on a channel fresh from its constructor
leaves the buffer a ring over the raw file. -/
theorem Fresh_afterCall {d : TSysfsAdcChannelPrivate} (f : Nat → Int) (reads : Nat)
    (h : d.Fresh) : (d.afterCall f reads).Circular f (reads + d.drawn) := by
  obtain ⟨hwf, hr, hsum, hpos, hzero⟩ := h
  have hw0 : d.Warming f reads 0 := by
    refine ⟨hwf, hpos, ?_, Nat.zero_le _, by intro k hk; omega, fun k _ hk => hzero k hk⟩
    rw [hsum, sum_of_constant _ 0 hzero]
    simp
  have hlen := hwf.2.1
  have hw := Warming_fillSamples d.ChannelAveragingWindow.toNat 0 d hw0 (by omega)
  obtain ⟨-, -, -, -, hl⟩ := fillSamples_static f d.ChannelAveragingWindow.toNat reads 0 d
  simp only [Nat.add_zero, Nat.zero_add] at hw
  obtain ⟨hwf1, hpos1, hsum1, -, hlow, -⟩ := hw
  simp only [TSysfsAdcChannelPrivate.afterCall, TSysfsAdcChannelPrivate.drawn, hr,
    Bool.false_eq_true, if_false]
  refine ⟨hwf1, hsum1, ?_, ?_⟩
  · simp only [hl]
    omega
  · intro k hk
    simp only [hl] at hk ⊢
    simp only [hpos1, Int.toNat_zero, Nat.not_lt_zero, if_false]
    rw [hlow k (by omega)]
    congr 1
    omega

/-- A later call of `GetAverageValue` keeps the buffer a ring over the raw file. -/
theorem Circular_afterCall {d : TSysfsAdcChannelPrivate} {f : Nat → Int} {reads : Nat}
    (h : d.Circular f reads) (hr : d.Ready = true) :
    (d.afterCall f reads).Circular f (reads + d.drawn) := by
  simp only [TSysfsAdcChannelPrivate.afterCall, TSysfsAdcChannelPrivate.drawn, hr, if_true]
  exact Circular_pushSamples _ h

/-! ## What a call that returns has done -/

/-- A returning `InitGPIO` has added GPIO events and changed nothing else. -/
theorem InitGPIO_of_ok {g : Int} {o o1 : TSysfsAdc} (h : TSysfsAdcMux.InitGPIO g o = .ok o1) :
    ∃ evs, o1 = o.advanced o.Initialized o.CurrentMuxInput 0 evs ∧
      ∀ e ∈ evs, e.isMux = true := by
  unfold TSysfsAdcMux.InitGPIO at h
  by_cases hd : o.env.directionOpens g = true
  · rw [if_pos hd] at h
    injection h with h
    subst h
    exact ⟨[.gpioDirection g], emit_eq_advanced o _, by simp [Event.isMux]⟩
  · rw [if_neg hd] at h
    by_cases he : (!o.env.exportOpens) = true
    · rw [if_pos he] at h
      cases h
    · rw [if_neg he] at h
      simp only at h
      by_cases hx : (!(o.env.emit (.gpioExport g)).directionOpensExported g) = true
      · rw [if_pos hx] at h
        cases h
      · rw [if_neg hx] at h
        injection h with h
        subst h
        exact ⟨[.gpioExport g, .gpioDirection g], by simp [TSysfsAdc.advanced, Env.emit],
          by simp [Event.isMux]⟩

/-- A returning `InitMux` has added GPIO events and left the multiplexer
initialized. -/
theorem InitMux_of_ok {o o1 : TSysfsAdc} (h : TSysfsAdcMux.InitMux o = .ok o1) :
    ∃ evs, o1 = o.advanced true o.CurrentMuxInput 0 evs ∧ ∀ e ∈ evs, e.isMux = true := by
  unfold TSysfsAdcMux.InitMux at h
  by_cases hi : o.Initialized = true
  · rw [if_pos hi] at h
    injection h with h
    subst h
    refine ⟨[], ?_, by simp⟩
    rw [← hi, advanced_self]
  · rw [if_neg hi] at h
    cases hA : TSysfsAdcMux.InitGPIO o.GpioMuxA o with
    | error e => simp [hA] at h
    | ok oA =>
      simp only [hA] at h
      cases hB : TSysfsAdcMux.InitGPIO oA.GpioMuxB oA with
      | error e => simp [hB] at h
      | ok oB =>
        simp only [hB] at h
        cases hC : TSysfsAdcMux.InitGPIO oB.GpioMuxC oB with
        | error e => simp [hC] at h
        | ok oC =>
          simp only [hC] at h
          injection h with h
          subst h
          obtain ⟨eA, rfl, hAev⟩ := InitGPIO_of_ok hA
          obtain ⟨eB, rfl, hBev⟩ := InitGPIO_of_ok hB
          obtain ⟨eC, rfl, hCev⟩ := InitGPIO_of_ok hC
          refine ⟨eA ++ eB ++ eC, by simp [TSysfsAdc.advanced, List.append_assoc], ?_⟩
          intro e he
          simp only [List.mem_append] at he
          rcases he with (he | he) | he
          · exact hAev e he
          · exact hBev e he
          · exact hCev e he

/-- A returning `SetGPIOValue` has added one GPIO value write. -/
theorem SetGPIOValue_of_ok {g v : Int} {o o1 : TSysfsAdc}
    (h : TSysfsAdcMux.SetGPIOValue g v o = .ok o1) :
    o1 = o.advanced o.Initialized o.CurrentMuxInput 0 [.gpioValue g v] := by
  unfold TSysfsAdcMux.SetGPIOValue at h
  by_cases hv : (!o.env.valueOpens g) = true
  · rw [if_pos hv] at h
    cases h
  · rw [if_neg hv] at h
    injection h with h
    subst h
    exact emit_eq_advanced o _

/-- A returning `SetMuxABC n` has added events of the multiplexer and left the
multiplexer initialized with input `n` selected. -/
theorem SetMuxABC_of_ok {n : Int} {o o1 : TSysfsAdc} (h : TSysfsAdcMux.SetMuxABC n o = .ok o1) :
    ∃ evs, o1 = o.advanced true n 0 evs ∧ ∀ e ∈ evs, e.isMux = true := by
  unfold TSysfsAdcMux.SetMuxABC at h
  cases h0 : TSysfsAdcMux.InitMux o with
  | error e => simp [h0] at h
  | ok o0 =>
    simp only [h0] at h
    obtain ⟨e0, rfl, hev0⟩ := InitMux_of_ok h0
    by_cases hn : (o.advanced true o.CurrentMuxInput 0 e0).CurrentMuxInput = n
    · rw [if_pos hn] at h
      injection h with h
      subst h
      refine ⟨e0, ?_, hev0⟩
      have hn' : o.CurrentMuxInput = n := hn
      rw [hn']
    · rw [if_neg hn] at h
      cases hA : TSysfsAdcMux.SetGPIOValue (o.advanced true o.CurrentMuxInput 0 e0).GpioMuxA
          (Int.land n 1) (o.advanced true o.CurrentMuxInput 0 e0) with
      | error e => simp [hA] at h
      | ok oA =>
        simp only [hA] at h
        cases hB : TSysfsAdcMux.SetGPIOValue oA.GpioMuxB (Int.land n 2) oA with
        | error e => simp [hB] at h
        | ok oB =>
          simp only [hB] at h
          cases hC : TSysfsAdcMux.SetGPIOValue oB.GpioMuxC (Int.land n 4) oB with
          | error e => simp [hC] at h
          | ok oC =>
            simp only [hC] at h
            injection h with h
            subst h
            have hA' := SetGPIOValue_of_ok hA
            subst hA'
            have hB' := SetGPIOValue_of_ok hB
            subst hB'
            have hC' := SetGPIOValue_of_ok hC
            subst hC'
            refine ⟨e0 ++ [.gpioValue o.GpioMuxA (Int.land n 1),
              .gpioValue o.GpioMuxB (Int.land n 2), .gpioValue o.GpioMuxC (Int.land n 4),
              .usleep (o.MinSwitchIntervalMs * 1000)], ?_, ?_⟩
            · simp [TSysfsAdc.advanced, Env.emit]
            · intro e he
              rcases List.mem_append.mp he with he | he
              · exact hev0 e he
              · simp only [List.mem_cons, List.mem_singleton, List.not_mem_nil, or_false] at he
                rcases he with rfl | rfl | rfl | rfl <;> rfl

/-- A returning `SelectMuxChannel` has made no raw read and added events of the
multiplexer only. -/
theorem SelectMuxChannel_of_ok {n : Int} {o o1 : TSysfsAdc}
    (h : o.SelectMuxChannel n = .ok o1) :
    ∃ evs, Advances 0 evs o o1 ∧ ∀ e ∈ evs, e.isMux = true := by
  unfold TSysfsAdc.SelectMuxChannel at h
  cases hcls : o.cls with
  | TSysfsAdcPhys =>
    simp only [hcls] at h
    injection h with h
    subst h
    exact ⟨[], Advances.refl o, by simp⟩
  | TSysfsAdcMux =>
    simp only [hcls] at h
    obtain ⟨evs, rfl, hev⟩ := SetMuxABC_of_ok h
    refine ⟨evs, ⟨⟨true, n, rfl, fun _ => rfl⟩, ?_, ?_⟩, hev⟩
    · exact fun e he => Event.isMux_not_currentSource (hev e he)
    · rw [List.countP_eq_zero]
      intro e he
      simp [Event.isMux_not_read (hev e he)]

/-- A returning pass of the warm-up loop has stored the next number of the raw
file. -/
theorem warmUpSample_of_ok {i : Nat} {d d1 : TSysfsAdcChannelPrivate} {o o1 : TSysfsAdc}
    (h : warmUpSample i d o = .ok (d1, o1)) :
    d1 = d.fillSample i (o.env.rawFile o.env.reads) ∧ ∃ evs, Advances 1 evs o o1 := by
  unfold warmUpSample at h
  cases hsel : o.SelectMuxChannel d.Index with
  | error e => simp [hsel] at h
  | ok o0 =>
    simp only [hsel] at h
    obtain ⟨e0, ha0, -⟩ := SelectMuxChannel_of_ok hsel
    obtain ⟨hv, ha1⟩ := ReadValue_advances o0
    obtain ⟨hf, hr, -⟩ := ha0.rawFile
    by_cases hi : i < d.Buffer.length
    · rw [if_pos hi] at h
      simp only [Except.ok.injEq, Prod.mk.injEq] at h
      obtain ⟨rfl, rfl⟩ := h
      refine ⟨?_, _, by simpa using ha0.trans ha1⟩
      simp only [hv, hf, hr, Nat.add_zero, TSysfsAdcChannelPrivate.fillSample]
    · rw [if_neg hi] at h
      cases h

/-- A returning warm-up loop has stored the next `n` numbers of the raw file. -/
theorem warmUpLoop_of_ok (n : Nat) :
    ∀ {i : Nat} {d d1 : TSysfsAdcChannelPrivate} {o o1 : TSysfsAdc},
      warmUpLoop n i d o = .ok (d1, o1) →
      d1 = d.fillSamples o.env.rawFile n o.env.reads i ∧ ∃ evs, Advances n evs o o1 := by
  induction n with
  | zero =>
    intro i d d1 o o1 h
    simp only [warmUpLoop, Except.ok.injEq, Prod.mk.injEq] at h
    obtain ⟨rfl, rfl⟩ := h
    exact ⟨rfl, [], Advances.refl _⟩
  | succ n ih =>
    intro i d d1 o o1 h
    simp only [warmUpLoop] at h
    cases hs : warmUpSample i d o with
    | error e => simp [hs] at h
    | ok p =>
      obtain ⟨d0, o0⟩ := p
      simp only [hs] at h
      obtain ⟨rfl, e1, ha1⟩ := warmUpSample_of_ok hs
      obtain ⟨hf, hr, -⟩ := ha1.rawFile
      obtain ⟨hd1, e2, ha2⟩ := ih h
      refine ⟨?_, e1 ++ e2, by simpa [Nat.add_comm] using ha1.trans ha2⟩
      rw [hd1, hf, hr]
      rfl

/-- A returning pass of the update loop has pushed the next number of the raw
file. -/
theorem updateSample_of_ok {K : Header} {d d1 : TSysfsAdcChannelPrivate} {o o1 : TSysfsAdc}
    (h : updateSample K d o = .ok (d1, o1)) :
    d1 = d.pushSample (o.env.rawFile o.env.reads) ∧ ∃ evs, Advances 1 evs o o1 := by
  unfold updateSample at h
  cases hsel : o.SelectMuxChannel d.Index with
  | error e => simp [hsel] at h
  | ok o0 =>
    simp only [hsel] at h
    obtain ⟨e0, ha0, -⟩ := SelectMuxChannel_of_ok hsel
    obtain ⟨hv, ha1⟩ := ReadValue_advances o0
    obtain ⟨hf, hr, -⟩ := ha0.rawFile
    have ha2 := Advances.emit o0.ReadValue.2 (.sleepMs K.DELAY) rfl rfl
    by_cases hp : 0 ≤ d.Pos ∧ d.Pos.toNat < d.Buffer.length
    · rw [if_pos hp] at h
      by_cases hc : d.ChannelAveragingWindow = 0
      · rw [if_pos hc] at h
        cases h
      · rw [if_neg hc] at h
        simp only [Except.ok.injEq, Prod.mk.injEq] at h
        obtain ⟨rfl, rfl⟩ := h
        refine ⟨?_, _, by simpa using (ha0.trans ha1).trans ha2⟩
        simp only [hv, hf, hr, Nat.add_zero, TSysfsAdcChannelPrivate.pushSample]
    · rw [if_neg hp] at h
      cases h

/-- A returning update loop has pushed the next `n` numbers of the raw file. -/
theorem updateLoop_of_ok (K : Header) (n : Nat) :
    ∀ {d d1 : TSysfsAdcChannelPrivate} {o o1 : TSysfsAdc},
      updateLoop K n d o = .ok (d1, o1) →
      d1 = d.pushSamples o.env.rawFile n o.env.reads ∧ ∃ evs, Advances n evs o o1 := by
  induction n with
  | zero =>
    intro d d1 o o1 h
    simp only [updateLoop, Except.ok.injEq, Prod.mk.injEq] at h
    obtain ⟨rfl, rfl⟩ := h
    exact ⟨rfl, [], Advances.refl _⟩
  | succ n ih =>
    intro d d1 o o1 h
    simp only [updateLoop] at h
    cases hs : updateSample K d o with
    | error e => simp [hs] at h
    | ok p =>
      obtain ⟨d0, o0⟩ := p
      simp only [hs] at h
      obtain ⟨rfl, e1, ha1⟩ := updateSample_of_ok hs
      obtain ⟨hf, hr, -⟩ := ha1.rawFile
      obtain ⟨hd1, e2, ha2⟩ := ih h
      refine ⟨?_, e1 ++ e2, by simpa [Nat.add_comm] using ha1.trans ha2⟩
      rw [hd1, hf, hr]
      rfl

/-- A returning `GetAverageValue` has left the channel as the pure `afterCall`
says, returned the average of its sum, made `drawn` raw reads and no
current-source call, and left the configuration of the device as it was. -/
theorem GetAverageValue_of_ok {K : Header} {d d1 : TSysfsAdcChannelPrivate} {o o1 : TSysfsAdc}
    {value : Int} (h : GetAverageValue K d o = .ok (value, d1, o1)) :
    d1 = d.afterCall o.env.rawFile o.env.reads ∧
      value = average K d1.Sum d1.ChannelAveragingWindow ∧
      ∃ evs, Advances d.drawn evs o o1 := by
  unfold GetAverageValue at h
  by_cases hr : d.Ready = true
  · simp only [hr, Bool.not_true, Bool.false_eq_true, if_false] at h
    cases hl : updateLoop K d.ReadingsNumber.toNat d o with
    | error e => simp [hl] at h
    | ok p =>
      obtain ⟨d0, o0⟩ := p
      simp only [hl] at h
      by_cases hc : d0.ChannelAveragingWindow = 0
      · rw [if_pos hc] at h
        cases h
      · rw [if_neg hc] at h
        simp only [Except.ok.injEq, Prod.mk.injEq] at h
        obtain ⟨rfl, rfl, rfl⟩ := h
        obtain ⟨hd, evs, ha⟩ := updateLoop_of_ok K _ hl
        refine ⟨?_, rfl, evs, by simpa [TSysfsAdcChannelPrivate.drawn, hr] using ha⟩
        simp only [TSysfsAdcChannelPrivate.afterCall, hr, if_true, hd]
  · have hr' : d.Ready = false := by simpa using hr
    simp only [hr', Bool.not_false, if_true] at h
    cases hl : warmUpLoop d.ChannelAveragingWindow.toNat 0 d o with
    | error e => simp [hl] at h
    | ok p =>
      obtain ⟨d0, o0⟩ := p
      simp only [hl] at h
      by_cases hc : d0.ChannelAveragingWindow = 0
      · rw [if_pos hc] at h
        cases h
      · rw [if_neg hc] at h
        simp only [Except.ok.injEq, Prod.mk.injEq] at h
        obtain ⟨rfl, rfl, rfl⟩ := h
        obtain ⟨hd, evs, ha⟩ := warmUpLoop_of_ok _ hl
        refine ⟨?_, rfl, evs, by simpa [TSysfsAdcChannelPrivate.drawn, hr'] using ha⟩
        simp only [TSysfsAdcChannelPrivate.afterCall, hr', Bool.false_eq_true, if_false, hd]

/-! ## Conversion -/

/-- C5, at the input where the code departs from the claim: an average equal
to `ADC_VALUE_MAX` fails the test `value < ADC_VALUE_MAX`, so both conversions
give NaN whatever the scale and the voltage ceiling; and on the example device
(scale `1/2`, ceiling `3100`, `ADC_VALUE_MAX = 4095`, raw file constantly
`4095`) the average is `4095`, the voltage check passes, and `GetValue`
returns NaN. -/
theorem GetValue_nan_at_ADC_VALUE_MAX :
    (∀ (K : Header) (c : TSysfsAdcChannel) (o : TSysfsAdc),
      TSysfsAdcChannel.valueOf K c o K.ADC_VALUE_MAX = .nan) ∧
    (∀ (K : Header) (c : TSysfsAdcChannelRes) (o : TSysfsAdc),
      TSysfsAdcChannelRes.valueOf K c o K.ADC_VALUE_MAX = .nan) ∧
    ∃ d1 o1,
      TSysfsAdcChannel.GetAverageValue exampleHeader exampleChannel.d exampleSaturated =
        .ok (4095, d1, o1) ∧
      exampleHeader.ADC_VALUE_MAX = 4095 ∧
      o1.CheckVoltage 4095 = true ∧
      (TSysfsAdcChannel.GetValue exampleHeader exampleChannel exampleSaturated).map Prod.fst =
        .ok .nan ∧
      (TSysfsAdcChannelRes.GetValue exampleHeader (exampleChannelRes false)
        exampleSaturated).map Prod.fst = .ok .nan := by
  refine ⟨?_, ?_, ?_⟩
  · intro K c o
    simp [TSysfsAdcChannel.valueOf]
  · intro K c o
    simp [TSysfsAdcChannelRes.valueOf]
  · refine ⟨_, _, rfl, rfl, ?_, rfl, rfl⟩
    simp only [TSysfsAdc.CheckVoltage, TSysfsAdc.ReadValue, exampleSaturated, exampleMux]
    norm_num

/-- C6: when `GetAverageValue` yields an average `value` that passes the test
`value < ADC_VALUE_MAX` and the voltage check, `TSysfsAdcChannel::GetValue`
returns `value * Multiplier / 1000 * IIOScale`, in exact arithmetic, where
`IIOScale` is the scale of the device, which the call does not change. -/
theorem GetValue_voltage_formula (K : Header) (c : TSysfsAdcChannel) (o : TSysfsAdc)
    (value : Int) (d1 : TSysfsAdcChannelPrivate) (o1 : TSysfsAdc)
    (havg : TSysfsAdcChannel.GetAverageValue K c.d o = .ok (value, d1, o1))
    (hmax : value < K.ADC_VALUE_MAX) (hchk : o1.CheckVoltage value = true) :
    TSysfsAdcChannel.GetValue K c o =
        .ok (.value ((value : ℚ) * c.Multiplier / 1000 * o.IIOScale), { c with d := d1 }, o1) ∧
      o1.IIOScale = o.IIOScale ∧ o1.MaxVoltage = o.MaxVoltage := by
  obtain ⟨-, -, evs, ha⟩ := GetAverageValue_of_ok havg
  obtain ⟨-, -, -, hscale, hmaxv⟩ := ha.rawFile
  refine ⟨?_, hscale, hmaxv⟩
  simp [TSysfsAdcChannel.GetValue, havg, TSysfsAdcChannel.valueOf, hmax, hchk, hscale]

/-- C6 on the example of the claim: the raw file yields `1000` at every read,
so the average is `1000`; with scale `0.001` and multiplier `1000` the reading
is `1`. -/
theorem GetValue_voltage_formula_witness :
    exampleMux.IIOScale = 1 / 1000 ∧ exampleChannel.Multiplier = 1000 ∧
      ∃ d1 o1, TSysfsAdcChannel.GetAverageValue exampleHeader exampleChannel.d exampleMux =
          .ok (1000, d1, o1) ∧
        TSysfsAdcChannel.GetValue exampleHeader exampleChannel exampleMux =
          .ok (.value 1, { exampleChannel with d := d1 }, o1) := by
  refine ⟨rfl, rfl, _, _, rfl, ?_⟩
  refine (GetValue_voltage_formula exampleHeader exampleChannel exampleMux 1000 _ _ rfl
    (by decide) ?_).1.trans ?_
  · simp only [TSysfsAdc.CheckVoltage, TSysfsAdc.ReadValue, exampleMux]
    norm_num
  · simp only [exampleMux, exampleChannel]
    norm_num

/-! ## The reading of a resistance channel -/

/-- The conversion of a resistance channel depends on the device through its
scale and its voltage ceiling only. -/
theorem valueOf_resistance_congr (K : Header) (c : TSysfsAdcChannelRes) (o o4 : TSysfsAdc)
    (value : Int) (hscale : o4.IIOScale = o.IIOScale) (hmax : o4.MaxVoltage = o.MaxVoltage) :
    TSysfsAdcChannelRes.valueOf K c o4 value = TSysfsAdcChannelRes.valueOf K c o value := by
  simp only [TSysfsAdcChannelRes.valueOf, TSysfsAdcChannelRes.voltage, TSysfsAdc.CheckVoltage,
    hscale, hmax]

/-- The reading `TSysfsAdcChannelRes::GetValue` returns is the conversion
`valueOf`, at the scale and the voltage ceiling of the device, of the average
that its call of `GetAverageValue` yields; and that average is the average of
the running sum the channel has after the call has taken its samples from the
raw file. -/
theorem GetValue_resistance_reading (K : Header) (c : TSysfsAdcChannelRes) (o : TSysfsAdc)
    (r : Reading) (c1 : TSysfsAdcChannelRes) (o1 : TSysfsAdc)
    (h : TSysfsAdcChannelRes.GetValue K c o = .ok (r, c1, o1)) :
    ∃ value o3 o4, GetAverageValue K c.d o3 = .ok (value, c1.d, o4) ∧
      value = average K (c.d.afterCall o.env.rawFile o.env.reads).Sum
        c.d.ChannelAveragingWindow ∧
      r = TSysfsAdcChannelRes.valueOf K c o value := by
  unfold TSysfsAdcChannelRes.GetValue at h
  cases hdis : (if c.d.DischargeChannel ≠ -1 then
      o.SelectMuxChannel c.d.DischargeChannel else .ok o) with
  | error e => simp [hdis] at h
  | ok oa =>
    simp only [hdis] at h
    have ha1 : ∃ e1, Advances 0 e1 o oa := by
      by_cases hd : c.d.DischargeChannel ≠ -1
      · rw [if_pos hd] at hdis
        obtain ⟨e1, ha, -⟩ := SelectMuxChannel_of_ok hdis
        exact ⟨e1, ha⟩
      · rw [if_neg hd] at hdis
        injection hdis with hdis
        subst hdis
        exact ⟨[], Advances.refl o⟩
    obtain ⟨e1, ha1⟩ := ha1
    cases hsel : oa.SelectMuxChannel c.d.Index with
    | error e => simp [hsel] at h
    | ok ob =>
      simp only [hsel] at h
      obtain ⟨e2, ha2, -⟩ := SelectMuxChannel_of_ok hsel
      obtain ⟨hf12, hr12, -, hs12, hm12⟩ := (ha1.trans ha2).rawFile
      obtain ⟨o3, ho3⟩ : ∃ o3 : TSysfsAdc, o3 = (if !c.SourceAlwaysOn then
          { c.SetUpCurrentSource ob with
            env := (c.SetUpCurrentSource ob).env.emit (.sleepMs K.DELAY) } else ob) := ⟨_, rfl⟩
      have hs3 : o3.IIOScale = ob.IIOScale ∧ o3.MaxVoltage = ob.MaxVoltage := by
        rw [ho3]
        cases c.SourceAlwaysOn <;> exact ⟨rfl, rfl⟩
      have hf3 : o3.env.rawFile = ob.env.rawFile ∧ o3.env.reads = ob.env.reads := by
        rw [ho3]
        cases c.SourceAlwaysOn <;> exact ⟨rfl, rfl⟩
      simp only [← ho3] at h
      cases havg : GetAverageValue K c.d o3 with
      | error e => simp [havg] at h
      | ok p =>
        obtain ⟨value, d1, o4⟩ := p
        simp only [havg, Except.ok.injEq, Prod.mk.injEq] at h
        obtain ⟨hr, hc1, -⟩ := h
        subst hc1
        obtain ⟨hd1, hval, e4, ha4⟩ := GetAverageValue_of_ok havg
        obtain ⟨-, -, -, hs4, hm4⟩ := ha4.rawFile
        refine ⟨value, o3, o4, havg, ?_, ?_⟩
        · rw [hval, hd1, hf3.1, hf3.2, hf12, hr12, Nat.add_zero,
            (afterCall_static c.d o.env.rawFile o.env.reads).1]
        rw [← hr]
        exact valueOf_resistance_congr K c o o4 value (by rw [hs4, hs3.1, hs12])
          (by rw [hm4, hs3.2, hm12])

/-! ## Successive calls of `GetAverageValue` -/

/-- For a positive window the constructor yields a fresh channel with that window. -/
theorem new_fresh {owner : TSysfsAdc} {index : Int} {name : String} {rn dp dc : Int}
    {mt : String} {mult : ℚ} {ch : TSysfsAdcChannel}
    (hnew : TSysfsAdcChannel.new owner index name rn dp dc mt mult = .ok ch)
    (hc : 0 < rn * owner.AveragingWindow) :
    ch.d.Fresh ∧ ch.d.ChannelAveragingWindow = rn * owner.AveragingWindow ∧
      ch.d.ReadingsNumber = rn := by
  have hneg : ¬ rn * owner.AveragingWindow < 0 := by omega
  simp only [TSysfsAdcChannel.new, hneg, if_false, Except.ok.injEq] at hnew
  subst hnew
  refine ⟨⟨⟨hc, by simp, le_rfl, hc⟩, rfl, rfl, rfl, ?_⟩, rfl, rfl⟩
  intro k hk
  simp only [List.length_replicate] at hk
  simp [List.getD_eq_getElem?_getD, List.getElem?_replicate, hk]

/-- After any number of successive calls, from a fresh channel or from a ready
ring, the last call returned the average of a ring over the raw file, and the
calls made `drawn + n * ReadingsNumber` reads. -/
theorem callsGetAverageValue_circular (K : Header) (n : Nat) :
    ∀ (d : TSysfsAdcChannelPrivate) (o : TSysfsAdc), o.selectable = true →
      (d.Fresh ∨ (d.Ready = true ∧ d.Circular o.env.rawFile o.env.reads)) →
      ∃ d1 o1, callsGetAverageValue K n d o =
          .ok (average K d1.Sum d1.ChannelAveragingWindow, d1, o1) ∧
        d1.Circular o.env.rawFile o1.env.reads ∧
        o1.env.reads = o.env.reads + d.drawn + n * d.ReadingsNumber.toNat ∧
        d1.ChannelAveragingWindow = d.ChannelAveragingWindow := by
  induction n with
  | zero =>
    intro d o hs h
    have hwf : d.WellFormed := by
      rcases h with h | h
      · exact h.1
      · exact h.2.1
    obtain ⟨o1, evs, h1, ha⟩ := GetAverageValue_ok K d o hs hwf
    obtain ⟨-, hr, -⟩ := ha.rawFile
    obtain ⟨hst, -, -⟩ := afterCall_static d o.env.rawFile o.env.reads
    refine ⟨_, o1, ?_, ?_, by simp [hr], hst⟩
    · rw [callsGetAverageValue, h1, hst]
    · rw [hr]
      rcases h with h | h
      · exact Fresh_afterCall _ _ h
      · exact Circular_afterCall h.2 h.1
  | succ n ih =>
    intro d o hs h
    have hwf : d.WellFormed := by
      rcases h with h | h
      · exact h.1
      · exact h.2.1
    obtain ⟨o1, evs, h1, ha⟩ := GetAverageValue_ok K d o hs hwf
    obtain ⟨hf, hr, -⟩ := ha.rawFile
    obtain ⟨hst, hrn, hready⟩ := afterCall_static d o.env.rawFile o.env.reads
    have hcirc : (d.afterCall o.env.rawFile o.env.reads).Circular o1.env.rawFile o1.env.reads := by
      rw [hf, hr]
      rcases h with h | h
      · exact Fresh_afterCall _ _ h
      · exact Circular_afterCall h.2 h.1
    obtain ⟨d2, o2, h2, hcirc2, hreads2, hst2⟩ :=
      ih (d.afterCall o.env.rawFile o.env.reads) o1 (ha.selectable hs) (Or.inr ⟨hready, hcirc⟩)
    refine ⟨d2, o2, ?_, by simpa [hf] using hcirc2, ?_, hst2.trans hst⟩
    · rw [callsGetAverageValue, h1]
      exact h2
    · rw [hreads2, hr, hrn]
      simp only [TSysfsAdcChannelPrivate.drawn, hready, if_true, hrn]
      ring

/-- Whenever successive calls from a fresh channel or from a ready ring return,
the last call returned the average of a ring over the raw file, and the calls
made `drawn + n * ReadingsNumber` reads. -/
theorem callsGetAverageValue_of_ok (K : Header) (n : Nat) :
    ∀ {d d1 : TSysfsAdcChannelPrivate} {o o1 : TSysfsAdc} {r : Int},
      callsGetAverageValue K n d o = .ok (r, d1, o1) →
      (d.Fresh ∨ (d.Ready = true ∧ d.Circular o.env.rawFile o.env.reads)) →
      r = average K d1.Sum d1.ChannelAveragingWindow ∧
        d1.Circular o.env.rawFile o1.env.reads ∧
        o1.env.reads = o.env.reads + d.drawn + n * d.ReadingsNumber.toNat ∧
        d1.ChannelAveragingWindow = d.ChannelAveragingWindow := by
  induction n with
  | zero =>
    intro d d1 o o1 r h hd
    simp only [callsGetAverageValue] at h
    obtain ⟨rfl, hr, evs, ha⟩ := GetAverageValue_of_ok h
    obtain ⟨-, hreads, -⟩ := ha.rawFile
    obtain ⟨hst, -, -⟩ := afterCall_static d o.env.rawFile o.env.reads
    refine ⟨hr, ?_, by simp [hreads], hst⟩
    rw [hreads]
    rcases hd with hd | hd
    · exact Fresh_afterCall _ _ hd
    · exact Circular_afterCall hd.2 hd.1
  | succ n ih =>
    intro d d1 o o1 r h hd
    simp only [callsGetAverageValue] at h
    cases hg : GetAverageValue K d o with
    | error e => simp [hg] at h
    | ok p =>
      obtain ⟨v0, d0, o0⟩ := p
      simp only [hg] at h
      obtain ⟨rfl, -, evs, ha⟩ := GetAverageValue_of_ok hg
      obtain ⟨hf, hreads, -⟩ := ha.rawFile
      obtain ⟨hst, hrn, hready⟩ := afterCall_static d o.env.rawFile o.env.reads
      have hcirc : (d.afterCall o.env.rawFile o.env.reads).Circular o0.env.rawFile o0.env.reads := by
        rw [hf, hreads]
        rcases hd with hd | hd
        · exact Fresh_afterCall _ _ hd
        · exact Circular_afterCall hd.2 hd.1
      obtain ⟨hr, hcirc1, hreads1, hst1⟩ := ih h (Or.inr ⟨hready, hcirc⟩)
      refine ⟨hr, by simpa [hf] using hcirc1, ?_, hst1.trans hst⟩
      rw [hreads1, hreads, hrn]
      simp only [TSysfsAdcChannelPrivate.drawn, hready, if_true, hrn]
      ring

/-- C10: a channel is constructed with a positive window
`c = readings_number * AveragingWindow`, and `GetAverageValue` is called
`n + 1` times; the last `c` numbers that these calls read from the raw file
all equal `v`. Then the last call returns when the multiplexer can be driven,
and whenever it returns it returns `v`, the calls having read
`c + n * readings_number` samples in all. With `n = 0` this is the warm-up call
on a constant source; with `n` update cycles that cover a whole window of a new
constant it is the return to that constant, whatever was read before. -/
theorem GetAverageValue_constant (K : Header) (owner : TSysfsAdc) (index : Int) (name : String)
    (readings_number decimal_places discharge_channel : Int) (mqtt_type : String)
    (multiplier : ℚ) (ch : TSysfsAdcChannel) (n : Nat) (v : Int)
    (hnew : TSysfsAdcChannel.new owner index name readings_number decimal_places
      discharge_channel mqtt_type multiplier = .ok ch)
    (hc : 0 < readings_number * owner.AveragingWindow)
    (hv : ∀ j, owner.env.reads + n * readings_number.toNat ≤ j →
      j < owner.env.reads + n * readings_number.toNat
        + (readings_number * owner.AveragingWindow).toNat →
      owner.env.rawFile j = v) :
    (owner.selectable = true →
      ∃ d1 o1, callsGetAverageValue K n ch.d owner = .ok (v, d1, o1)) ∧
    (∀ r d1 o1, callsGetAverageValue K n ch.d owner = .ok (r, d1, o1) →
      r = v ∧ o1.env.reads = owner.env.reads
        + (readings_number * owner.AveragingWindow).toNat + n * readings_number.toNat) := by
  obtain ⟨hfresh, hwin, hrn⟩ := new_fresh hnew hc
  have hdrawn : ch.d.drawn = (readings_number * owner.AveragingWindow).toNat := by
    simp [TSysfsAdcChannelPrivate.drawn, hfresh.2.1, hwin]
  have hval : ∀ r d1 o1, callsGetAverageValue K n ch.d owner = .ok (r, d1, o1) →
      r = v ∧ o1.env.reads = owner.env.reads
        + (readings_number * owner.AveragingWindow).toNat + n * readings_number.toNat := by
    intro r d1 o1 h
    obtain ⟨hr, hcirc, hreads, hst⟩ := callsGetAverageValue_of_ok K n h (Or.inl hfresh)
    rw [hdrawn, hrn] at hreads
    have hlen : d1.Buffer.length = (readings_number * owner.AveragingWindow).toNat := by
      rw [hcirc.1.2.1, hst, hwin]
    refine ⟨?_, hreads⟩
    rw [hr, Circular_constant hcirc K v]
    intro j hj1 hj2
    apply hv j
    · rw [hlen, hreads] at hj1
      omega
    · rw [hreads] at hj2
      omega
  refine ⟨fun hs => ?_, hval⟩
  obtain ⟨d1, o1, h1, -⟩ := callsGetAverageValue_circular K n ch.d owner hs (Or.inl hfresh)
  exact ⟨d1, o1, by rw [h1, (hval _ d1 o1 h1).1]⟩

/-- C10 on an example: window `4`, two readings per cycle, a raw file that
yields `500` four times and `1000` afterwards; the third call, which completes
two update cycles of the new value, returns `1000`. -/
theorem GetAverageValue_constant_witness :
    ∃ d1 o1, callsGetAverageValue exampleHeader 2 exampleChannel.d exampleStep =
      .ok (1000, d1, o1) :=
  (GetAverageValue_constant exampleHeader exampleStep 3 "A1" 2 2 (-1) "" 1000 exampleChannel 2
    1000 rfl (by decide)
    (by
      intro j hj _
      have h4 : ¬ j < 4 := by
        have : exampleStep.env.reads + 2 * (2 : Int).toNat ≤ j := hj
        simp only [exampleStep, exampleEnv] at this
        simp at this
        omega
      simp [exampleStep, h4])).1 rfl

/-! ## Current-source sequencing -/

/-- A list of events that counts no raw read holds none. -/
theorem countP_isRead_zero {evs : List Event} (h : evs.countP Event.isRead = 0) :
    ∀ e ∈ evs, e.isRead = false := by
  intro e he
  have := (List.countP_eq_zero.mp h) e he
  simpa using this

/-- On a device whose multiplexer can be driven and a well-formed channel,
`TSysfsAdcChannelRes::GetValue` returns. -/
theorem GetValue_resistance_returns (K : Header) (c : TSysfsAdcChannelRes) (o : TSysfsAdc)
    (hs : o.selectable = true) (hwf : c.d.WellFormed) :
    ∃ r c1 o1, TSysfsAdcChannelRes.GetValue K c o = .ok (r, c1, o1) := by
  have hdis : ∃ o1 e1, (if c.d.DischargeChannel ≠ -1 then
      o.SelectMuxChannel c.d.DischargeChannel else .ok o) = .ok o1 ∧ Advances 0 e1 o o1 := by
    by_cases hd : c.d.DischargeChannel ≠ -1
    · obtain ⟨o1, e1, h1, ha1, -⟩ := SelectMuxChannel_ok c.d.DischargeChannel o hs
      exact ⟨o1, e1, by rw [if_pos hd]; exact h1, ha1⟩
    · exact ⟨o, [], by rw [if_neg hd], Advances.refl o⟩
  obtain ⟨o1, e1, h1, ha1⟩ := hdis
  obtain ⟨o2, e2, h2, ha2, -⟩ := SelectMuxChannel_ok c.d.Index o1 (ha1.selectable hs)
  have hs2 := (ha1.trans ha2).selectable hs
  cases hon : c.SourceAlwaysOn with
  | true =>
    obtain ⟨o4, e4, h4, -⟩ := GetAverageValue_ok K c.d o2 hs2 hwf
    simp only [TSysfsAdcChannelRes.GetValue, h1, h2, hon, Bool.not_true, Bool.false_eq_true,
      if_false, h4]
    exact ⟨_, _, _, rfl⟩
  | false =>
    have hs3 : ({ c.SetUpCurrentSource o2 with
        env := (c.SetUpCurrentSource o2).env.emit (.sleepMs K.DELAY) } : TSysfsAdc).selectable
          = true := hs2
    obtain ⟨o4, e4, h4, -⟩ := GetAverageValue_ok K c.d _ hs3 hwf
    simp only [TSysfsAdcChannelRes.GetValue, h1, h2, hon, Bool.not_false, if_true, h4]
    exact ⟨_, _, _, rfl⟩

/-- C8: on a device whose multiplexer can be driven and a channel whose buffer
matches its window, `TSysfsAdcChannelRes::GetValue` returns; and whenever it
returns, with a number or with NaN, the events it has added to the trace are,
for a source that is not always on: events `pre` with no current-source call
and no raw read, one `SetUpCurrentSource`, events `mid` with no current-source
call, which hold every raw read of the call, and last one
`SwitchOffCurrentSource`; for a source that is always on: events with no
current-source call. The constructor returns whenever the window
`readings_number * AveragingWindow` is not negative, and whenever it returns
it has added to the trace exactly one `SetUpCurrentSource`, for the source
channel and the current of the channel, when the source is always on, and
nothing when it is not. -/
theorem GetValue_current_source_bracket (K : Header) (c : TSysfsAdcChannelRes) (o : TSysfsAdc) :
    (o.selectable = true → c.d.WellFormed →
      ∃ r c1 o1, TSysfsAdcChannelRes.GetValue K c o = .ok (r, c1, o1)) ∧
    (∀ r c1 o1, TSysfsAdcChannelRes.GetValue K c o = .ok (r, c1, o1) →
      (c.SourceAlwaysOn = false →
        ∃ pre mid, o1.env.trace = o.env.trace ++ pre
            ++ [Event.SetUpCurrentSource c.CurrentSourceChannel c.Current] ++ mid
            ++ [Event.SwitchOffCurrentSource c.CurrentSourceChannel] ∧
          (∀ e ∈ pre, e.isCurrentSource = false ∧ e.isRead = false) ∧
          (∀ e ∈ mid, e.isCurrentSource = false) ∧
          mid.countP Event.isRead = o1.env.reads - o.env.reads) ∧
      (c.SourceAlwaysOn = true →
        ∃ evs, o1.env.trace = o.env.trace ++ evs ∧ ∀ e ∈ evs, e.isCurrentSource = false)) ∧
    (∀ (defaultMultiplier : ℚ) (sourceChannel : Int) (index : Int) (name : String)
        (readings_number decimal_places discharge_channel current resistance1 resistance2 : Int)
        (source_always_on : Bool) (current_calibration_factor : ℚ) (mqtt_type : String),
      (0 ≤ readings_number * o.AveragingWindow →
        ∃ c0 o0, TSysfsAdcChannelRes.new defaultMultiplier sourceChannel o index name
          readings_number decimal_places discharge_channel current resistance1 resistance2
          source_always_on current_calibration_factor mqtt_type = .ok (c0, o0)) ∧
      ∀ c0 o0, TSysfsAdcChannelRes.new defaultMultiplier sourceChannel o index name
          readings_number decimal_places discharge_channel current resistance1 resistance2
          source_always_on current_calibration_factor mqtt_type = .ok (c0, o0) →
        c0.SourceAlwaysOn = source_always_on ∧ c0.CurrentSourceChannel = sourceChannel ∧
          c0.Current = current ∧
          o0.env.trace = o.env.trace ++
            (if source_always_on then [Event.SetUpCurrentSource sourceChannel current]
              else [])) := by
  refine ⟨GetValue_resistance_returns K c o, ?_, ?_⟩
  · intro r c1 o1 h
    unfold TSysfsAdcChannelRes.GetValue at h
    cases hdis : (if c.d.DischargeChannel ≠ -1 then
        o.SelectMuxChannel c.d.DischargeChannel else .ok o) with
    | error e => simp [hdis] at h
    | ok oa =>
      simp only [hdis] at h
      have ha1 : ∃ e1, Advances 0 e1 o oa := by
        by_cases hd : c.d.DischargeChannel ≠ -1
        · rw [if_pos hd] at hdis
          obtain ⟨e1, ha, -⟩ := SelectMuxChannel_of_ok hdis
          exact ⟨e1, ha⟩
        · rw [if_neg hd] at hdis
          injection hdis with hdis
          subst hdis
          exact ⟨[], Advances.refl o⟩
      obtain ⟨e1, ha1⟩ := ha1
      cases hsel : oa.SelectMuxChannel c.d.Index with
      | error e => simp [hsel] at h
      | ok ob =>
        simp only [hsel] at h
        obtain ⟨e2, ha2, -⟩ := SelectMuxChannel_of_ok hsel
        have ha12 := ha1.trans ha2
        obtain ⟨-, hr12, ht12, -⟩ := ha12.rawFile
        cases hon : c.SourceAlwaysOn with
        | true =>
          simp only [hon, Bool.not_true, Bool.false_eq_true, if_false] at h
          cases havg : GetAverageValue K c.d ob with
          | error e => simp [havg] at h
          | ok p =>
            obtain ⟨value, d1, o4⟩ := p
            simp only [havg, Except.ok.injEq, Prod.mk.injEq] at h
            obtain ⟨-, -, rfl⟩ := h
            obtain ⟨-, -, e4, ha4⟩ := GetAverageValue_of_ok havg
            obtain ⟨-, -, ht4, -⟩ := (ha12.trans ha4).rawFile
            exact ⟨fun hf => by simp at hf, fun _ => ⟨_, ht4, (ha12.trans ha4).2.1⟩⟩
        | false =>
          simp only [hon, Bool.not_false, if_true] at h
          obtain ⟨o3, ho3⟩ : ∃ o3 : TSysfsAdc, o3 = { c.SetUpCurrentSource ob with
              env := (c.SetUpCurrentSource ob).env.emit (.sleepMs K.DELAY) } := ⟨_, rfl⟩
          have ht3 : o3.env.trace = ob.env.trace
              ++ [Event.SetUpCurrentSource c.CurrentSourceChannel c.Current,
                Event.sleepMs K.DELAY] := by
            rw [ho3]
            simp [TSysfsAdcChannelRes.SetUpCurrentSource, Env.emit]
          have hr3 : o3.env.reads = ob.env.reads := by
            rw [ho3]
            rfl
          rw [← ho3] at h
          cases havg : GetAverageValue K c.d o3 with
          | error e => simp [havg] at h
          | ok p =>
            obtain ⟨value, d1, o4⟩ := p
            simp only [havg, Except.ok.injEq, Prod.mk.injEq] at h
            obtain ⟨-, -, rfl⟩ := h
            obtain ⟨-, -, e4, ha4⟩ := GetAverageValue_of_ok havg
            obtain ⟨-, hr4, ht4, -⟩ := ha4.rawFile
            refine ⟨fun _ => ?_, fun hf => by simp at hf⟩
            refine ⟨e1 ++ e2, [Event.sleepMs K.DELAY] ++ e4, ?_, ?_, ?_, ?_⟩
            · simp only [TSysfsAdcChannelRes.SwitchOffCurrentSource, Env.emit, ht4, ht3, ht12,
                List.append_assoc, List.singleton_append, List.cons_append, List.nil_append]
            · intro e he
              exact ⟨ha12.2.1 e he, countP_isRead_zero ha12.2.2 e he⟩
            · intro e he
              rcases List.mem_append.mp he with he | he
              · simp only [List.mem_singleton] at he
                subst he
                rfl
              · exact ha4.2.1 e he
            · have hcount : ([Event.sleepMs K.DELAY] ++ e4).countP Event.isRead = c.d.drawn := by
                rw [List.countP_append, ha4.2.2]
                simp [Event.isRead]
              rw [hcount]
              simp only [TSysfsAdcChannelRes.SwitchOffCurrentSource, Env.emit, hr4, hr3, hr12]
              omega
  · intro dm sc index name rn dp dc cur r1 r2 b ccf mt
    constructor
    · intro hwin
      have hneg : ¬ rn * o.AveragingWindow < 0 := not_lt.mpr hwin
      cases b <;>
        simp [TSysfsAdcChannelRes.new, TSysfsAdcChannel.new, hneg]
    · intro c0 o0 hnew
      simp only [TSysfsAdcChannelRes.new] at hnew
      cases hbase : TSysfsAdcChannel.new o index name rn dp dc mt dm with
      | error e => simp [hbase] at hnew
      | ok base =>
        cases b with
        | true =>
          simp only [hbase, if_true, Except.ok.injEq, Prod.mk.injEq] at hnew
          obtain ⟨rfl, rfl⟩ := hnew
          exact ⟨rfl, rfl, rfl, by simp [TSysfsAdcChannelRes.SetUpCurrentSource, Env.emit]⟩
        | false =>
          simp only [hbase, Bool.false_eq_true, if_false, Except.ok.injEq, Prod.mk.injEq] at hnew
          obtain ⟨rfl, rfl⟩ := hnew
          exact ⟨rfl, rfl, rfl, by simp⟩

/-- C8 on the example device. The example resistance channel with a source
that is not always on: the call returns and its events are bracketed by
`SetUpCurrentSource 7 1000` and `SwitchOffCurrentSource 7`. With a source that
is always on: the constructor returns the example channel and adds the one
event `SetUpCurrentSource 7 1000` to the trace, and a call of `GetValue` on
what it leaves returns and adds no current-source event. -/
theorem GetValue_current_source_bracket_witness :
    (∃ r c1 o1, TSysfsAdcChannelRes.GetValue exampleHeader (exampleChannelRes false) exampleMux =
        .ok (r, c1, o1) ∧
      ∃ pre mid, o1.env.trace = exampleMux.env.trace ++ pre
          ++ [Event.SetUpCurrentSource 7 1000] ++ mid ++ [Event.SwitchOffCurrentSource 7] ∧
        (∀ e ∈ pre, e.isCurrentSource = false ∧ e.isRead = false) ∧
        (∀ e ∈ mid, e.isCurrentSource = false) ∧
        mid.countP Event.isRead = o1.env.reads - exampleMux.env.reads) ∧
    ∃ o0, TSysfsAdcChannelRes.new 1000 7 exampleMux 3 "A1" 2 2 (-1) 1000 100000 0 true 1 "" =
        .ok (exampleChannelRes true, o0) ∧
      o0.env.trace = exampleMux.env.trace ++ [Event.SetUpCurrentSource 7 1000] ∧
      ∃ r c1 o1, TSysfsAdcChannelRes.GetValue exampleHeader (exampleChannelRes true) o0 =
          .ok (r, c1, o1) ∧
        ∃ evs, o1.env.trace = o0.env.trace ++ evs ∧ ∀ e ∈ evs, e.isCurrentSource = false := by
  have hwf : ∀ b, (exampleChannelRes b).d.WellFormed := by
    intro b
    simp [TSysfsAdcChannelPrivate.WellFormed, exampleChannelRes, exampleChannel]
  obtain ⟨hret, hform, hnew⟩ :=
    GetValue_current_source_bracket exampleHeader (exampleChannelRes false) exampleMux
  obtain ⟨r, c1, o1, h⟩ := hret rfl (hwf false)
  refine ⟨⟨r, c1, o1, h, (hform r c1 o1 h).1 rfl⟩, ?_⟩
  have hcon : TSysfsAdcChannelRes.new 1000 7 exampleMux 3 "A1" 2 2 (-1) 1000 100000 0 true 1 "" =
      .ok (exampleChannelRes true, (exampleChannelRes true).SetUpCurrentSource exampleMux) := rfl
  obtain ⟨-, -, -, htrace⟩ := (hnew 1000 7 3 "A1" 2 2 (-1) 1000 100000 0 true 1 "").2 _ _ hcon
  obtain ⟨hret1, hform1, -⟩ :=
    GetValue_current_source_bracket exampleHeader (exampleChannelRes true)
      ((exampleChannelRes true).SetUpCurrentSource exampleMux)
  obtain ⟨r1, c2, o2, h1⟩ := hret1 rfl (hwf true)
  exact ⟨_, hcon, by simpa using htrace, r1, c2, o2, h1, (hform1 r1 c2 o2 h1).2 rfl⟩

/-! ## The resistance formula -/

/-- On the device with the scale `0.50000001` the average `2000` gives the
voltage `1`: the quotient `1.00000002` is nearer to `1` than to any other
`float`. -/
theorem exampleOpen_voltage : TSysfsAdcChannelRes.voltage exampleHeader exampleOpen 2000 = 1 := by
  have h1 : roundDouble (4503599717442489 / 9007199254740992 * 2000) = 8796093198129861 / 8796093022208 := by
    have h := roundBinary_eq 53 (-1022) (4503599717442489 / 9007199254740992 * 2000) (9) 8796093198129861
      (by rw [abs_of_pos (by norm_num)]; norm_num)
      (by rw [abs_of_pos (by norm_num)]; norm_num) (by norm_num)
      (by rw [abs_lt]; constructor <;> norm_num)
    rw [roundDouble, h]
    norm_num
  have h2 : roundDouble (8796093198129861 / 8796093022208 / 1000) = 4503599717442489 / 4503599627370496 := by
    have h := roundBinary_eq 53 (-1022) (8796093198129861 / 8796093022208 / 1000) (0) 4503599717442489
      (by rw [abs_of_pos (by norm_num)]; norm_num)
      (by rw [abs_of_pos (by norm_num)]; norm_num) (by norm_num)
      (by rw [abs_lt]; constructor <;> norm_num)
    rw [roundDouble, h]
    norm_num
  have h3 : roundFloat (4503599717442489 / 4503599627370496) = 1 := by
    have h := roundBinary_eq 24 (-126) (4503599717442489 / 4503599627370496) (0) 8388608
      (by rw [abs_of_pos (by norm_num)]; norm_num)
      (by rw [abs_of_pos (by norm_num)]; norm_num) (by norm_num)
      (by rw [abs_lt]; constructor <;> norm_num)
    rw [roundFloat, h]
    norm_num
  simp only [TSysfsAdcChannelRes.voltage, exampleHeader, if_true, exampleOpen]
  push_cast
  rw [h1, h2, h3]

/-- At the voltage `1` the two terms of the bracket of the channel with current
`10` are the same `double`, and the bracketed term is `0`. -/
theorem exampleChannelOpen_bracket : exampleChannelOpen.bracket 1 = 0 := by
  have h1 : roundFloat (10) = 10 := by
    have h := roundBinary_eq 24 (-126) (10) (3) 10485760
      (by rw [abs_of_pos (by norm_num)]; norm_num)
      (by rw [abs_of_pos (by norm_num)]; norm_num) (by norm_num)
      (by rw [abs_lt]; constructor <;> norm_num)
    rw [roundFloat, h]
    norm_num
  have h2 : roundDouble (10 / 1000000) = 5902958103587057 / 590295810358705651712 := by
    have h := roundBinary_eq 53 (-1022) (10 / 1000000) (-17) 5902958103587057
      (by rw [abs_of_pos (by norm_num)]; norm_num)
      (by rw [abs_of_pos (by norm_num)]; norm_num) (by norm_num)
      (by rw [abs_lt]; constructor <;> norm_num)
    rw [roundDouble, h]
    norm_num
  have h3 : roundDouble (5902958103587057 / 590295810358705651712 / 1) = 5902958103587057 / 590295810358705651712 := by
    have h := roundBinary_eq 53 (-1022) (5902958103587057 / 590295810358705651712 / 1) (-17) 5902958103587057
      (by rw [abs_of_pos (by norm_num)]; norm_num)
      (by rw [abs_of_pos (by norm_num)]; norm_num) (by norm_num)
      (by rw [abs_lt]; constructor <;> norm_num)
    rw [roundDouble, h]
    norm_num
  have h4 : roundDouble (1 / 100000) = 5902958103587057 / 590295810358705651712 := by
    have h := roundBinary_eq 53 (-1022) (1 / 100000) (-17) 5902958103587057
      (by rw [abs_of_pos (by norm_num)]; norm_num)
      (by rw [abs_of_pos (by norm_num)]; norm_num) (by norm_num)
      (by rw [abs_lt]; constructor <;> norm_num)
    rw [roundDouble, h]
    norm_num
  simp only [TSysfsAdcChannelRes.bracket, TSysfsAdcChannelRes.amperes, exampleChannelOpen,
    exampleChannelRes]
  push_cast
  rw [h1, mul_one, h1, h2, h3, h4, sub_self]
  simp [roundDouble, roundBinary]

/-- Where rounding decides: with the scale `0.50000001`, the average `2000`,
the current `10` and `Resistance1 = 100000`, the bracketed term is not zero in
exact arithmetic, the code computes it as zero, and `GetValue` returns
positive infinity. -/
theorem GetValue_open_circuit :
    ((10 : ℚ) * 1 / 1000000) / (exampleOpen.IIOScale * 2000 / 1000) - 1 / 100000 ≠ 0 ∧
      exampleChannelOpen.bracket (TSysfsAdcChannelRes.voltage exampleHeader exampleOpen 2000) = 0 ∧
      ∃ c1 o1, TSysfsAdcChannelRes.GetValue exampleHeader exampleChannelOpen exampleOpen =
        .ok (.infinity, c1, o1) := by
  have hwf : exampleChannelOpen.d.WellFormed := by
    simp [TSysfsAdcChannelPrivate.WellFormed, exampleChannelOpen, exampleChannelRes,
      exampleChannel]
  have hB : exampleChannelOpen.bracket (TSysfsAdcChannelRes.voltage exampleHeader exampleOpen 2000) = 0 := by
    rw [exampleOpen_voltage, exampleChannelOpen_bracket]
  have hchk : exampleOpen.CheckVoltage 2000 = true := by
    simp only [TSysfsAdc.CheckVoltage, exampleOpen, exampleMux]
    norm_num
  obtain ⟨r, c1, o1, hret⟩ :=
    GetValue_resistance_returns exampleHeader exampleChannelOpen exampleOpen rfl hwf
  obtain ⟨value, -, -, -, hval, hr⟩ :=
    GetValue_resistance_reading exampleHeader exampleChannelOpen exampleOpen r c1 o1 hret
  have hv : value = 2000 := by
    rw [hval]
    rfl
  subst hv
  have hinf : r = .infinity := by
    rw [hr]
    have hmax : (2000 : Int) < exampleHeader.ADC_VALUE_MAX := by decide
    have hR1 : ¬ exampleChannelOpen.Resistance1 = 0 := by
      simp [exampleChannelOpen, exampleChannelRes]
    simp only [TSysfsAdcChannelRes.valueOf, hmax, hchk, if_true, exampleOpen_voltage,
      exampleChannelOpen_bracket, one_ne_zero, hR1, and_self, if_false]
  refine ⟨?_, hB, c1, o1, ?_⟩
  · simp only [exampleOpen]
    norm_num
  · rw [hret, hinf]

/-! ## The invariant of the averaging buffer -/

/-- Whenever successive calls from any channel return, the channel is left
ready. -/
theorem callsGetAverageValue_ready (K : Header) (n : Nat) :
    ∀ {d d1 : TSysfsAdcChannelPrivate} {o o1 : TSysfsAdc} {r : Int},
      callsGetAverageValue K n d o = .ok (r, d1, o1) → d1.Ready = true := by
  induction n with
  | zero =>
    intro d d1 o o1 r h
    simp only [callsGetAverageValue] at h
    obtain ⟨rfl, -, -⟩ := GetAverageValue_of_ok h
    exact (afterCall_static d o.env.rawFile o.env.reads).2.2
  | succ n ih =>
    intro d d1 o o1 r h
    simp only [callsGetAverageValue] at h
    cases hg : GetAverageValue K d o with
    | error e => simp [hg] at h
    | ok p =>
      obtain ⟨v0, d0, o0⟩ := p
      simp only [hg] at h
      exact ih h

/-- C11: a channel is constructed with a positive window
`c = readings_number * AveragingWindow` (zero-filled buffer, sum `0`, cursor
`0`, not ready) and `GetAverageValue` is called `n + 1` times, on any raw
file. The calls return when the multiplexer can be driven, and whenever they
return the channel is left with the running sum equal to the sum of the
buffer, a buffer of length `c`, a cursor in `0 <= Pos < c` and the ready flag
set; the calls have read `c + n * readings_number` samples, a whole window in
the first call and `readings_number` in each later one. -/
theorem GetAverageValue_invariant (K : Header) (owner : TSysfsAdc) (index : Int) (name : String)
    (readings_number decimal_places discharge_channel : Int) (mqtt_type : String)
    (multiplier : ℚ) (ch : TSysfsAdcChannel) (n : Nat)
    (hnew : TSysfsAdcChannel.new owner index name readings_number decimal_places
      discharge_channel mqtt_type multiplier = .ok ch)
    (hc : 0 < readings_number * owner.AveragingWindow) :
    (ch.d.Buffer = List.replicate (readings_number * owner.AveragingWindow).toNat 0 ∧
      ch.d.Sum = 0 ∧ ch.d.Pos = 0 ∧ ch.d.Ready = false) ∧
    (owner.selectable = true →
      ∃ r d1 o1, callsGetAverageValue K n ch.d owner = .ok (r, d1, o1)) ∧
    (∀ r d1 o1, callsGetAverageValue K n ch.d owner = .ok (r, d1, o1) →
      d1.Sum = d1.Buffer.sum ∧
      (d1.Buffer.length : Int) = readings_number * owner.AveragingWindow ∧
      0 ≤ d1.Pos ∧ d1.Pos < readings_number * owner.AveragingWindow ∧
      d1.Ready = true ∧
      o1.env.reads = owner.env.reads + (readings_number * owner.AveragingWindow).toNat
        + n * readings_number.toNat) := by
  obtain ⟨hfresh, hwin, hrn⟩ := new_fresh hnew hc
  have hdrawn : ch.d.drawn = (readings_number * owner.AveragingWindow).toNat := by
    simp [TSysfsAdcChannelPrivate.drawn, hfresh.2.1, hwin]
  refine ⟨?_, fun hs => ?_, ?_⟩
  · have hneg : ¬ readings_number * owner.AveragingWindow < 0 := by omega
    simp only [TSysfsAdcChannel.new, hneg, if_false, Except.ok.injEq] at hnew
    subst hnew
    exact ⟨rfl, rfl, rfl, rfl⟩
  · obtain ⟨d1, o1, h1, -⟩ := callsGetAverageValue_circular K n ch.d owner hs (Or.inl hfresh)
    exact ⟨_, d1, o1, h1⟩
  · intro r d1 o1 h
    obtain ⟨-, hcirc, hreads, hst⟩ := callsGetAverageValue_of_ok K n h (Or.inl hfresh)
    obtain ⟨⟨hpos, hlen, hp0, hp1⟩, hsum, -, -⟩ := hcirc
    rw [hdrawn, hrn] at hreads
    rw [hst, hwin] at hp1 hlen
    refine ⟨hsum, ?_, hp0, hp1, callsGetAverageValue_ready K n h, hreads⟩
    rw [hlen]
    exact Int.toNat_of_nonneg hc.le

/-- C11 on the example channel (window `4`, two readings per cycle) and the
raw file that steps from `500` to `1000`: three calls return and leave the sum
equal to the sum of the buffer, four slots, the cursor inside the window and
the ready flag set. -/
theorem GetAverageValue_invariant_witness :
    ∃ r d1 o1, callsGetAverageValue exampleHeader 2 exampleChannel.d exampleStep =
        .ok (r, d1, o1) ∧
      d1.Sum = d1.Buffer.sum ∧ (d1.Buffer.length : Int) = 2 * exampleStep.AveragingWindow ∧
      0 ≤ d1.Pos ∧ d1.Pos < 2 * exampleStep.AveragingWindow ∧ d1.Ready = true := by
  obtain ⟨-, hret, hinv⟩ := GetAverageValue_invariant exampleHeader exampleStep 3 "A1" 2 2 (-1)
    "" 1000 exampleChannel 2 rfl (by decide)
  obtain ⟨r, d1, o1, h⟩ := hret rfl
  obtain ⟨h1, h2, h3, h4, h5, -⟩ := hinv r d1 o1 h
  exact ⟨r, d1, o1, h, h1, h2, h3, h4, h5⟩

/-! ## The encoding of the multiplexer input -/

/-- A returning `InitGPIO` has written to no value file. -/
theorem InitGPIO_of_ok_noValue {g : Int} {o o1 : TSysfsAdc}
    (h : TSysfsAdcMux.InitGPIO g o = .ok o1) :
    ∃ evs, o1 = o.advanced o.Initialized o.CurrentMuxInput 0 evs ∧
      ∀ e ∈ evs, e.isGpioValue = false := by
  unfold TSysfsAdcMux.InitGPIO at h
  by_cases hd : o.env.directionOpens g = true
  · rw [if_pos hd] at h
    injection h with h
    subst h
    exact ⟨[.gpioDirection g], emit_eq_advanced o _, by simp [Event.isGpioValue]⟩
  · rw [if_neg hd] at h
    by_cases he : (!o.env.exportOpens) = true
    · rw [if_pos he] at h
      cases h
    · rw [if_neg he] at h
      simp only at h
      by_cases hx : (!(o.env.emit (.gpioExport g)).directionOpensExported g) = true
      · rw [if_pos hx] at h
        cases h
      · rw [if_neg hx] at h
        injection h with h
        subst h
        exact ⟨[.gpioExport g, .gpioDirection g], by simp [TSysfsAdc.advanced, Env.emit],
          by simp [Event.isGpioValue]⟩

/-- A returning `InitMux` has written to no value file. -/
theorem InitMux_of_ok_noValue {o o1 : TSysfsAdc} (h : TSysfsAdcMux.InitMux o = .ok o1) :
    ∃ evs, o1 = o.advanced true o.CurrentMuxInput 0 evs ∧
      ∀ e ∈ evs, e.isGpioValue = false := by
  unfold TSysfsAdcMux.InitMux at h
  by_cases hi : o.Initialized = true
  · rw [if_pos hi] at h
    injection h with h
    subst h
    refine ⟨[], ?_, by simp⟩
    rw [← hi, advanced_self]
  · rw [if_neg hi] at h
    cases hA : TSysfsAdcMux.InitGPIO o.GpioMuxA o with
    | error e => simp [hA] at h
    | ok oA =>
      simp only [hA] at h
      cases hB : TSysfsAdcMux.InitGPIO oA.GpioMuxB oA with
      | error e => simp [hB] at h
      | ok oB =>
        simp only [hB] at h
        cases hC : TSysfsAdcMux.InitGPIO oB.GpioMuxC oB with
        | error e => simp [hC] at h
        | ok oC =>
          simp only [hC] at h
          injection h with h
          subst h
          obtain ⟨eA, rfl, hAev⟩ := InitGPIO_of_ok_noValue hA
          obtain ⟨eB, rfl, hBev⟩ := InitGPIO_of_ok_noValue hB
          obtain ⟨eC, rfl, hCev⟩ := InitGPIO_of_ok_noValue hC
          refine ⟨eA ++ eB ++ eC, by simp [TSysfsAdc.advanced, List.append_assoc], ?_⟩
          intro e he
          simp only [List.mem_append] at he
          rcases he with (he | he) | he
          · exact hAev e he
          · exact hBev e he
          · exact hCev e he

/-- A returning `SetMuxABC n` on a multiplexer that has another input selected
has added, after the events of a possible initialization, which write to no
value file, the three value writes `n & 1`, `n & 2`, `n & 4` and one sleep. -/
theorem SetMuxABC_of_ok_switch {n : Int} {o o1 : TSysfsAdc}
    (h : TSysfsAdcMux.SetMuxABC n o = .ok o1) (hn : o.CurrentMuxInput ≠ n) :
    ∃ e0, (∀ e ∈ e0, e.isGpioValue = false) ∧
      o1.env.trace = o.env.trace ++ e0 ++ [Event.gpioValue o.GpioMuxA (Int.land n 1),
        Event.gpioValue o.GpioMuxB (Int.land n 2), Event.gpioValue o.GpioMuxC (Int.land n 4),
        Event.usleep (o.MinSwitchIntervalMs * 1000)] := by
  unfold TSysfsAdcMux.SetMuxABC at h
  cases h0 : TSysfsAdcMux.InitMux o with
  | error e => simp [h0] at h
  | ok o0 =>
    simp only [h0] at h
    obtain ⟨e0, rfl, hev0⟩ := InitMux_of_ok_noValue h0
    have hn' : ¬ (o.advanced true o.CurrentMuxInput 0 e0).CurrentMuxInput = n := hn
    rw [if_neg hn'] at h
    cases hA : TSysfsAdcMux.SetGPIOValue (o.advanced true o.CurrentMuxInput 0 e0).GpioMuxA
        (Int.land n 1) (o.advanced true o.CurrentMuxInput 0 e0) with
    | error e => simp [hA] at h
    | ok oA =>
      simp only [hA] at h
      cases hB : TSysfsAdcMux.SetGPIOValue oA.GpioMuxB (Int.land n 2) oA with
      | error e => simp [hB] at h
      | ok oB =>
        simp only [hB] at h
        cases hC : TSysfsAdcMux.SetGPIOValue oB.GpioMuxC (Int.land n 4) oB with
        | error e => simp [hC] at h
        | ok oC =>
          simp only [hC] at h
          injection h with h
          subst h
          have hA' := SetGPIOValue_of_ok hA
          subst hA'
          have hB' := SetGPIOValue_of_ok hB
          subst hB'
          have hC' := SetGPIOValue_of_ok hC
          subst hC'
          exact ⟨e0, hev0, by simp [TSysfsAdc.advanced, Env.emit]⟩

/-- The bitwise conjunctions of an index between `0` and `7` with `1`, `2` and
`4`, by its binary digits. -/
theorem land_digits (n : Int) (h0 : 0 ≤ n) (h7 : n ≤ 7) :
    Int.land n 1 = n % 2 ∧ Int.land n 2 = 2 * (n / 2 % 2) ∧ Int.land n 4 = 4 * (n / 4 % 2) := by
  interval_cases n <;> exact ⟨rfl, rfl, rfl⟩

/-- C12 as stated fails: on the example device, whose selected input is `3`,
`SetMuxABC 2` writes `0`, `2` and `0` to the lines A, B and C; the second
binary digit of `2` is `1`, and what line B receives is `2`, which is neither
`0` nor `1`. -/
theorem SetMuxABC_writes_two :
    TSysfsAdcMux.SetMuxABC 2 exampleMux =
      .ok { exampleMux with
            CurrentMuxInput := 2
            env := { exampleEnv with trace := [Event.gpioValue 10 0, Event.gpioValue 11 2,
              Event.gpioValue 12 0, Event.usleep 5000] } } ∧
    ((2 : Int) / 2) % 2 = 1 ∧ (2 : Int) ≠ 0 ∧ (2 : Int) ≠ 1 := by
  refine ⟨rfl, by decide, by decide, by decide⟩

/-- C12, amended: for an input index `n` with `0 <= n <= 7` different from the
selected input, `SetMuxABC n` returns when the GPIO lines can be driven, and
whenever it returns the writes to value files it has added to the trace are
exactly three: `n & 1 = n mod 2` to line A, `n & 2 = 2 * ((n div 2) mod 2)` to
line B and `n & 4 = 4 * ((n div 4) mod 2)` to line C, each of them `0` when the
binary digit is `0` and the weight of the digit (`1`, `2` or `4`) when it is
`1`. -/
theorem SetMuxABC_encoding (o : TSysfsAdc) (n : Int) (h0 : 0 ≤ n) (h7 : n ≤ 7)
    (hn : o.CurrentMuxInput ≠ n) :
    (o.gpioWorks = true → ∃ o1, TSysfsAdcMux.SetMuxABC n o = .ok o1) ∧
    (∀ o1, TSysfsAdcMux.SetMuxABC n o = .ok o1 →
      ∃ e0 e1, o1.env.trace = o.env.trace ++ e0 ++ e1 ∧
        e0.filter Event.isGpioValue = [] ∧
        e1.filter Event.isGpioValue = [Event.gpioValue o.GpioMuxA (n % 2),
          Event.gpioValue o.GpioMuxB (2 * (n / 2 % 2)),
          Event.gpioValue o.GpioMuxC (4 * (n / 4 % 2))]) ∧
    (n % 2 = 0 ∨ n % 2 = 1) ∧ (n / 2 % 2 = 0 ∨ n / 2 % 2 = 1) ∧
    (n / 4 % 2 = 0 ∨ n / 4 % 2 = 1) := by
  obtain ⟨hA, hB, hC⟩ := land_digits n h0 h7
  refine ⟨fun hw => ?_, fun o1 h => ?_, by omega, by omega, by omega⟩
  · obtain ⟨evs, h, -⟩ := SetMuxABC_ok n o hw
    exact ⟨_, h⟩
  · obtain ⟨e0, hev0, ht⟩ := SetMuxABC_of_ok_switch h hn
    refine ⟨e0, _, ht, ?_, ?_⟩
    · rw [List.filter_eq_nil_iff]
      intro e he
      simp [hev0 e he]
    · simp [Event.isGpioValue, hA, hB, hC]

/-- C12, amended, on the example device, whose selected input is `3`: for
`n = 6` the call returns and the values written are `0`, `2` and `4`. -/
theorem SetMuxABC_encoding_witness :
    ∃ o1, TSysfsAdcMux.SetMuxABC 6 exampleMux = .ok o1 ∧
      ∃ e0 e1, o1.env.trace = exampleMux.env.trace ++ e0 ++ e1 ∧
        e0.filter Event.isGpioValue = [] ∧
        e1.filter Event.isGpioValue = [Event.gpioValue 10 0, Event.gpioValue 11 2,
          Event.gpioValue 12 4] := by
  obtain ⟨hret, hform, -⟩ :=
    SetMuxABC_encoding exampleMux 6 (by decide) (by decide) (by decide)
  obtain ⟨o1, h⟩ := hret rfl
  exact ⟨o1, h, hform o1 h⟩

/-! ## Rounding of the average -/

/-- The function `round` gives a nearest integer, and at a tie the one farther
from zero. -/
theorem cround_nearest (x : ℚ) :
    |((cround x : Int) : ℚ) - x| ≤ 1 / 2 ∧
      (|((cround x : Int) : ℚ) - x| = 1 / 2 → |x| < |((cround x : Int) : ℚ)|) := by
  unfold cround
  by_cases hx : 0 ≤ x
  · rw [if_pos hx]
    have h1 : ((⌊x + 1 / 2⌋ : Int) : ℚ) ≤ x + 1 / 2 := Int.floor_le _
    have h2 : x + 1 / 2 < ((⌊x + 1 / 2⌋ : Int) : ℚ) + 1 := Int.lt_floor_add_one _
    refine ⟨abs_le.mpr ⟨by linarith, by linarith⟩, fun htie => ?_⟩
    have hup : ((⌊x + 1 / 2⌋ : Int) : ℚ) - x = 1 / 2 := by
      rcases abs_eq (by norm_num : (0 : ℚ) ≤ 1 / 2) |>.mp htie with h | h
      · exact h
      · linarith
    rw [abs_of_nonneg hx, abs_of_nonneg (by linarith)]
    linarith
  · rw [if_neg hx]
    have hx' : x < 0 := not_le.mp hx
    have h1 : x - 1 / 2 ≤ ((⌈x - 1 / 2⌉ : Int) : ℚ) := Int.le_ceil _
    have h2 : ((⌈x - 1 / 2⌉ : Int) : ℚ) < x - 1 / 2 + 1 := Int.ceil_lt_add_one _
    refine ⟨abs_le.mpr ⟨by linarith, by linarith⟩, fun htie => ?_⟩
    have hdown : ((⌈x - 1 / 2⌉ : Int) : ℚ) - x = -(1 / 2) := by
      rcases abs_eq (by norm_num : (0 : ℚ) ≤ 1 / 2) |>.mp htie with h | h
      · linarith
      · exact h
    rw [abs_of_neg hx', abs_of_neg (by linarith)]
    linarith

/-- With an integer running sum the quotient is truncated before `round` sees
it. -/
theorem average_integer_truncates (K : Header) (sum window : Int)
    (hint : K.sumIsFloating = false) : average K sum window = Int.tdiv sum window := by
  simp [average, hint]

/-- C13: with the running sum declared floating-point, the value a returning
call of `GetAverageValue` yields is `round (Sum / ChannelAveragingWindow)` for
the running sum and the window the call leaves: an integer at distance at most
`1/2` from the exact quotient, and at distance exactly `1/2` the one farther
from zero. -/
theorem GetAverageValue_rounds_nearest (K : Header) (d d1 : TSysfsAdcChannelPrivate)
    (o o1 : TSysfsAdc) (value : Int) (hfloat : K.sumIsFloating = true)
    (h : GetAverageValue K d o = .ok (value, d1, o1)) :
    value = cround ((d1.Sum : ℚ) / (d1.ChannelAveragingWindow : ℚ)) ∧
      |(value : ℚ) - (d1.Sum : ℚ) / (d1.ChannelAveragingWindow : ℚ)| ≤ 1 / 2 ∧
      (|(value : ℚ) - (d1.Sum : ℚ) / (d1.ChannelAveragingWindow : ℚ)| = 1 / 2 →
        |(d1.Sum : ℚ) / (d1.ChannelAveragingWindow : ℚ)| < |(value : ℚ)|) := by
  obtain ⟨-, hval, -⟩ := GetAverageValue_of_ok h
  have hv : value = cround ((d1.Sum : ℚ) / (d1.ChannelAveragingWindow : ℚ)) := by
    rw [hval]
    simp [average, hfloat]
  refine ⟨hv, ?_⟩
  rw [hv]
  exact cround_nearest _

/-- C13 on an example: a ready buffer `[1, 1]` of window `2` takes one sample
`2`; the running sum is then `3`, the exact quotient `3/2`, and the call
returns `2`, where the truncated quotient is `1`. -/
theorem GetAverageValue_rounds_nearest_witness :
    exampleReady.Ready = true ∧
    ∃ d1 o1, GetAverageValue exampleFloating exampleReady exampleTwo = .ok (2, d1, o1) ∧
      d1.Sum = 3 ∧ d1.ChannelAveragingWindow = 2 ∧ Int.tdiv 3 2 = 1 := by
  obtain ⟨o1, evs, h, -⟩ := GetAverageValue_ok exampleFloating exampleReady exampleTwo rfl
    ⟨by decide, by decide, by decide, by decide⟩
  have hsum : (exampleReady.afterCall exampleTwo.env.rawFile exampleTwo.env.reads).Sum = 3 := rfl
  have hwin : (exampleReady.afterCall exampleTwo.env.rawFile
      exampleTwo.env.reads).ChannelAveragingWindow = 2 := rfl
  have hround := (GetAverageValue_rounds_nearest exampleFloating exampleReady _ exampleTwo o1 _
    rfl h).1
  have h2 : cround ((3 : Int) / (2 : Int) : ℚ) = 2 := by
    simp only [cround]
    norm_num
  refine ⟨rfl, _, o1, ?_, hsum, hwin, by decide⟩
  rw [h, hround, hsum, hwin, h2]

/-! ## Scale selection when no token converts -/

/-- A loop over tokens none of which converts ends with the pair it started
from. -/
theorem scaleLoop_all_invalid (stod : String → StodResult) (d : ℚ) (scales : List String)
    (h : ∀ t ∈ scales, stod t = .invalid_argument) (best : String × ℚ) :
    scaleLoop stod d scales best = .ok best := by
  induction scales with
  | nil => rfl
  | cons t rest ih =>
    have ht := h t (List.mem_cons_self _ _)
    simp only [scaleLoop, ht]
    exact ih (fun x hx => h x (List.mem_cons_of_mem _ hx))

/-- When a list of available scales opens and none of its tokens converts,
`TChannelReader::SelectScale` commits nothing from the list: it writes nothing
and takes the scale from the scale file of the channel, else from
`in_voltage_scale`, and keeps the scale it had when neither opens. -/
theorem TChannelReader_SelectScale_fallback (P : ScaleConfig) (fs : ScaleFiles) (IIOScale : ℚ)
    (contents : String)
    (hopen : TryOpen fs [.channelAvailable, .voltageAvailable, .deviceAvailable] = some contents)
    (hnone : ∀ t ∈ P.StringSplit contents " ", P.stod t = .invalid_argument) :
    TChannelReader.SelectScale P fs IIOScale =
      match fs.opens .channelScale with
      | some text => .ok (P.extract text IIOScale, [])
      | none =>
        match fs.opens .voltageScale with
        | some text => .ok (P.extract text IIOScale, [])
        | none => .ok (IIOScale, []) := by
  simp only [TChannelReader.SelectScale, hopen, FindBestScale,
    scaleLoop_all_invalid P.stod P.Scale _ hnone]
  simp only [TryOpen]
  cases fs.opens .channelScale <;> cases fs.opens .voltageScale <;> simp

/-- The text `abc` splits at spaces into the one token `abc`. -/
theorem exampleSplit_abc : exampleSplit "abc" " " = ["abc"] := by
  simp [exampleSplit, splitAt]

/-- The token `abc` does not convert. -/
theorem stodDecimal_abc : stodDecimal "abc" = .invalid_argument := by
  simp [stodDecimal, skipSpaces, unsignedDecimal, scanDigits]

/-- The text `0.5` converts to `1/2`. -/
theorem stodDecimal_half : stodDecimal "0.5" = .value (1 / 2) := by
  simp [stodDecimal, skipSpaces, unsignedDecimal, scanDigits]
  norm_num
  exact roundDouble_half

/-- On the example files the list of available scales opens with the contents
`abc`. -/
theorem exampleScaleFiles_open :
    TryOpen exampleScaleFiles [.channelAvailable, .voltageAvailable, .deviceAvailable] =
      some "abc" := rfl

/-- No token of the example list converts. -/
theorem exampleScaleFiles_none :
    ∀ t ∈ exampleScaleConfig.StringSplit "abc" " ",
      exampleScaleConfig.stod t = .invalid_argument := by
  intro t ht
  have ht' : t ∈ exampleSplit "abc" " " := ht
  rw [exampleSplit_abc, List.mem_singleton] at ht'
  subst ht'
  exact stodDecimal_abc

/-- On the example files `TChannelReader::SelectScale` writes nothing and takes
the scale `1/2` from the scale file of the channel. -/
theorem TChannelReader_SelectScale_example :
    TChannelReader.SelectScale exampleScaleConfig exampleScaleFiles (1 / 4) =
      .ok (1 / 2, []) := by
  rw [TChannelReader_SelectScale_fallback exampleScaleConfig exampleScaleFiles (1 / 4) "abc"
    exampleScaleFiles_open exampleScaleFiles_none]
  simp [exampleScaleFiles, exampleScaleConfig, stodDecimal_half]

/-- C14, where the code departs from the claim: when a list of available
scales opens and none of its tokens converts, `TSysfsAdc::SelectScale` sets
`IIOScale` to `0`, the initial `best_scale`, and writes the empty
`best_scale_str` to the scale file of the channel, or throws when that file
does not open for writing; it reads no scale file. On the example files (the
list holds `abc`, the scale file of the channel holds `0.5`, the scale before
the call is `1/4`) it returns the scale `0` with the empty text written, and
not the scale `1/2` of the scale file with nothing written. -/
theorem SelectScale_commits_zero :
    (∀ (P : ScaleConfig) (fs : ScaleFiles) (IIOScale : ℚ) (contents : String),
      TryOpen fs [.channelAvailable, .voltageAvailable, .deviceAvailable] = some contents →
      (∀ t ∈ P.StringSplit contents " ", P.stod t = .invalid_argument) →
      TSysfsAdc.SelectScale P fs IIOScale =
        if fs.writable .channelScale then .ok (0, [(.channelScale, "")])
        else .error (.TAdcException "error opening IIO sysfs scale file")) ∧
    exampleScaleFiles.opens .channelAvailable = some "abc" ∧
    exampleScaleConfig.StringSplit "abc" " " = ["abc"] ∧
    exampleScaleConfig.stod "abc" = .invalid_argument ∧
    exampleScaleFiles.opens .channelScale = some "0.5" ∧
    exampleScaleConfig.extract "0.5" (1 / 4) = 1 / 2 ∧
    TSysfsAdc.SelectScale exampleScaleConfig exampleScaleFiles (1 / 4) =
      .ok (0, [(.channelScale, "")]) ∧
    TSysfsAdc.SelectScale exampleScaleConfig exampleScaleFiles (1 / 4) ≠ .ok (1 / 2, []) := by
  have hgen : ∀ (P : ScaleConfig) (fs : ScaleFiles) (IIOScale : ℚ) (contents : String),
      TryOpen fs [.channelAvailable, .voltageAvailable, .deviceAvailable] = some contents →
      (∀ t ∈ P.StringSplit contents " ", P.stod t = .invalid_argument) →
      TSysfsAdc.SelectScale P fs IIOScale =
        if fs.writable .channelScale then .ok (0, [(.channelScale, "")])
        else .error (.TAdcException "error opening IIO sysfs scale file") := by
    intro P fs IIOScale contents hopen hnone
    simp only [TSysfsAdc.SelectScale, hopen, scaleLoop_all_invalid P.stod P.Scale _ hnone]
    cases fs.writable .channelScale <;> simp
  have hrun : TSysfsAdc.SelectScale exampleScaleConfig exampleScaleFiles (1 / 4) =
      .ok (0, [(.channelScale, "")]) := by
    rw [hgen exampleScaleConfig exampleScaleFiles (1 / 4) "abc" exampleScaleFiles_open
      exampleScaleFiles_none]
    rfl
  have hextract : exampleScaleConfig.extract "0.5" (1 / 4) = 1 / 2 := by
    simp [exampleScaleConfig, stodDecimal_half]
  refine ⟨hgen, rfl, exampleSplit_abc, stodDecimal_abc, rfl, hextract, hrun, ?_⟩
  rw [hrun]
  simp

end WbHomaAdc
